import Mathlib

/-!
# werf stage pipeline core: selection of cached stages, mount labels, import checksum command

A shallow embedding of `pkg/build/stage/base.go`, `pkg/build/stage/git_latest_patch.go`
and `pkg/build/stage/imports.go`, of the isolation and storage driver selection of
`cmd/werf/common/container_runtime.go` and `pkg/buildah/buildah.go`, and of the URL helpers of
`docs/backend/main.go`.

Conventions of the embedding:

* a Go `string` is a Lean `String`, read as its list of characters;
* a Go `map[string]T` is an `AList` (an association list without duplicate keys);
  `range` over a map visits the entries of the association list;
* a Go `(T, error)` result is an `Except String T`; a method that changes an image in place
  and returns an `error` gives the image after the call and the `Failure`, if any; a method
  that reads or writes the import metadata of the conveyor takes the state before the call
  and gives the state after it;
* methods of collaborators whose code is outside the embedded files (git repositories,
  git mappings, the file system) are fields of records, so every theorem holds for all of
  their possible behaviours.
-/

set_option autoImplicit false

/-! ## Data model -/

deriving instance DecidableEq for Except

/-- A Go `map[string]string` of image labels. -/
abbrev Labels := AList (fun _ : String => String)

/-- A Go `map[string][]string`: mountpoints by mount type, or by `from` path. -/
abbrev Mounts := AList (fun _ : String => List String)

/-- The commit information of a git mapping: `CommitInfo` of the git mapping code. -/
structure CommitInfo where
  Commit : String
  VirtualMerge : Bool
  VirtualMergeFromCommit : String
deriving DecidableEq, Repr

/-- The identifier of a stored stage: `image.StageID`. -/
structure StageID where
  Digest : String
  UniqueID : Int
deriving DecidableEq, Repr

/-- Modelled from the spec: `image.StageID.UniqueIDAsTime` is not part of the embedded
files. The spec describes `UniqueID` as a timestamp-derived identifier whose
`UniqueIDAsTime()` yields a total order; the instant is the identifier itself, and
`time.Time.Before` is `<` on instants. -/
def StageID.UniqueIDAsTime (id : StageID) : Int := id.UniqueID

/-- The `Info` part of a stage description: the image name and its labels. -/
structure ImageInfo where
  Name : String
  Labels : Labels
deriving DecidableEq

/-- The persisted record of a built stage: `image.StageDescription`. -/
structure StageDescription where
  StageID : StageID
  Info : ImageInfo
deriving DecidableEq

/-- The part of a git repository used by the stages: `GitRepo().GetName`,
`GitRepo().IsAncestor` and `GitRepo().IsCommitExists`. -/
structure GitRepo where
  GetName : String
  IsAncestor : String → String → Except String Bool
  IsCommitExists : String → Except String Bool

/-- The part of a `GitMapping` used by the stages. `GetLatestCommitInfo` is the result of the
query for the mapping's current checkout; the queries on a previous built image take the
image, which may be nil. -/
structure GitMapping where
  Name : String
  GitRepo : GitRepo
  GetLatestCommitInfo : Except String CommitInfo
  GetBuiltImageCommitInfo : Labels → Except String CommitInfo
  GetBaseCommitForPrevBuiltImage : Option StageDescription → Except String String
  IsPatchEmpty : Option StageDescription → Except String Bool
  GetPatchContent : Option StageDescription → Except String String

/-! ## Go standard library: `strings`, `path`, `path/filepath`

Strings are read as lists of characters. The functions follow the documentation of the Go
standard library; they are total. -/

namespace strings

/-- Go `strings.HasPrefix`. -/
def HasPrefix (s pre : String) : Bool := pre.data.isPrefixOf s.data

/-- Go `strings.Contains`: `substr` starts at some position of `s`. -/
def Contains (s substr : String) : Bool :=
  s.data.tails.any (fun t => substr.data.isPrefixOf t)

/-- Replace the non-overlapping occurrences of the non-empty `old`, from left to right;
`skip` is the number of characters of the last occurrence that are still to be dropped. -/
def replaceAllAux (old new : List Char) : Nat → List Char → List Char
  | _, [] => []
  | skip + 1, _ :: cs => replaceAllAux old new skip cs
  | 0, c :: cs =>
    if old.isPrefixOf (c :: cs) then new ++ replaceAllAux old new (old.length - 1) cs
    else c :: replaceAllAux old new 0 cs

/-- Go `strings.ReplaceAll`. For an empty `old`, `new` is inserted at the beginning of the
string and after every character. -/
def ReplaceAll (s old new : String) : String :=
  if old.data = [] then ⟨new.data ++ s.data.flatMap (fun c => c :: new.data)⟩
  else ⟨replaceAllAux old.data new.data 0 s.data⟩

/-- Cut a string around the first occurrence of the separator: the text before it and the
text after it, `none` when the separator does not occur. -/
def cut (sep : List Char) : List Char → Option (List Char × List Char)
  | [] => if sep = [] then some ([], []) else none
  | c :: cs =>
    if sep.isPrefixOf (c :: cs) then some ([], (c :: cs).drop sep.length)
    else (cut sep cs).map (fun r => (c :: r.1, r.2))

/-- At most `n` pieces of a string split at a non-empty separator; the last piece is the
unsplit rest. -/
def splitAux (sep : List Char) : Nat → List Char → List (List Char)
  | 0, _ => []
  | 1, s => [s]
  | n + 2, s =>
    match cut sep s with
    | none => [s]
    | some (a, b) => a :: splitAux sep (n + 1) b

/-- At most `n` pieces of a string split after every character (the empty separator). -/
def explode : Nat → List Char → List (List Char)
  | 0, _ => []
  | _, [] => []
  | 1, s => [s]
  | n + 2, c :: cs => if cs = [] then [[c]] else [c] :: explode (n + 1) cs

/-- Go `strings.SplitN` for a count `n ≥ 0`. -/
def SplitN (s sep : String) (n : Nat) : List String :=
  if sep.data = [] then (explode n s.data).map String.mk
  else (splitAux sep.data n s.data).map String.mk

/-- Go `strings.Split`: all the pieces; a string of `k` characters has at most `k + 1`. -/
def Split (s sep : String) : List String := SplitN s sep (s.data.length + 1)

/-- The elements joined with the separator between them. -/
def joinAux (sep : List Char) : List (List Char) → List Char
  | [] => []
  | [a] => a
  | a :: b :: rest => a ++ sep ++ joinAux sep (b :: rest)

/-- Go `strings.Join`. -/
def Join (elems : List String) (sep : String) : String :=
  ⟨joinAux sep.data (elems.map String.data)⟩

/-- Go `strings.TrimRight`: drop the trailing characters that are in `cutset`. -/
def TrimRight (s cutset : String) : String :=
  ⟨s.data.rdropWhile (fun c => cutset.data.contains c)⟩

end strings

namespace strings

/-- The order of Go strings, byte by byte; for UTF-8 strings it is the order character by
character. -/
def lessEq : List Char → List Char → Bool
  | [], _ => true
  | _ :: _, [] => false
  | a :: as, b :: bs => a.toNat < b.toNat || (a = b && lessEq as bs)

end strings

namespace sort

/-- Go `sort.Strings`: the slice in increasing order. -/
def Strings (x : List String) : List String :=
  x.insertionSort (fun a b => strings.lessEq a.data b.data = true)

end sort

namespace strings

/-- Go `unicode.IsSpace`: the characters with the Unicode property White_Space. -/
def isSpace (c : Char) : Bool :=
  let n := c.toNat
  (9 ≤ n && n ≤ 13) || n = 32 || n = 133 || n = 160 || n = 5760 || (8192 ≤ n && n ≤ 8202) ||
    n = 8232 || n = 8233 || n = 8239 || n = 8287 || n = 12288

/-- Go `strings.TrimSpace`: the string without its leading and trailing white space. -/
def TrimSpace (s : String) : String :=
  ⟨(s.data.dropWhile isSpace).rdropWhile isSpace⟩

end strings

namespace strconv

/-- The escape of one character in a quoted string: the double quote, the backslash, the
newline, the carriage return and the tab are escaped with a backslash. -/
def quoteChar (c : Char) : List Char :=
  if c = Char.ofNat 34 then [Char.ofNat 92, Char.ofNat 34]
  else if c = Char.ofNat 92 then [Char.ofNat 92, Char.ofNat 92]
  else if c = Char.ofNat 10 then [Char.ofNat 92, 'n']
  else if c = Char.ofNat 13 then [Char.ofNat 92, 'r']
  else if c = Char.ofNat 9 then [Char.ofNat 92, 't']
  else [c]

/-- Go `strconv.Quote`, the verb `%q` of `fmt`: the string in double quotes. Go also escapes
the other control characters and the characters that are not printable; they are kept as they
are here, which is exact for commit identifiers. -/
def Quote (s : String) : String :=
  ⟨Char.ofNat 34 :: (s.data.flatMap quoteChar ++ [Char.ofNat 34])⟩

end strconv

namespace path

/-- The loop of `path.Clean` over the components of a path, with the components kept so far
in reverse: `..` removes the last kept component, is kept itself at the start of a relative
path, and is dropped at the root. -/
def cleanComponents (rooted : Bool) : List (List Char) → List (List Char) → List (List Char)
  | [], kept => kept.reverse
  | comp :: rest, kept =>
    if comp = [] ∨ comp = ['.'] then cleanComponents rooted rest kept
    else if comp = ['.', '.'] then
      match kept with
      | [] => if rooted then cleanComponents rooted rest [] else cleanComponents rooted rest [comp]
      | top :: below =>
        if top = ['.', '.'] then cleanComponents rooted rest (comp :: kept)
        else cleanComponents rooted rest below
    else cleanComponents rooted rest (comp :: kept)

/-- Go `path.Clean`: the shortest path equivalent to `path` by lexical processing (multiple
slashes, `.` elements, inner `..` elements and `..` elements at the root are eliminated);
the empty path is `.`. -/
def Clean (path : String) : String :=
  if path.data = [] then "."
  else
    let rooted := path.data.head? = some '/'
    let kept := cleanComponents rooted (strings.splitAux ['/'] (path.data.length + 1) path.data) []
    if rooted then ⟨'/' :: strings.joinAux ['/'] kept⟩
    else if kept = [] then "."
    else ⟨strings.joinAux ['/'] kept⟩

/-- Go `path.Join`: the non-empty elements joined with slashes, cleaned; empty when every
element is empty. -/
def Join (elem : List String) : String :=
  if elem.all (fun e => e.data = []) then ""
  else Clean (strings.Join (elem.filter (fun e => e.data ≠ [])) "/")

end path

namespace filepath

/-- Go `filepath.ToSlash` where the separator is the slash (any system but Windows). -/
def ToSlash (path : String) : String := path

/-- Go `filepath.FromSlash` where the separator is the slash (any system but Windows). -/
def FromSlash (path : String) : String := path

/-- Go `filepath.Clean` where the separator is the slash. -/
def Clean (p : String) : String := path.Clean p

/-- Go `filepath.Join` where the separator is the slash. -/
def Join (elem : List String) : String := path.Join elem

end filepath

/-! ## `base.go`: selection of a suitable stage -/

namespace BaseStage

/-- The loop body of `selectStageByOldestCreationTimestamp`: keep the first stage, replace
it by a stage that is strictly before it. -/
def oldestStep (oldestStage : Option StageDescription) (stageDesc : StageDescription) :
    Option StageDescription :=
  match oldestStage with
  | none => some stageDesc
  | some o =>
    if stageDesc.StageID.UniqueIDAsTime < o.StageID.UniqueIDAsTime then some stageDesc
    else some o

/-- Embedding of `BaseStage.selectStageByOldestCreationTimestamp` (base.go, 148-158). -/
def selectStageByOldestCreationTimestamp (stages : List StageDescription) :
    Except String (Option StageDescription) :=
  .ok (stages.foldl oldestStep none)

/-- Embedding of `BaseStage.SelectSuitableStage` (base.go, 220-222). -/
def SelectSuitableStage (stages : List StageDescription) :
    Except String (Option StageDescription) :=
  selectStageByOldestCreationTimestamp stages

/-- The first loop of `selectStagesAncestorsByGitMappings` (base.go, 164-178): the current
commit of every git mapping, `VirtualMergeFromCommit` for a virtual merge. -/
def currentCommitsByIndex : List GitMapping → List String → Except String (List String)
  | [], acc => .ok acc
  | gitMapping :: rest, acc =>
    match gitMapping.GetLatestCommitInfo with
    | .error err =>
      .error ("error getting latest commit of git mapping " ++ gitMapping.Name ++ ": " ++ err)
    | .ok currentCommitInfo =>
      let currentCommit :=
        if currentCommitInfo.VirtualMerge then currentCommitInfo.VirtualMergeFromCommit
        else currentCommitInfo.Commit
      currentCommitsByIndex rest (acc ++ [currentCommit])

/-- What the inner loop of `ScanImages` decides for one candidate. -/
inductive ScanOutcome where
  | suitable
  | ignored
  | failed (err : String)
deriving DecidableEq, Repr

/-- The inner loop of `ScanImages` (base.go, 182-212) for one candidate with the given
labels, from the git mapping of index `i` on. -/
def scanGitMappings (labels : Labels) (currentCommits : List String) :
    List GitMapping → Nat → ScanOutcome
  | [], _ => .suitable
  | gitMapping :: rest, i =>
    let currentCommit := currentCommits.getD i ""
    match gitMapping.GetBuiltImageCommitInfo labels with
    | .error _ => .ignored
    | .ok imageCommitInfo =>
      let commitToCheckAncestry :=
        if imageCommitInfo.VirtualMerge then imageCommitInfo.VirtualMergeFromCommit
        else imageCommitInfo.Commit
      match gitMapping.GitRepo.IsAncestor commitToCheckAncestry currentCommit with
      | .error err =>
        .failed ("error checking commits ancestry " ++ commitToCheckAncestry ++ "<-" ++
          currentCommit ++ ": " ++ err)
      | .ok false => .ignored
      | .ok true => scanGitMappings labels currentCommits rest (i + 1)

/-- The loop `ScanImages` (base.go, 180-215). -/
def scanImages (gitMappings : List GitMapping) (currentCommits : List String) :
    List StageDescription → List StageDescription → Except String (List StageDescription)
  | [], suitableStages => .ok suitableStages
  | stageDesc :: rest, suitableStages =>
    match scanGitMappings stageDesc.Info.Labels currentCommits gitMappings 0 with
    | .failed err => .error err
    | .ignored => scanImages gitMappings currentCommits rest suitableStages
    | .suitable => scanImages gitMappings currentCommits rest (suitableStages ++ [stageDesc])

/-- Embedding of `BaseStage.selectStagesAncestorsByGitMappings` (base.go, 160-218). -/
def selectStagesAncestorsByGitMappings (gitMappings : List GitMapping)
    (stages : List StageDescription) : Except String (List StageDescription) :=
  match currentCommitsByIndex gitMappings [] with
  | .error err => .error err
  | .ok currentCommits => scanImages gitMappings currentCommits stages []

end BaseStage

/-! ## `base.go`: the git dependencies of the next stage -/

/-- The image of a stage, `s.image`: its name and its stage description, which is nil until
the image is resolved. -/
structure StageImage where
  Name : String
  GetStageDescription : Option StageDescription

namespace BaseStage

/-- The loop of `getNextStageGitDependencies` (base.go, 122-136): the commit of every git
mapping, from the labels of the built image when the stage has one, from the latest commit of
the mapping otherwise. -/
def nextStageGitArgs (image : Option StageImage) :
    List GitMapping → List String → Except String (List String)
  | [], args => .ok args
  | gitMapping :: rest, args =>
    match image with
    | some ⟨imageName, some stageDescription⟩ =>
      match gitMapping.GetBuiltImageCommitInfo stageDescription.Info.Labels with
      | .error err =>
        .error ("unable to get built image commit info from image " ++ imageName ++ ": " ++ err)
      | .ok commitInfo => nextStageGitArgs image rest (args ++ [commitInfo.Commit])
    | _ =>
      match gitMapping.GetLatestCommitInfo with
      | .error err =>
        .error ("unable to get latest commit of git mapping " ++ gitMapping.Name ++ ": " ++ err)
      | .ok latestCommitInfo => nextStageGitArgs image rest (args ++ [latestCommitInfo.Commit])

/-- Embedding of `BaseStage.getNextStageGitDependencies` (base.go, 120-142). The hash function
`util.Sha256Hash` is outside the embedded files and is a parameter. -/
def getNextStageGitDependencies (Sha256Hash : List String → String)
    (gitMappings : List GitMapping) (image : Option StageImage) : Except String String :=
  match nextStageGitArgs image gitMappings [] with
  | .error err => .error err
  | .ok args => .ok (Sha256Hash (sort.Strings args))

end BaseStage

/-! ## `git_latest_patch.go` -/

namespace GitLatestPatchStage

/-- Embedding of `GitLatestPatchStage.SelectSuitableStage` (git_latest_patch.go, 68-74). -/
def SelectSuitableStage (gitMappings : List GitMapping) (stages : List StageDescription) :
    Except String (Option StageDescription) :=
  match BaseStage.selectStagesAncestorsByGitMappings gitMappings stages with
  | .error err =>
    .error ("unable to select cache images ancestors by git mappings: " ++ err)
  | .ok ancestorsImages => BaseStage.selectStageByOldestCreationTimestamp ancestorsImages

/-- The loop of `GitLatestPatchStage.IsEmpty` (git_latest_patch.go, 29-50); it stops at the
first git mapping whose patch is not empty. -/
def isEmptyLoop (prevBuiltImage : Option StageDescription) : List GitMapping → Except String Bool
  | [] => .ok true
  | gitMapping :: rest =>
    match gitMapping.GetBaseCommitForPrevBuiltImage prevBuiltImage with
    | .error err =>
      .error ("unable to get base commit for git mapping " ++ gitMapping.GitRepo.GetName ++
        ": " ++ err)
    | .ok commit =>
      match gitMapping.GitRepo.IsCommitExists commit with
      | .error err =>
        .error ("unable to check existence of commit " ++ strconv.Quote commit ++
          " in the repo " ++ gitMapping.GitRepo.GetName ++ ": " ++ err)
      | .ok false =>
        .error ("commit " ++ strconv.Quote commit ++ " is not exist in the repo " ++
          gitMapping.GitRepo.GetName)
      | .ok true =>
        match gitMapping.IsPatchEmpty prevBuiltImage with
        | .error err => .error err
        | .ok false => .ok false
        | .ok true => isEmptyLoop prevBuiltImage rest

/-- Embedding of `GitLatestPatchStage.IsEmpty` (git_latest_patch.go, 22-51). The method
`GitPatchStage.IsEmpty` of the embedded stage is outside the embedded files; `baseIsEmpty` is
its result for the call, and `GitPatchStage.IsEmpty` below gives this result as the spec
describes it. -/
def IsEmpty (baseIsEmpty : Except String Bool) (gitMappings : List GitMapping)
    (prevBuiltImage : Option StageDescription) : Except String Bool :=
  match baseIsEmpty with
  | .error err => .error err
  | .ok true => .ok true
  | .ok false => isEmptyLoop prevBuiltImage gitMappings

/-- Embedding of `GitLatestPatchStage.GetNextStageDependencies` (git_latest_patch.go, 76-78).
-/
def GetNextStageDependencies (Sha256Hash : List String → String)
    (gitMappings : List GitMapping) (image : Option StageImage) : Except String String :=
  BaseStage.getNextStageGitDependencies Sha256Hash gitMappings image

end GitLatestPatchStage

namespace GitPatchStage

/-- Modelled from the spec: `GitPatchStage.IsEmpty`, the method of the stage embedded in
`GitLatestPatchStage`, is not part of the embedded files. The spec says of the stages built
on it, GitCache and GitLatestPatch, that `IsEmpty` is true iff every mapping's patch is empty:
`IsPatchEmpty` of every git mapping is asked against the previous built image, and an error of
a git mapping is returned. -/
def IsEmpty (gitMappings : List GitMapping) (prevBuiltImage : Option StageDescription) :
    Except String Bool :=
  match gitMappings with
  | [] => .ok true
  | gitMapping :: rest =>
    match gitMapping.IsPatchEmpty prevBuiltImage with
    | .error err => .error err
    | .ok empty =>
      match IsEmpty rest prevBuiltImage with
      | .error err => .error err
      | .ok restEmpty => .ok (empty && restEmpty)

end GitPatchStage

namespace GitLatestPatchStage

/-- The loop of `GitLatestPatchStage.GetDependencies` (git_latest_patch.go, 56-63): the patch
text of every git mapping, appended to `args`. The method reads the name of the previous built
image for the text of the error, so the image is given. -/
def patchArgs (prevBuiltImage : StageDescription) :
    List GitMapping → List String → Except String (List String)
  | [], args => .ok args
  | gitMapping :: rest, args =>
    match gitMapping.GetPatchContent (some prevBuiltImage) with
    | .error err =>
      .error ("error getting patch between previous built image " ++ prevBuiltImage.Info.Name ++
        " and current commit for git mapping " ++ gitMapping.Name ++ ": " ++ err)
    | .ok patchContent => patchArgs prevBuiltImage rest (args ++ [patchContent])

/-- Embedding of `GitLatestPatchStage.GetDependencies` (git_latest_patch.go, 53-66). The hash
function `util.Sha256Hash` is outside the embedded files and is a parameter. -/
def GetDependencies (Sha256Hash : List String → String) (gitMappings : List GitMapping)
    (prevBuiltImage : StageDescription) : Except String String :=
  match patchArgs prevBuiltImage gitMappings [] with
  | .error err => .error err
  | .ok args => .ok (Sha256Hash args)

end GitLatestPatchStage

/-! ## `pkg/util`: helpers on string slices -/

namespace util

/-- Modelled from the spec: `util.IsStringsContainValue` is not part of the embedded files;
by its name and its use in `getServiceMountsFromConfig` it tells whether the value is an
element of the slice. -/
def IsStringsContainValue (arr : List String) (value : String) : Bool := arr.contains value

/-- Modelled from the spec: `util.UniqAppendString` is not part of the embedded files; it
appends the value unless the slice already contains it. -/
def UniqAppendString (arr : List String) (value : String) : List String :=
  if IsStringsContainValue arr value then arr else arr ++ [value]

/-- Modelled from the spec: `util.UniqStrings` is not part of the embedded files. The spec
calls its effect on the mountpoints of a label sorted de-dup (the mounts `/tmp/foo` and
`/tmp/bar` give the label `/tmp/bar;/tmp/foo`) and the merge rule a union of mountpoints per
key, de-duplicated: every string is kept once, and the result is in increasing order. -/
def UniqStrings (arr : List String) : List String :=
  sort.Strings (arr.foldl UniqAppendString [])

/-- Modelled from the spec: `util.RejectEmptyStrings` is not part of the embedded files; it
drops the empty strings of the slice. -/
def RejectEmptyStrings (arr : List String) : List String := arr.filter (fun v => v ≠ "")

end util

/-! ## `base.go`: mounts -/

/-- A mount of the configuration: `config.Mount`; `MountType` is its field `Type`. -/
structure Mount where
  To : String
  From : String
  MountType : String
deriving DecidableEq, Repr

/-- The label names of `pkg/image` used by `base.go` and `imports.go`. The constants are
declared outside the embedded files, so they are parameters of the embedding. -/
structure ImageConstants where
  WerfProjectRepoCommitLabel : String
  WerfMountTmpDirLabel : String
  WerfMountBuildDirLabel : String
  WerfMountCustomDirLabelPrefix : String
  WerfImportChecksumLabelPrefix : String

/-- The collaborators of `BaseStage.PrepareImage` outside the embedded files: the head commit
of the giterminism manager, `slug.LimitedSlug` at the default size,
`werf.GetSharedContextDir`, `util.ExpandPath`, `util.FileExists` and `os.MkdirAll` (which
returns an error or nothing). -/
structure PrepareEnv where
  HeadCommit : String
  LimitedSlug : String → String
  GetSharedContextDir : String
  ExpandPath : String → String
  FileExists : String → Except String Bool
  MkdirAll : String → Option String

/-- How a call ends when it does not return normally: with a returned error, or with a panic.
-/
inductive Failure where
  | error (msg : String)
  | panic (msg : String)
deriving DecidableEq, Repr

/-- Go `fmt.Errorf` with a text in front of a returned error; a panic is not caught. -/
def Failure.wrap (text : String) : Failure → Failure
  | .error msg => .error (text ++ msg)
  | .panic msg => .panic msg

/-- The part of the image under preparation that `PrepareImage` changes: the labels of the
service commit change options, the volumes of the run options and the service run commands of
its container. -/
structure LegacyImage where
  Labels : Labels
  Volumes : List String
  ServiceRunCommands : List String

/-- Embedding of `ServiceCommitChangeOptions().AddLabel` with a map of one label. -/
def LegacyImage.AddLabel (image : LegacyImage) (name value : String) : LegacyImage :=
  { image with Labels := image.Labels.insert name value }

/-- Embedding of `Container().AddServiceRunCommands` with one command. -/
def LegacyImage.AddServiceRunCommands (image : LegacyImage) (command : String) : LegacyImage :=
  { image with ServiceRunCommands := image.ServiceRunCommands ++ [command] }

/-- Embedding of `RunOptions().AddVolume`. -/
def LegacyImage.AddVolume (image : LegacyImage) (volume : String) : LegacyImage :=
  { image with Volumes := image.Volumes ++ [volume] }

/-- The fields of `BaseStage` read by `PrepareImage`. -/
structure BaseStage where
  imageTmpDir : String
  configMounts : List Mount
  projectName : String

/-- Embedding of `mergeMounts` (base.go, 447-458). -/
def mergeMounts (a b : Mounts) : Mounts :=
  let res : Mounts := a.entries.foldl (fun res e => res.insert e.1 e.2) ∅
  b.entries.foldl
    (fun res e => res.insert e.1 (util.UniqStrings ((res.lookup e.1).getD [] ++ e.2))) res

namespace BaseStage

/-- The labels of the previous built image; a nil map when there is no previous image. -/
def prevLabels (prevBuiltImage : Option StageDescription) : Labels :=
  match prevBuiltImage with
  | none => ∅
  | some d => d.Info.Labels

/-- Embedding of `BaseStage.getServiceMountsFromLabels` (base.go, 255-277). -/
def getServiceMountsFromLabels (imagePkg : ImageConstants)
    (prevBuiltImage : Option StageDescription) : Mounts :=
  let labels := prevLabels prevBuiltImage
  [(imagePkg.WerfMountTmpDirLabel, "tmp_dir"), (imagePkg.WerfMountBuildDirLabel, "build_dir")].foldl
    (fun (mountpointsByType : Mounts) labelMountType =>
      match labels.lookup labelMountType.1 with
      | none => mountpointsByType
      | some v =>
        let mountpoints := util.RejectEmptyStrings (util.UniqStrings (strings.Split v ";"))
        mountpointsByType.insert labelMountType.2 mountpoints)
    ∅

/-- Embedding of `BaseStage.getServiceMountsFromConfig` (base.go, 279-292). -/
def getServiceMountsFromConfig (s : BaseStage) : Mounts :=
  s.configMounts.foldl
    (fun (mountpointsByType : Mounts) mountCfg =>
      if !util.IsStringsContainValue ["tmp_dir", "build_dir"] mountCfg.MountType then
        mountpointsByType
      else
        let mountpoint := path.Clean mountCfg.To
        mountpointsByType.insert mountCfg.MountType
          ((mountpointsByType.lookup mountCfg.MountType).getD [] ++ [mountpoint]))
    ∅

/-- Embedding of `BaseStage.getServiceMounts` (base.go, 251-253). -/
def getServiceMounts (imagePkg : ImageConstants) (s : BaseStage)
    (prevBuiltImage : Option StageDescription) : Mounts :=
  mergeMounts (getServiceMountsFromLabels imagePkg prevBuiltImage) (getServiceMountsFromConfig s)

/-- The inner loop of `addServiceMountsVolumes` over the mountpoints of one mount type whose
host directory is made by `hostDir`. The result is the image and the failure, if any. -/
def addServiceMountsVolumesOfType (env : PrepareEnv) (hostDir : String → String) :
    List String → LegacyImage → LegacyImage × Option Failure
  | [], image => (image, none)
  | mountpoint :: rest, image =>
    let absoluteMountpoint := path.Join ["/", mountpoint]
    let absoluteFrom := hostDir absoluteMountpoint
    match env.MkdirAll absoluteFrom with
    | some err =>
      (image, some (.error ("error creating tmp path " ++ absoluteFrom ++ " for mount: " ++ err)))
    | none =>
      addServiceMountsVolumesOfType env hostDir rest
        (image.AddVolume (absoluteFrom ++ ":" ++ absoluteMountpoint))

/-- Embedding of `BaseStage.addServiceMountsVolumes` (base.go, 294-319) over the entries of
the map. -/
def addServiceMountsVolumes (env : PrepareEnv) (s : BaseStage) :
    List (Σ _ : String, List String) → LegacyImage → LegacyImage × Option Failure
  | [], image => (image, none)
  | ⟨mountType, mountpoints⟩ :: rest, image =>
    if mountType = "tmp_dir" then
      match addServiceMountsVolumesOfType env
        (fun absoluteMountpoint =>
          filepath.Join [s.imageTmpDir, "mount", env.LimitedSlug absoluteMountpoint])
        mountpoints image with
      | (image, some err) => (image, some err)
      | (image, none) => addServiceMountsVolumes env s rest image
    else if mountType = "build_dir" then
      match addServiceMountsVolumesOfType env
        (fun absoluteMountpoint =>
          filepath.Join [env.GetSharedContextDir, "mounts", "projects", s.projectName,
            env.LimitedSlug absoluteMountpoint])
        mountpoints image with
      | (image, some err) => (image, some err)
      | (image, none) => addServiceMountsVolumes env s rest image
    else (image, some (.panic ("unknown mount type " ++ mountType)))

/-- Embedding of `BaseStage.addServiceMountsLabels` (base.go, 321-337) over the entries of
the map. -/
def addServiceMountsLabels (imagePkg : ImageConstants) :
    List (Σ _ : String, List String) → LegacyImage → LegacyImage × Option Failure
  | [], image => (image, none)
  | ⟨mountType, mountpoints⟩ :: rest, image =>
    if mountType = "tmp_dir" then
      addServiceMountsLabels imagePkg rest
        (image.AddLabel imagePkg.WerfMountTmpDirLabel (strings.Join mountpoints ";"))
    else if mountType = "build_dir" then
      addServiceMountsLabels imagePkg rest
        (image.AddLabel imagePkg.WerfMountBuildDirLabel (strings.Join mountpoints ";"))
    else (image, some (.panic ("unknown mount type " ++ mountType)))

/-- The `from` path that `getCustomMountsFromLabels` reads from a label key
(base.go, 355-357). -/
def customMountFromFilepath (imagePkg : ImageConstants) (k : String) : String :=
  let parts := strings.SplitN k imagePkg.WerfMountCustomDirLabelPrefix 2
  let fromPath := strings.ReplaceAll (parts.getD 1 "") "--" "/"
  filepath.FromSlash fromPath

/-- Embedding of `BaseStage.getCustomMountsFromLabels` (base.go, 343-364). -/
def getCustomMountsFromLabels (imagePkg : ImageConstants)
    (prevBuiltImage : Option StageDescription) : Mounts :=
  (prevLabels prevBuiltImage).entries.foldl
    (fun (mountpointsByFrom : Mounts) kv =>
      if !strings.HasPrefix kv.1 imagePkg.WerfMountCustomDirLabelPrefix then mountpointsByFrom
      else
        let fromFilepath := customMountFromFilepath imagePkg kv.1
        let mountpoints := util.RejectEmptyStrings (util.UniqStrings (strings.Split kv.2 ";"))
        mountpointsByFrom.insert fromFilepath mountpoints)
    ∅

/-- Embedding of `BaseStage.getCustomMountsFromConfig` (base.go, 366-380). -/
def getCustomMountsFromConfig (s : BaseStage) : Mounts :=
  s.configMounts.foldl
    (fun (mountpointsByFrom : Mounts) mountCfg =>
      if mountCfg.MountType ≠ "custom_dir" then mountpointsByFrom
      else
        let src := filepath.Clean mountCfg.From
        let mountpoint := path.Clean mountCfg.To
        mountpointsByFrom.insert src
          (util.UniqAppendString ((mountpointsByFrom.lookup src).getD []) mountpoint))
    ∅

/-- Embedding of `BaseStage.getCustomMounts` (base.go, 339-341). -/
def getCustomMounts (imagePkg : ImageConstants) (s : BaseStage)
    (prevBuiltImage : Option StageDescription) : Mounts :=
  mergeMounts (getCustomMountsFromLabels imagePkg prevBuiltImage) (getCustomMountsFromConfig s)

/-- Embedding of `BaseStage.addCustomMountVolumes` (base.go, 382-405) over the entries of
the map. -/
def addCustomMountVolumes (env : PrepareEnv) :
    List (Σ _ : String, List String) → LegacyImage → LegacyImage × Option Failure
  | [], image => (image, none)
  | ⟨src, mountpoints⟩ :: rest, image =>
    let absoluteFrom := env.ExpandPath src
    match env.FileExists absoluteFrom with
    | .error err => (image, some (.error err))
    | .ok exist =>
      match (if !exist then env.MkdirAll absoluteFrom else none) with
      | some err => (image, some (.error ("error creating " ++ absoluteFrom ++ ": " ++ err)))
      | none =>
        addCustomMountVolumes env rest
          (mountpoints.foldl
            (fun image mountpoint =>
              image.AddVolume (absoluteFrom ++ ":" ++ path.Join ["/", mountpoint]))
            image)

/-- The label name that `addCustomMountLabels` writes for a `from` path (base.go, 409). -/
def customMountLabelName (imagePkg : ImageConstants) (src : String) : String :=
  imagePkg.WerfMountCustomDirLabelPrefix ++
    strings.ReplaceAll (filepath.ToSlash src) "/" "--"

/-- Embedding of `BaseStage.addCustomMountLabels` (base.go, 407-413) over the entries of the map. -/
def addCustomMountLabels (imagePkg : ImageConstants) :
    List (Σ _ : String, List String) → LegacyImage → LegacyImage
  | [], image => image
  | ⟨src, mountpoints⟩ :: rest, image =>
    addCustomMountLabels imagePkg rest
      (image.AddLabel (customMountLabelName imagePkg src) (strings.Join mountpoints ";"))

/-- Embedding of `BaseStage.PrepareImage` (base.go, 224-245): the image after the call and
the failure, if any. The image is changed in place, so the labels and volumes added before an error stay. -/
def PrepareImage (imagePkg : ImageConstants) (env : PrepareEnv) (s : BaseStage)
    (prevBuiltImage : Option StageDescription) (image : LegacyImage) :
    LegacyImage × Option Failure :=
  let image := image.AddLabel imagePkg.WerfProjectRepoCommitLabel env.HeadCommit
  let serviceMounts := getServiceMounts imagePkg s prevBuiltImage
  match addServiceMountsLabels imagePkg serviceMounts.entries image with
  | (image, some err) => (image, some err)
  | (image, none) =>
    match addServiceMountsVolumes env s serviceMounts.entries image with
    | (image, some err) => (image, some (err.wrap "error adding mounts volumes: "))
    | (image, none) =>
      let customMounts := getCustomMounts imagePkg s prevBuiltImage
      let image := addCustomMountLabels imagePkg customMounts.entries image
      match addCustomMountVolumes env customMounts.entries image with
      | (image, some err) => (image, some (err.wrap "error adding mounts volumes: "))
      | (image, none) => (image, none)

end BaseStage

/-! ## `imports.go`: the checksum command -/

/-- The paths of the binaries of the helper container: `stapel.FindBinPath()` and the like.
The package `stapel` is outside the embedded files, so the paths are parameters. -/
structure Stapel where
  FindBinPath : String
  SortBinPath : String
  XargsBinPath : String
  Md5sumBinPath : String
  CutBinPath : String

/-- Embedding of `formatIncludeAndExcludePath` (imports.go, 237-239). -/
def formatIncludeAndExcludePath (path : String) : String := strings.TrimRight path "*/"

/-- The loop over `includePaths` of `generateChecksumCommand` (imports.go, 186-194). -/
def nameIncludeArgs (src : String) (includePaths : List String) : List String :=
  includePaths.foldl
    (fun nameIncludeArgs includePath =>
      let formattedPath := formatIncludeAndExcludePath includePath
      nameIncludeArgs ++
        ["-wholename \"" ++ path.Join [src, formattedPath] ++ "\"",
          "-wholename \"" ++ path.Join [src, formattedPath, "**"] ++ "\""])
    []

/-- The loop over `excludePaths` of `generateChecksumCommand` (imports.go, 200-208). -/
def nameExcludeArgs (src : String) (excludePaths : List String) : List String :=
  excludePaths.foldl
    (fun nameExcludeArgs excludePath =>
      let formattedPath := formatIncludeAndExcludePath excludePath
      nameExcludeArgs ++
        ["! -wholename \"" ++ path.Join [src, formattedPath] ++ "\"",
          "! -wholename \"" ++ path.Join [src, formattedPath, "**"] ++ "\""])
    []

/-- Embedding of `generateChecksumCommand` (imports.go, 183-235); `src` is its parameter `from`. -/
def generateChecksumCommand (stapel : Stapel) (src : String)
    (includePaths excludePaths : List String) (resultChecksumPath : String) : String :=
  let findCommandParts := [stapel.FindBinPath, src, "-type", "f"]
  let nameIncludeArgs := nameIncludeArgs src includePaths
  let findCommandParts :=
    if nameIncludeArgs.length ≠ 0 then
      findCommandParts ++ ["\\( " ++ strings.Join nameIncludeArgs " -or " ++ " \\)"]
    else findCommandParts
  let nameExcludeArgs := nameExcludeArgs src excludePaths
  let findCommandParts :=
    if nameExcludeArgs.length ≠ 0 then
      let findCommandParts :=
        if nameIncludeArgs.length ≠ 0 then findCommandParts ++ ["-and"] else findCommandParts
      findCommandParts ++ ["\\( " ++ strings.Join nameExcludeArgs " -and " ++ " \\)"]
    else findCommandParts
  let findCommand := strings.Join findCommandParts " "
  let sortCommandParts := [stapel.SortBinPath, "-n"]
  let sortCommand := strings.Join sortCommandParts " "
  let xargsCommandParts := [stapel.XargsBinPath, stapel.Md5sumBinPath]
  let xargsCommand := strings.Join xargsCommandParts " "
  let md5SumCommand := stapel.Md5sumBinPath
  let cutCommandParts := [stapel.CutBinPath, "-d", "' '", "-f", "1"]
  let cutCommand := strings.Join cutCommandParts " "
  let commands := [findCommand, sortCommand, xargsCommand, md5SumCommand, cutCommand]
  strings.Join commands " | " ++ " > " ++ resultChecksumPath

/-! ## `imports.go`: the imports stages -/

/-- The names of the stages, `StageName` (base.go, 21-39). `BaseStage.Name` panics for the
empty name, which is none of the names. -/
inductive StageName where
  | From
  | BeforeInstall
  | ImportsBeforeInstall
  | GitArchive
  | Install
  | ImportsAfterInstall
  | BeforeSetup
  | ImportsBeforeSetup
  | Setup
  | ImportsAfterSetup
  | GitCache
  | GitLatestPatch
  | DockerInstructions
  | Dockerfile
deriving DecidableEq, Repr

/-- The string of a stage name (base.go, 23-39). -/
def StageName.toString : StageName → String
  | .From => "from"
  | .BeforeInstall => "beforeInstall"
  | .ImportsBeforeInstall => "importsBeforeInstall"
  | .GitArchive => "gitArchive"
  | .Install => "install"
  | .ImportsAfterInstall => "importsAfterInstall"
  | .BeforeSetup => "beforeSetup"
  | .ImportsBeforeSetup => "importsBeforeSetup"
  | .Setup => "setup"
  | .ImportsAfterSetup => "importsAfterSetup"
  | .GitCache => "gitCache"
  | .GitLatestPatch => "gitLatestPatch"
  | .DockerInstructions => "dockerInstructions"
  | .Dockerfile => "dockerfile"

/-- An import of the configuration: `config.Import`. -/
structure Import where
  ImageName : String
  ArtifactName : String
  Stage : String
  After : String
  Before : String
  Add : String
  To : String
  Group : String
  Owner : String
  IncludePaths : List String
  ExcludePaths : List String
deriving DecidableEq, Repr

/-- The memoised checksum of an import source: `storage.ImportMetadata`. -/
structure ImportMetadata where
  ImportSourceID : String
  SourceImageID : String
  Checksum : String
deriving DecidableEq, Repr

/-- An import server of the conveyor: `import_server.ImportServer`. -/
structure ImportServer where
  GetCopyCommand : Import → String

/-- The part of the `Conveyor` used by the imports stages. The code of the conveyor is outside
the embedded files. The stored import metadata is a state of type `σ`: `GetImportMetadata`
reads it, `PutImportMetadata` gives the state after the call and the error, if any. -/
structure Conveyor (σ : Type) where
  GetImportMetadata : σ → String → String → Except String (Option ImportMetadata)
  PutImportMetadata : σ → String → ImportMetadata → σ × Option String
  GetImageContentDigest : String → String
  GetImageStageContentDigest : String → String → String
  GetImageNameForLastImageStage : String → String
  GetImageNameForImageStage : String → String → String
  GetImageIDForLastImageStage : String → String
  GetImageIDForImageStage : String → String → String
  GetImportServer : String → String → Except String ImportServer

/-- The collaborators of the imports stages outside the embedded files: the hash function
`util.Sha256Hash`, the binaries of `stapel`, `stapel.GetOrCreateContainer`,
`stapel.CreateScript` (which returns an error or nothing), `docker.CliRun_RecordedOutput` and
`ioutil.ReadFile`. -/
structure ImportsEnv where
  Sha256Hash : List String → String
  stapel : Stapel
  BashBinPath : String
  GetOrCreateContainer : Except String String
  CreateScript : String → List String → Option String
  CliRun_RecordedOutput : List String → Except String String
  ReadFile : String → Except String String

/-- The state that the imports stages change: the stored import metadata and the log of the
runs of the checksum container (the argument lists of `docker.CliRun_RecordedOutput`). -/
structure ImportsState (σ : Type) where
  storage : σ
  dockerRuns : List (List String)

/-- The fields of `ImportsStage`, and of its embedded `BaseStage`, read by the imports code. -/
structure ImportsStage where
  name : StageName
  imageTmpDir : String
  containerWerfDir : String
  projectName : String
  imports : List Import

/-- Embedding of `getSourceImageName` (imports.go, 305-314). -/
def getSourceImageName (importElm : Import) : String :=
  if importElm.ImageName ≠ "" then importElm.ImageName else importElm.ArtifactName

/-- Embedding of `getSourceImageContentDigest` (imports.go, 292-303). -/
def getSourceImageContentDigest {σ : Type} (c : Conveyor σ) (importElm : Import) : String :=
  let sourceImageName := getSourceImageName importElm
  if importElm.Stage = "" then c.GetImageContentDigest sourceImageName
  else c.GetImageStageContentDigest sourceImageName importElm.Stage

/-- Embedding of `getSourceImageID` (imports.go, 279-290). -/
def getSourceImageID {σ : Type} (c : Conveyor σ) (importElm : Import) : String :=
  let sourceImageName := getSourceImageName importElm
  if importElm.Stage = "" then c.GetImageIDForLastImageStage sourceImageName
  else c.GetImageIDForImageStage sourceImageName importElm.Stage

/-- Embedding of `getSourceImageDockerImageName` (imports.go, 266-277). -/
def getSourceImageDockerImageName {σ : Type} (c : Conveyor σ) (importElm : Import) : String :=
  let sourceImageName := getSourceImageName importElm
  if importElm.Stage = "" then c.GetImageNameForLastImageStage sourceImageName
  else c.GetImageNameForImageStage sourceImageName importElm.Stage

/-- The arguments that `getImportID` gives to the hash function (imports.go, 242-254). -/
def importIDArgs (importElm : Import) : List String :=
  ["ImageName", importElm.ImageName,
    "ArtifactName", importElm.ArtifactName,
    "Stage", importElm.Stage,
    "After", importElm.After,
    "Before", importElm.Before,
    "Add", importElm.Add,
    "To", importElm.To,
    "Group", importElm.Group,
    "Owner", importElm.Owner,
    "IncludePaths", strings.Join importElm.IncludePaths "///",
    "ExcludePaths", strings.Join importElm.ExcludePaths "///"]

/-- Embedding of `getImportID` (imports.go, 241-255). -/
def getImportID (Sha256Hash : List String → String) (importElm : Import) : String :=
  Sha256Hash (importIDArgs importElm)

/-- The arguments that `getImportSourceID` gives to the hash function (imports.go, 259-262).
-/
def importSourceIDArgs {σ : Type} (c : Conveyor σ) (importElm : Import) : List String :=
  ["SourceImageContentDigest", getSourceImageContentDigest c importElm,
    "Add", importElm.Add,
    "IncludePaths", strings.Join importElm.IncludePaths "///",
    "ExcludePaths", strings.Join importElm.ExcludePaths "///"]

/-- Embedding of `getImportSourceID` (imports.go, 257-264). -/
def getImportSourceID {σ : Type} (Sha256Hash : List String → String) (c : Conveyor σ)
    (importElm : Import) : String :=
  Sha256Hash (importSourceIDArgs c importElm)

namespace ImportsStage

/-- Embedding of `ImportsStage.generateImportChecksum` (imports.go, 132-181): the checksum or
the error, and the state after the call. -/
def generateImportChecksum {σ : Type} (env : ImportsEnv) (s : ImportsStage) (c : Conveyor σ)
    (w : ImportsState σ) (importElm : Import) : Except String String × ImportsState σ :=
  let sourceImageDockerImageName := getSourceImageDockerImageName c importElm
  let importSourceID := getImportSourceID env.Sha256Hash c importElm
  match env.GetOrCreateContainer with
  | .error err => (.error err, w)
  | .ok stapelContainerName =>
    let importHostTmpDir :=
      filepath.Join [s.imageTmpDir, s.name.toString, "imports", importSourceID]
    let importContainerDir := s.containerWerfDir
    let importScriptHostTmpPath := filepath.Join [importHostTmpDir, "script.sh"]
    let resultChecksumHostTmpPath := filepath.Join [importHostTmpDir, "checksum"]
    let importScriptContainerPath := path.Join [importContainerDir, "script.sh"]
    let resultChecksumContainerPath := path.Join [importContainerDir, "checksum"]
    let command := generateChecksumCommand env.stapel importElm.Add importElm.IncludePaths
      importElm.ExcludePaths resultChecksumContainerPath
    match env.CreateScript importScriptHostTmpPath [command] with
    | some err => (.error ("unable to create script: " ++ err), w)
    | none =>
      let runArgs := [
        "--rm",
        "--user=0:0",
        "--workdir=/",
        "--volumes-from=" ++ stapelContainerName,
        "--volume=" ++ importHostTmpDir ++ ":" ++ importContainerDir,
        "--entrypoint=" ++ env.BashBinPath,
        sourceImageDockerImageName,
        importScriptContainerPath]
      let w := { w with dockerRuns := w.dockerRuns ++ [runArgs] }
      match env.CliRun_RecordedOutput runArgs with
      | .error err => (.error err, w)
      | .ok _ =>
        match env.ReadFile resultChecksumHostTmpPath with
        | .error err =>
          (.error ("unable to read file with import source checksum: " ++ err), w)
        | .ok data =>
          let checksum := strings.TrimSpace data
          (.ok checksum, w)

/-- Embedding of `ImportsStage.getImportSourceChecksum` (imports.go, 104-130): the checksum
or the error, and the state after the call. -/
def getImportSourceChecksum {σ : Type} (env : ImportsEnv) (s : ImportsStage) (c : Conveyor σ)
    (w : ImportsState σ) (importElm : Import) : Except String String × ImportsState σ :=
  let importSourceID := getImportSourceID env.Sha256Hash c importElm
  match c.GetImportMetadata w.storage s.projectName importSourceID with
  | .error err => (.error ("unable to get import metadata: " ++ err), w)
  | .ok (some importMetadata) => (.ok importMetadata.Checksum, w)
  | .ok none =>
    match generateImportChecksum env s c w importElm with
    | (.error err, w) => (.error ("unable to generate import source checksum: " ++ err), w)
    | (.ok checksum, w) =>
      let sourceImageID := getSourceImageID c importElm
      let importMetadata : ImportMetadata :=
        { ImportSourceID := importSourceID, SourceImageID := sourceImageID,
          Checksum := checksum }
      match c.PutImportMetadata w.storage s.projectName importMetadata with
      | (storage, some err) =>
        (.error ("unable to put import metadata: " ++ err), { w with storage := storage })
      | (storage, none) => (.ok importMetadata.Checksum, { w with storage := storage })

/-- The loop of `ImportsStage.GetDependencies` (imports.go, 56-69) from the import of index
`ind` on. -/
def getDependenciesLoop {σ : Type} (env : ImportsEnv) (s : ImportsStage) (c : Conveyor σ) :
    List Import → Nat → List String → ImportsState σ → Except String String × ImportsState σ
  | [], _, args, w => (.ok (env.Sha256Hash args), w)
  | elm :: rest, ind, args, w =>
    match getImportSourceChecksum env s c w elm with
    | (.error err, w) =>
      (.error ("unable to get import " ++ toString ind ++ " source checksum: " ++ err), w)
    | (.ok sourceChecksum, w) =>
      let args := args ++ [sourceChecksum]
      let args := args ++ [elm.To]
      let args := args ++ [elm.Group, elm.Owner]
      getDependenciesLoop env s c rest (ind + 1) args w

/-- Embedding of `ImportsStage.GetDependencies` (imports.go, 53-72): the dependencies or the
error, and the state after the call. -/
def GetDependencies {σ : Type} (env : ImportsEnv) (s : ImportsStage) (c : Conveyor σ)
    (w : ImportsState σ) : Except String String × ImportsState σ :=
  getDependenciesLoop env s c s.imports 0 [] w

/-- The loop of `ImportsStage.PrepareImage` (imports.go, 75-99). It reads the stored import
metadata and does not change it. -/
def prepareImageLoop {σ : Type} (imagePkg : ImageConstants) (env : ImportsEnv)
    (s : ImportsStage) (c : Conveyor σ) (storage : σ) :
    List Import → LegacyImage → LegacyImage × Option Failure
  | [], image => (image, none)
  | elm :: rest, image =>
    let sourceImageName := getSourceImageName elm
    match c.GetImportServer sourceImageName elm.Stage with
    | .error err =>
      (image, some (.error ("unable to get import server for image " ++
        strconv.Quote sourceImageName ++ ": " ++ err)))
    | .ok srv =>
      let command := srv.GetCopyCommand elm
      let image := image.AddServiceRunCommands command
      let labelKey := imagePkg.WerfImportChecksumLabelPrefix ++ getImportID env.Sha256Hash elm
      let importSourceID := getImportSourceID env.Sha256Hash c elm
      match c.GetImportMetadata storage s.projectName importSourceID with
      | .error err =>
        (image, some (.error ("unable to get import source checksum: " ++ err)))
      | .ok none =>
        (image, some (.panic ("import metadata " ++ importSourceID ++ " not found")))
      | .ok (some importMetadata) =>
        let labelValue := importMetadata.Checksum
        prepareImageLoop imagePkg env s c storage rest (image.AddLabel labelKey labelValue)

/-- Embedding of `ImportsStage.PrepareImage` (imports.go, 74-102): the image after the call
and the failure, if any. -/
def PrepareImage {σ : Type} (imagePkg : ImageConstants) (env : ImportsEnv) (s : ImportsStage)
    (c : Conveyor σ) (storage : σ) (image : LegacyImage) : LegacyImage × Option Failure :=
  prepareImageLoop imagePkg env s c storage s.imports image

end ImportsStage

/-! ## `pkg/buildah/buildah.go` and `cmd/werf/common/container_runtime.go` -/

namespace types

/-- Modelled from the spec: the type `types.Isolation` and its constants are declared outside
the embedded files. The spec gives its values: the execution boundary of the runtime is
`chroot` or `oci-rootless`. -/
inductive Isolation where
  | chroot
  | ociRootless
deriving DecidableEq, Repr

/-- The constant `types.IsolationChroot`. -/
def IsolationChroot : Isolation := .chroot

/-- The constant `types.IsolationOCIRootless`. -/
def IsolationOCIRootless : Isolation := .ociRootless

end types

/-- The environment of the process read by the set-up of the container runtime: `os.Getenv`,
and the result of `util.IsInContainer`, whose code is outside the embedded files. -/
structure ProcessEnv where
  Getenv : String → String
  IsInContainer : Except String Bool

namespace buildah

/-- The type `buildah.StorageDriver` (buildah.go, 94): a string. -/
abbrev StorageDriver := String

/-- The constant `buildah.StorageDriverOverlay` (buildah.go, 97). -/
def StorageDriverOverlay : StorageDriver := "overlay"

/-- The constant `buildah.StorageDriverVFS` (buildah.go, 98). -/
def StorageDriverVFS : StorageDriver := "vfs"

/-- The constant `buildah.DefaultStorageDriver` (buildah.go, 24). -/
def DefaultStorageDriver : StorageDriver := StorageDriverOverlay

/-- Embedding of `buildah.GetDefaultIsolation` (buildah.go, 192-200). -/
def GetDefaultIsolation (env : ProcessEnv) : Except String types.Isolation :=
  match env.IsInContainer with
  | .error err => .error ("unable to determine if is in container: " ++ err)
  | .ok true => .ok types.IsolationChroot
  | .ok false => .ok types.IsolationOCIRootless

end buildah

namespace common

/-- Embedding of `GetContainerRuntimeBuildahIsolation` (container_runtime.go, 33-56). In the
error for rootless isolation in a container the verb `%s` formats a nil error. -/
def GetContainerRuntimeBuildahIsolation (env : ProcessEnv) : Except String types.Isolation :=
  let isolationRaw := env.Getenv "WERF_CONTAINER_RUNTIME_BUILDAH_ISOLATION"
  if isolationRaw = "rootless" ∨ isolationRaw = "oci-rootless" then
    match env.IsInContainer with
    | .error err => .error ("unable to determine if is in container: " ++ err)
    | .ok true => .error "rootless isolation is not available in container: %!s(<nil>)"
    | .ok false => .ok types.IsolationOCIRootless
  else if isolationRaw = "chroot" then .ok types.IsolationChroot
  else if isolationRaw = "default" ∨ isolationRaw = "" then
    match buildah.GetDefaultIsolation env with
    | .error err => .error ("unable to determine default isolation: " ++ err)
    | .ok isolation => .ok isolation
  else .error ("unexpected isolation specified: " ++ isolationRaw)

/-- Embedding of `GetContainerRuntimeBuildahStorageDriver` (container_runtime.go, 58-70). -/
def GetContainerRuntimeBuildahStorageDriver (env : ProcessEnv) :
    Except String buildah.StorageDriver :=
  let storageDriverRaw := env.Getenv "WERF_CONTAINER_RUNTIME_BUILDAH_STORAGE_DRIVER"
  if storageDriverRaw = buildah.StorageDriverOverlay ∨
      storageDriverRaw = buildah.StorageDriverVFS then
    .ok storageDriverRaw
  else if storageDriverRaw = "default" ∨ storageDriverRaw = "" then
    .ok buildah.DefaultStorageDriver
  else .error ("unexpected driver specified: " ++ storageDriverRaw)

end common

/-! ## `docs/backend/main.go` -/

namespace strings

/-- Go `strings.TrimPrefix`: the string without the given leading text, unchanged when it
does not start with it. -/
def TrimPrefix (s pre : String) : String :=
  if HasPrefix s pre then ⟨s.data.drop pre.data.length⟩ else s

/-- Go `strings.HasSuffix`. -/
def HasSuffix (s suffix : String) : Bool := suffix.data.isSuffixOf s.data

end strings

namespace http

/-- The part of a `http.Request` read by the documentation backend: `r.Header.Get`, which
gives the empty string for a header that is not set. -/
structure Request where
  HeaderGet : String → String

end http

namespace backend

/-- Embedding of `getCurrentPageURL` (main.go, 73-83). -/
def getCurrentPageURL (r : http.Request) : String :=
  let result := "/documentation/"
  let originalURI := r.HeaderGet "x-original-uri"
  if strings.Contains originalURI "/documentation/" then
    let items := strings.Split originalURI "/documentation/"
    if items.length > 1 then result ++ strings.Join (items.drop 1) "/documentation/"
    else result
  else result

/-- Embedding of `getVersionURL` (main.go, 87-94). The first element of the split is read;
`strings.Split` with a separator that is not empty gives a list that is not empty. -/
def getVersionURL (r : http.Request) : String :=
  let result := ""
  let originalURI := r.HeaderGet "x-original-uri"
  let result :=
    if strings.Contains originalURI "/documentation/" then
      (strings.Split originalURI "/documentation/").headD ""
    else result
  strings.TrimPrefix result "/"

/-- Embedding of `VersionToURL` (main.go, 143-147). -/
def VersionToURL (version : String) : String :=
  let result := strings.ReplaceAll version "+" "-plus-"
  let result := strings.ReplaceAll result "_" "-u-"
  result

/-- Embedding of `URLToVersion` (main.go, 149-153). -/
def URLToVersion (version : String) : String :=
  let result := strings.ReplaceAll version "-plus-" "+"
  let result := strings.ReplaceAll result "-u-" "_"
  result

end backend

/-! ## Selection: specification side -/

/-- The commit of a commit info that ancestry is checked with: `VirtualMergeFromCommit` when
`VirtualMerge` is set, `Commit` otherwise. -/
def CommitInfo.ancestryCommit (info : CommitInfo) : String :=
  if info.VirtualMerge then info.VirtualMergeFromCommit else info.Commit

/-- The candidate's recorded commit is an ancestor of the current commit of the git mapping,
both commits normalised for virtual merges. -/
def RecordedIsAncestor (m : GitMapping) (d : StageDescription) : Prop :=
  ∃ cur built, m.GetLatestCommitInfo = .ok cur ∧
    m.GetBuiltImageCommitInfo d.Info.Labels = .ok built ∧
    m.GitRepo.IsAncestor built.ancestryCommit cur.ancestryCommit = .ok true

/-- The candidate passes the ancestry filter of every git mapping. -/
def PassesAncestry (gitMappings : List GitMapping) (d : StageDescription) : Prop :=
  ∀ m ∈ gitMappings, RecordedIsAncestor m d

/-- The current commit that `selectStagesAncestorsByGitMappings` records for a git mapping. -/
def BaseStage.IsCurrentCommit (m : GitMapping) (c : String) : Prop :=
  ∃ cur, m.GetLatestCommitInfo = .ok cur ∧ c = cur.ancestryCommit

/-- The commit of a git mapping that feeds the dependencies of the next stage: read from the
labels of the built image of the stage when the image is resolved, from the latest commit of
the mapping otherwise. -/
def nextStageCommit (image : Option StageImage) (m : GitMapping) : Except String String :=
  match image with
  | some ⟨_, some stageDescription⟩ =>
    (m.GetBuiltImageCommitInfo stageDescription.Info.Labels).map (fun info => info.Commit)
  | _ => m.GetLatestCommitInfo.map (fun info => info.Commit)

/-- An ancestry check that `selectStagesAncestorsByGitMappings` performs on a candidate fails:
the git mappings before `m` parse the labels of the candidate and find its recorded commit to
be an ancestor of their current commit, `m` parses the labels too, and `IsAncestor` of the
repository of `m` fails. -/
def AncestryCheckFails (gitMappings : List GitMapping) (d : StageDescription) : Prop :=
  ∃ front m back cur built e, gitMappings = front ++ m :: back ∧
    (∀ p ∈ front, RecordedIsAncestor p d) ∧
    m.GetLatestCommitInfo = .ok cur ∧
    m.GetBuiltImageCommitInfo d.Info.Labels = .ok built ∧
    m.GitRepo.IsAncestor built.ancestryCommit cur.ancestryCommit = .error e

/-- The labels of the candidate cannot be parsed by `GetBuiltImageCommitInfo` of some git
mapping. -/
def UnparseableLabels (gitMappings : List GitMapping) (d : StageDescription) : Prop :=
  ∃ m ∈ gitMappings, ∃ e, m.GetBuiltImageCommitInfo d.Info.Labels = .error e

/-! ## Mounts: specification side -/

/-- Every mountpoint list of the map is duplicate-free. -/
def DuplicateFree (m : Mounts) : Prop := ∀ k l, m.lookup k = some l → l.Nodup

/-! ## Imports stages: specification side -/

/-- The source checksums of the imports, obtained one after the other from the import of
index `ind` on: the list of the checksums, or the index of the first import whose checksum
cannot be obtained with the error, and the state after the calls. -/
def importChecksums {σ : Type} (env : ImportsEnv) (s : ImportsStage) (c : Conveyor σ) :
    List Import → Nat → ImportsState σ → Except (Nat × String) (List String) × ImportsState σ
  | [], _, w => (.ok [], w)
  | elm :: rest, ind, w =>
    match ImportsStage.getImportSourceChecksum env s c w elm with
    | (.error err, w) => (.error (ind, err), w)
    | (.ok checksum, w) =>
      match importChecksums env s c rest (ind + 1) w with
      | (.error failure, w) => (.error failure, w)
      | (.ok checksums, w) => (.ok (checksum :: checksums), w)

/-- The argument list `c_1, To_1, Group_1, Owner_1, ..., c_n, To_n, Group_n, Owner_n` of the
checksums and the imports, in import order. -/
def dependencyArgs : List String → List Import → List String
  | checksum :: checksums, elm :: rest =>
    [checksum, elm.To, elm.Group, elm.Owner] ++ dependencyArgs checksums rest
  | _, _ => []

/-- The metadata of an import source is stored: `GetImportMetadata` finds it. -/
def MetadataPresent {σ : Type} (c : Conveyor σ) (storage : σ) (projectName id : String) : Prop :=
  ∃ importMetadata, c.GetImportMetadata storage projectName id = .ok (some importMetadata)

/-- Read-your-writes for the import metadata: after a `PutImportMetadata` without error,
`GetImportMetadata` of the same project and import source returns the metadata put. -/
def ReadYourWrites {σ : Type} (c : Conveyor σ) : Prop :=
  ∀ storage projectName (md : ImportMetadata),
    (c.PutImportMetadata storage projectName md).2 = none →
    c.GetImportMetadata (c.PutImportMetadata storage projectName md).1 projectName
      md.ImportSourceID = .ok (some md)

/-- No entry is removed: metadata that is stored is still stored after `PutImportMetadata`.
-/
def NoEntryRemoved {σ : Type} (c : Conveyor σ) : Prop :=
  ∀ storage projectName (md : ImportMetadata) p id,
    MetadataPresent c storage p id →
    MetadataPresent c (c.PutImportMetadata storage projectName md).1 p id

/-- Path filters that the join with `///` keeps apart: no path is empty, ends with a slash or
contains `///`. -/
def SeparablePaths (paths : List String) : Prop :=
  ∀ p ∈ paths, p ≠ "" ∧ strings.HasSuffix p "/" = false ∧ strings.Contains p "///" = false

/-! ## Documentation backend: specification side -/

namespace backend

/-- The text that `VersionToURL` writes for one character of a version: `-plus-` for a plus
sign, `-u-` for an underscore, the character itself otherwise. -/
def versionCharToURL (c : Char) : List Char :=
  if c = '+' then ['-', 'p', 'l', 'u', 's', '-'] else if c = '_' then ['-', 'u', '-'] else [c]

/-- The text of one character of a version once `-plus-` is read back: `-u-` for an
underscore, the character itself otherwise. -/
def underscoreToURL (c : Char) : List Char :=
  if c = '_' then ['-', 'u', '-'] else [c]

end backend

/-! ## Example data: one repository, candidates recorded at commits `C1`, `C2`, `C3` -/

/-- A repository whose head is `H`: `C1` and `X` are ancestors of `H`, every commit is an
ancestor of itself, nothing else is; the commits `H`, `C1` and `X` exist. -/
def exampleRepo : GitRepo where
  GetName := "origin"
  IsAncestor := fun a b => .ok (a == b || (a == "C1" && b == "H") || (a == "X" && b == "H"))
  IsCommitExists := fun c => .ok (c == "H" || c == "C1" || c == "X")

/-- A git mapping of `exampleRepo` checked out at `H`, reading the commit information of an
image from the labels `commit`, `virtual-merge` and `virtual-merge-from-commit`; the patch
from a previous built image is empty when the image was built at `H`. -/
def exampleMapping : GitMapping where
  Name := "app"
  GitRepo := exampleRepo
  GetLatestCommitInfo := .ok ⟨"H", false, ""⟩
  GetBuiltImageCommitInfo := fun labels =>
    match labels.lookup "commit" with
    | none => .error "no commit label"
    | some c =>
      .ok ⟨c, labels.lookup "virtual-merge" == some "true",
        (labels.lookup "virtual-merge-from-commit").getD ""⟩
  GetBaseCommitForPrevBuiltImage := fun prev =>
    match prev with
    | none => .error "no previous built image"
    | some d =>
      match d.Info.Labels.lookup "commit" with
      | none => .error "no commit label"
      | some c => .ok c
  IsPatchEmpty := fun prev =>
    match prev with
    | none => .error "no previous built image"
    | some d => .ok (d.Info.Labels.lookup "commit" == some "H")
  GetPatchContent := fun prev =>
    match prev with
    | none => .error "no previous built image"
    | some d =>
      if d.Info.Labels.lookup "commit" == some "H" then .ok ""
      else .ok "diff --git a/main.go b/main.go"

/-- The newest candidate, recorded at `C1`. -/
def candidateC1 : StageDescription :=
  ⟨⟨"digest", 30⟩, ⟨"stage-c1", AList.insert "commit" "C1" ∅⟩⟩

/-- The oldest candidate, recorded at `C2`. -/
def candidateC2 : StageDescription :=
  ⟨⟨"digest", 10⟩, ⟨"stage-c2", AList.insert "commit" "C2" ∅⟩⟩

/-- A candidate recorded at `C3`. -/
def candidateC3 : StageDescription :=
  ⟨⟨"digest", 20⟩, ⟨"stage-c3", AList.insert "commit" "C3" ∅⟩⟩

/-- A candidate recorded at the virtual merge commit `M` of the commit `X`. -/
def candidateVirtualMerge (M : String) : StageDescription :=
  ⟨⟨"digest", 40⟩, ⟨"stage-vm", AList.insert "commit" M (AList.insert "virtual-merge" "true"
    (AList.insert "virtual-merge-from-commit" "X" ∅))⟩⟩

/-- Label names for the examples. -/
def exampleConstants : ImageConstants where
  WerfProjectRepoCommitLabel := "werf-project-repo-commit"
  WerfMountTmpDirLabel := "werf-mount-type-tmp-dir"
  WerfMountBuildDirLabel := "werf-mount-type-build-dir"
  WerfMountCustomDirLabelPrefix := "werf-mount-type-custom-dir-"
  WerfImportChecksumLabelPrefix := "werf-import-checksum-"

/-- Collaborators for the examples: every directory can be made, the slug of a path is the
path itself. -/
def exampleEnv : PrepareEnv where
  HeadCommit := "0a1b2c"
  LimitedSlug := fun p => p
  GetSharedContextDir := "/home/user/.werf/shared_context"
  ExpandPath := fun p => p
  FileExists := fun _ => .ok true
  MkdirAll := fun _ => none

/-- A stage with the two `tmp_dir` mounts of the spec's example. -/
def exampleStage : BaseStage where
  imageTmpDir := "/tmp/werf/image"
  configMounts := [⟨"/tmp/foo", "", "tmp_dir"⟩, ⟨"/tmp/bar", "", "tmp_dir"⟩]
  projectName := "project"

/-- A stage without configured mounts. -/
def exampleStageNoMounts : BaseStage where
  imageTmpDir := "/tmp/werf/image"
  configMounts := []
  projectName := "project"

/-- An image without labels and volumes. -/
def emptyImage : LegacyImage := ⟨∅, [], []⟩

/-- A previous built image with mount labels. -/
def examplePrevImage : StageDescription :=
  ⟨⟨"digest", 50⟩, ⟨"stage-prev",
    AList.insert "werf-mount-type-tmp-dir" "/tmp/foo;/tmp/bar"
      (AList.insert "werf-mount-type-custom-dir---home--user--cache" "/cache" ∅)⟩⟩

/-- A previous built image whose `tmp_dir` mount label is in increasing order: the label that
a build with the mounts of `exampleStage` writes. -/
def examplePrevImageSorted : StageDescription :=
  ⟨⟨"digest", 55⟩, ⟨"stage-prev-sorted",
    AList.insert "werf-mount-type-tmp-dir" "/tmp/bar;/tmp/foo" ∅⟩⟩

/-- The binaries of the helper container under their bare tool names. -/
def bareStapel : Stapel where
  FindBinPath := "find"
  SortBinPath := "sort"
  XargsBinPath := "xargs"
  Md5sumBinPath := "md5sum"
  CutBinPath := "cut"

/-- Mounts read from labels, for the examples. -/
def exampleMountsA : Mounts := AList.insert "tmp_dir" ["/a", "/b"] ∅

/-- Mounts read from the configuration, for the examples. -/
def exampleMountsB : Mounts := AList.insert "tmp_dir" ["/b", "/c", "/c"] ∅

/-- A git mapping of a second repository in which the commit `C9` is missing; the base commit
of every previous built image is `C9`. -/
def exampleMappingMissingCommit : GitMapping where
  Name := "vendor"
  GitRepo := ⟨"vendor-origin", fun a b => .ok (a == b), fun c => .ok (c != "C9")⟩
  GetLatestCommitInfo := .ok ⟨"V", false, ""⟩
  GetBuiltImageCommitInfo := fun _ => .ok ⟨"V", false, ""⟩
  GetBaseCommitForPrevBuiltImage := fun _ => .ok "C9"
  IsPatchEmpty := fun _ => .ok true
  GetPatchContent := fun _ => .ok ""

/-- A previous built image built at the commit `C1`: the patch of `exampleMapping` from it is
not empty. -/
def prevImageAtC1 : Option StageDescription := some candidateC1

/-- A previous built image built at the head commit `H`: the patch of `exampleMapping` from it
is empty. -/
def prevImageAtHead : Option StageDescription :=
  some ⟨⟨"digest", 60⟩, ⟨"stage-head", AList.insert "commit" "H" ∅⟩⟩

/-- A stand-in for the hash function in the examples: the arguments joined with `:::`. -/
def exampleHash (args : List String) : String := strings.Join args ":::"

/-- A second git mapping of `exampleRepo`, checked out at `C1`. -/
def exampleMappingAtC1 : GitMapping where
  Name := "docs"
  GitRepo := exampleRepo
  GetLatestCommitInfo := .ok ⟨"C1", false, ""⟩
  GetBuiltImageCommitInfo := fun _ => .ok ⟨"C1", false, ""⟩
  GetBaseCommitForPrevBuiltImage := fun _ => .ok "C1"
  IsPatchEmpty := fun _ => .ok true
  GetPatchContent := fun _ => .ok ""

/-- A conveyor for the examples: the import metadata is a list of entries keyed by project
and import source, the latest first; reading and writing never fail. -/
def exampleConveyor : Conveyor (List ((String × String) × ImportMetadata)) where
  GetImportMetadata := fun storage projectName id => .ok (storage.lookup (projectName, id))
  PutImportMetadata := fun storage projectName md =>
    (((projectName, md.ImportSourceID), md) :: storage, none)
  GetImageContentDigest := fun name => "content-of-" ++ name
  GetImageStageContentDigest := fun name stage => "content-of-" ++ name ++ "-" ++ stage
  GetImageNameForLastImageStage := fun name => "registry/" ++ name ++ ":last"
  GetImageNameForImageStage := fun name stage => "registry/" ++ name ++ ":" ++ stage
  GetImageIDForLastImageStage := fun name => "id-of-" ++ name
  GetImageIDForImageStage := fun name stage => "id-of-" ++ name ++ "-" ++ stage
  GetImportServer := fun _ _ => .ok ⟨fun elm => "copy " ++ elm.Add ++ " " ++ elm.To⟩

/-- Collaborators for the examples: every call succeeds and the checksum file holds
`0cc175b9` followed by a newline. -/
def exampleImportsEnv : ImportsEnv where
  Sha256Hash := exampleHash
  stapel := bareStapel
  BashBinPath := "bash"
  GetOrCreateContainer := .ok "stapel"
  CreateScript := fun _ _ => none
  CliRun_RecordedOutput := fun _ => .ok ""
  ReadFile := fun _ => .ok "0cc175b9\n"

/-- An import of `/src` from the image `builder` to `/app`. -/
def exampleImport : Import where
  ImageName := "builder"
  ArtifactName := ""
  Stage := ""
  After := "install"
  Before := ""
  Add := "/src"
  To := "/app"
  Group := "app"
  Owner := "app"
  IncludePaths := ["*.go"]
  ExcludePaths := []

/-- The same import source, imported to `/opt` by another consumer. -/
def exampleImportToOpt : Import where
  ImageName := "builder"
  ArtifactName := ""
  Stage := ""
  After := ""
  Before := "setup"
  Add := "/src"
  To := "/opt"
  Group := "root"
  Owner := "root"
  IncludePaths := ["*.go"]
  ExcludePaths := []

/-- An imports stage of a first consumer image. -/
def exampleImportsStage : ImportsStage where
  name := .ImportsAfterInstall
  imageTmpDir := "/tmp/werf/image-a"
  containerWerfDir := "/.werf"
  projectName := "project"
  imports := [exampleImport]

/-- An imports stage of a second consumer image of the same project. -/
def exampleImportsStageOther : ImportsStage where
  name := .ImportsBeforeSetup
  imageTmpDir := "/tmp/werf/image-b"
  containerWerfDir := "/.werf"
  projectName := "project"
  imports := [exampleImportToOpt]

/-- An imports stage with the two imports. -/
def exampleImportsStageBoth : ImportsStage where
  name := .ImportsAfterInstall
  imageTmpDir := "/tmp/werf/image-a"
  containerWerfDir := "/.werf"
  projectName := "project"
  imports := [exampleImport, exampleImportToOpt]

/-- The state before any import: no metadata is stored, the checksum container never ran. -/
def emptyImportsState : ImportsState (List ((String × String) × ImportMetadata)) := ⟨[], []⟩

/-- A git mapping whose patch cannot be computed. -/
def exampleMappingNoPatch : GitMapping where
  Name := "broken"
  GitRepo := exampleRepo
  GetLatestCommitInfo := .ok ⟨"H", false, ""⟩
  GetBuiltImageCommitInfo := fun _ => .ok ⟨"H", false, ""⟩
  GetBaseCommitForPrevBuiltImage := fun _ => .ok "H"
  IsPatchEmpty := fun _ => .error "git failure"
  GetPatchContent := fun _ => .error "git failure"

/-- A repository in which the object `gone` cannot be read: an ancestry query on it fails. -/
def exampleRepoVendor : GitRepo where
  GetName := "vendor-origin"
  IsAncestor := fun a b => if a == "gone" then .error "bad object gone" else .ok (a == b)
  IsCommitExists := fun c => .ok (c != "gone")

/-- A git mapping of `exampleRepoVendor` checked out at `V`, reading the commit of an image
from the label `vendor-commit`. -/
def exampleMappingVendor : GitMapping where
  Name := "vendor"
  GitRepo := exampleRepoVendor
  GetLatestCommitInfo := .ok ⟨"V", false, ""⟩
  GetBuiltImageCommitInfo := fun labels =>
    match labels.lookup "vendor-commit" with
    | none => .error "no vendor-commit label"
    | some c => .ok ⟨c, false, ""⟩
  GetBaseCommitForPrevBuiltImage := fun _ => .ok "V"
  IsPatchEmpty := fun _ => .ok true
  GetPatchContent := fun _ => .ok ""

/-- A candidate with a label for `exampleMappingVendor` only, recorded at `gone`: its labels
cannot be parsed by `exampleMapping`. -/
def candidateVendorGone : StageDescription :=
  ⟨⟨"digest", 70⟩, ⟨"stage-gone", AList.insert "vendor-commit" "gone" ∅⟩⟩

/-- A candidate with a label for `exampleMappingVendor` only, recorded at `V`. -/
def candidateVendorOnly : StageDescription :=
  ⟨⟨"digest", 80⟩, ⟨"stage-vendor", AList.insert "vendor-commit" "V" ∅⟩⟩

/-- A candidate recorded at `V` and `C1`, with the labels of both git mappings. -/
def candidateBoth : StageDescription :=
  ⟨⟨"digest", 90⟩, ⟨"stage-both",
    AList.insert "vendor-commit" "V" (AList.insert "commit" "C1" ∅)⟩⟩

/-- A process environment with the given values of the isolation and storage driver
variables and the given result of the in-container detection. -/
def exampleProcessEnv (isolation driver : String) (inContainer : Except String Bool) :
    ProcessEnv where
  Getenv := fun name =>
    if name = "WERF_CONTAINER_RUNTIME_BUILDAH_ISOLATION" then isolation
    else if name = "WERF_CONTAINER_RUNTIME_BUILDAH_STORAGE_DRIVER" then driver
    else ""
  IsInContainer := inContainer

/-- A candidate as old as `candidateC2`, recorded at `C1`. -/
def candidateC2Twin : StageDescription :=
  ⟨⟨"digest-twin", 10⟩, ⟨"stage-c2-twin", AList.insert "commit" "C1" ∅⟩⟩

/-- A stage whose configuration names the same `tmp_dir` mountpoint and the same `custom_dir`
mountpoint twice. -/
def exampleStageRepeatedMounts : BaseStage where
  imageTmpDir := "/tmp/werf/image"
  configMounts := [⟨"/tmp/foo", "", "tmp_dir"⟩, ⟨"/tmp/foo", "", "tmp_dir"⟩,
    ⟨"/cache", "/home/user/cache", "custom_dir"⟩, ⟨"/cache", "/home/user/cache", "custom_dir"⟩]
  projectName := "project"

/-- The import `exampleImport` with the given include paths. -/
def exampleImportWithPaths (includePaths : List String) : Import :=
  { exampleImport with IncludePaths := includePaths }

/-- A request whose header `x-original-uri` has the given value. -/
def exampleRequest (originalURI : String) : http.Request where
  HeaderGet := fun name => if name = "x-original-uri" then originalURI else ""

/-! ## Theorems: selection of a suitable stage -/

namespace BaseStage

theorem foldl_oldestStep_some (l : List StageDescription) (o : StageDescription) :
    ∃ d, l.foldl oldestStep (some o) = some d ∧ d ∈ o :: l ∧
      ∀ e ∈ o :: l, ¬ e.StageID.UniqueIDAsTime < d.StageID.UniqueIDAsTime := by
  induction l generalizing o with
  | nil => exact ⟨o, rfl, by simp, by simp⟩
  | cons a l ih =>
    by_cases hlt : a.StageID.UniqueIDAsTime < o.StageID.UniqueIDAsTime
    · obtain ⟨d, hd, hmem, hmin⟩ := ih a
      refine ⟨d, by simpa [List.foldl, oldestStep, hlt] using hd, ?_, ?_⟩
      · rcases List.mem_cons.1 hmem with h | h
        · simp [h]
        · simp [h]
      · intro e he
        rcases List.mem_cons.1 he with h | h
        · have := hmin a (by simp)
          subst h
          omega
        · exact hmin e h
    · obtain ⟨d, hd, hmem, hmin⟩ := ih o
      refine ⟨d, by simpa [List.foldl, oldestStep, hlt] using hd, ?_, ?_⟩
      · rcases List.mem_cons.1 hmem with h | h
        · simp [h]
        · simp [h]
      · intro e he
        rcases List.mem_cons.1 he with h | h
        · exact hmin e (by simp [h])
        · rcases List.mem_cons.1 h with h | h
          · have := hmin o (by simp)
            subst h
            omega
          · exact hmin e (by simp [h])

theorem selectStageByOldestCreationTimestamp_nil :
    selectStageByOldestCreationTimestamp [] = .ok none := rfl

theorem selectStageByOldestCreationTimestamp_cons (o : StageDescription)
    (l : List StageDescription) :
    ∃ d, selectStageByOldestCreationTimestamp (o :: l) = .ok (some d) ∧ d ∈ o :: l ∧
      ∀ e ∈ o :: l, ¬ e.StageID.UniqueIDAsTime < d.StageID.UniqueIDAsTime := by
  obtain ⟨d, hd, hmem, hmin⟩ := foldl_oldestStep_some l o
  exact ⟨d, by simpa [selectStageByOldestCreationTimestamp, List.foldl, oldestStep] using hd,
    hmem, hmin⟩

end BaseStage

namespace BaseStage

theorem currentCommitsByIndex_ok (ms : List GitMapping) (acc cs : List String)
    (h : currentCommitsByIndex ms acc = .ok cs) :
    ∃ tail, cs = acc ++ tail ∧ List.Forall₂ IsCurrentCommit ms tail := by
  induction ms generalizing acc with
  | nil =>
    simp only [currentCommitsByIndex, Except.ok.injEq] at h
    exact ⟨[], by simp [h], List.Forall₂.nil⟩
  | cons m ms ih =>
    unfold currentCommitsByIndex at h
    cases hl : m.GetLatestCommitInfo with
    | error e => simp [hl] at h
    | ok cur =>
      simp only [hl] at h
      obtain ⟨tail, htail, hall⟩ := ih _ h
      refine ⟨_ :: tail, by simpa using htail, List.Forall₂.cons ⟨cur, hl, rfl⟩ hall⟩

theorem currentCommitsByIndex_total (ms : List GitMapping) (acc : List String)
    (h : ∀ m ∈ ms, ∃ cur, m.GetLatestCommitInfo = .ok cur) :
    ∃ cs, currentCommitsByIndex ms acc = .ok cs := by
  induction ms generalizing acc with
  | nil => exact ⟨acc, rfl⟩
  | cons m ms ih =>
    obtain ⟨cur, hcur⟩ := h m (by simp)
    unfold currentCommitsByIndex
    simp only [hcur]
    exact ih _ (fun m hm => h m (by simp [hm]))

theorem scanGitMappings_suitable_iff (labels : Labels) (ms : List GitMapping)
    (front tail : List String) (h : List.Forall₂ IsCurrentCommit ms tail) :
    scanGitMappings labels (front ++ tail) ms front.length = .suitable ↔
      ∀ m ∈ ms, ∃ cur built, m.GetLatestCommitInfo = .ok cur ∧
        m.GetBuiltImageCommitInfo labels = .ok built ∧
        m.GitRepo.IsAncestor built.ancestryCommit cur.ancestryCommit = .ok true := by
  induction h generalizing front with
  | nil => simp [scanGitMappings]
  | @cons m c ms tail hc _ ih =>
    obtain ⟨cur, hcur, hceq⟩ := hc
    have hget : (front ++ c :: tail).getD front.length "" = c := by
      rw [List.getD_eq_getElem?_getD, List.getElem?_append_right (Nat.le_refl _)]
      simp
    have ih2 := ih (front ++ [c])
    simp only [List.append_assoc, List.singleton_append, List.length_append,
      List.length_singleton] at ih2
    unfold scanGitMappings
    simp only [hget]
    cases hb : m.GetBuiltImageCommitInfo labels with
    | error e => simp [hb]
    | ok built =>
      have hanc : (if built.VirtualMerge then built.VirtualMergeFromCommit else built.Commit) =
          built.ancestryCommit := rfl
      simp only [hanc]
      cases ha : m.GitRepo.IsAncestor built.ancestryCommit c with
      | error e =>
        simp only [List.mem_cons, forall_eq_or_imp, hcur, hb, Except.ok.injEq]
        constructor
        · intro hcontra
          exact absurd hcontra (by simp)
        · rintro ⟨⟨cur2, built2, h1, h2, h3⟩, _⟩
          subst h1 h2
          rw [← hceq, ha] at h3
          exact absurd h3 (by simp)
      | ok r =>
        cases r with
        | false =>
          simp only [List.mem_cons, forall_eq_or_imp, hcur, hb, Except.ok.injEq]
          constructor
          · intro hcontra
            exact absurd hcontra (by simp)
          · rintro ⟨⟨cur2, built2, h1, h2, h3⟩, _⟩
            subst h1 h2
            rw [← hceq, ha] at h3
            exact absurd h3 (by simp)
        | true =>
          simp only [ih2, List.mem_cons, forall_eq_or_imp, hcur, hb, Except.ok.injEq]
          constructor
          · intro hrest
            exact ⟨⟨cur, built, rfl, rfl, by rw [← hceq, ha]⟩, hrest⟩
          · intro hall
            exact hall.2

end BaseStage

namespace BaseStage

theorem scanGitMappings_not_failed (labels : Labels) (ms : List GitMapping)
    (front tail : List String) (h : List.Forall₂ IsCurrentCommit ms tail)
    (hanc : ∀ m ∈ ms, ∀ cur built, m.GetLatestCommitInfo = .ok cur →
      m.GetBuiltImageCommitInfo labels = .ok built →
      ∃ r, m.GitRepo.IsAncestor built.ancestryCommit cur.ancestryCommit = .ok r)
    (e : String) :
    scanGitMappings labels (front ++ tail) ms front.length ≠ .failed e := by
  induction h generalizing front with
  | nil => simp [scanGitMappings]
  | @cons m c ms tail hc _ ih =>
    obtain ⟨cur, hcur, hceq⟩ := hc
    have hget : (front ++ c :: tail).getD front.length "" = c := by
      rw [List.getD_eq_getElem?_getD, List.getElem?_append_right (Nat.le_refl _)]
      simp
    have ih2 := ih (front ++ [c]) (fun m hm => hanc m (by simp [hm]))
    simp only [List.append_assoc, List.singleton_append, List.length_append,
      List.length_singleton] at ih2
    unfold scanGitMappings
    simp only [hget]
    cases hb : m.GetBuiltImageCommitInfo labels with
    | error e => simp
    | ok built =>
      obtain ⟨r, hr⟩ := hanc m (by simp) cur built hcur hb
      have hanc2 : (if built.VirtualMerge then built.VirtualMergeFromCommit else built.Commit) =
          built.ancestryCommit := rfl
      simp only [hanc2, hceq, hr]
      cases r with
      | false => simp
      | true => simpa [hceq] using ih2

theorem scanImages_ok (ms : List GitMapping) (cs : List String)
    (stages acc res : List StageDescription) (h : scanImages ms cs stages acc = .ok res) :
    res = acc ++ stages.filter
      (fun d => decide (scanGitMappings d.Info.Labels cs ms 0 = .suitable)) := by
  induction stages generalizing acc with
  | nil =>
    simp only [scanImages, Except.ok.injEq] at h
    simp [h]
  | cons d rest ih =>
    unfold scanImages at h
    cases hs : scanGitMappings d.Info.Labels cs ms 0 with
    | failed e => simp [hs] at h
    | ignored =>
      simp only [hs] at h
      simpa [List.filter, hs] using ih _ h
    | suitable =>
      simp only [hs] at h
      simpa [List.filter, hs] using ih _ h

theorem scanImages_total (ms : List GitMapping) (cs : List String)
    (stages acc : List StageDescription)
    (h : ∀ d ∈ stages, ∀ e, scanGitMappings d.Info.Labels cs ms 0 ≠ .failed e) :
    ∃ res, scanImages ms cs stages acc = .ok res := by
  induction stages generalizing acc with
  | nil => exact ⟨acc, rfl⟩
  | cons d rest ih =>
    unfold scanImages
    cases hs : scanGitMappings d.Info.Labels cs ms 0 with
    | failed e => exact absurd hs (h d (by simp) e)
    | ignored => exact ih _ (fun d hd => h d (by simp [hd]))
    | suitable => exact ih _ (fun d hd => h d (by simp [hd]))

/-- When `selectStagesAncestorsByGitMappings` succeeds, its result is the sub-list of the
candidates that pass the ancestry filter of every git mapping, in the order of the input. -/
theorem selectStagesAncestorsByGitMappings_mem (ms : List GitMapping)
    (stages res : List StageDescription)
    (h : selectStagesAncestorsByGitMappings ms stages = .ok res) (d : StageDescription) :
    d ∈ res ↔ d ∈ stages ∧ PassesAncestry ms d := by
  unfold selectStagesAncestorsByGitMappings at h
  cases hc : currentCommitsByIndex ms [] with
  | error e => simp [hc] at h
  | ok cs =>
    simp only [hc] at h
    obtain ⟨tail, htail, hall⟩ := currentCommitsByIndex_ok ms [] cs hc
    have hres := scanImages_ok ms cs stages [] res h
    have hiff := scanGitMappings_suitable_iff d.Info.Labels ms [] tail hall
    simp only [List.nil_append, List.length_nil] at hiff htail
    subst htail
    rw [hres]
    simp only [List.nil_append, List.mem_filter, decide_eq_true_eq, hiff]
    rfl

theorem selectStagesAncestorsByGitMappings_total (ms : List GitMapping)
    (stages : List StageDescription)
    (hlatest : ∀ m ∈ ms, ∃ cur, m.GetLatestCommitInfo = .ok cur)
    (hanc : ∀ m ∈ ms, ∀ d ∈ stages, ∀ cur built, m.GetLatestCommitInfo = .ok cur →
      m.GetBuiltImageCommitInfo d.Info.Labels = .ok built →
      ∃ r, m.GitRepo.IsAncestor built.ancestryCommit cur.ancestryCommit = .ok r) :
    ∃ res, selectStagesAncestorsByGitMappings ms stages = .ok res := by
  obtain ⟨cs, hcs⟩ := currentCommitsByIndex_total ms [] hlatest
  obtain ⟨tail, htail, hall⟩ := currentCommitsByIndex_ok ms [] cs hcs
  simp only [List.nil_append] at htail
  subst htail
  unfold selectStagesAncestorsByGitMappings
  simp only [hcs]
  apply scanImages_total
  intro d hd e
  have := scanGitMappings_not_failed d.Info.Labels ms [] cs hall
    (fun m hm cur built h1 h2 => hanc m hm d hd cur built h1 h2) e
  simpa using this

theorem scanGitMappings_congr (l1 l2 : Labels) (cs : List String) (ms : List GitMapping)
    (h : ∀ m ∈ ms, ∃ M1 M2 X, m.GetBuiltImageCommitInfo l1 = .ok ⟨M1, true, X⟩ ∧
      m.GetBuiltImageCommitInfo l2 = .ok ⟨M2, true, X⟩) (i : Nat) :
    scanGitMappings l1 cs ms i = scanGitMappings l2 cs ms i := by
  induction ms generalizing i with
  | nil => rfl
  | cons m ms ih =>
    obtain ⟨M1, M2, X, h1, h2⟩ := h m (by simp)
    have ih2 := ih (fun m hm => h m (by simp [hm])) (i + 1)
    unfold scanGitMappings
    simp only [h1, h2, if_true, ih2]

theorem selectStagesAncestorsByGitMappings_singleton (ms : List GitMapping)
    (d : StageDescription) :
    selectStagesAncestorsByGitMappings ms [d] =
      match currentCommitsByIndex ms [] with
      | .error err => .error err
      | .ok cs =>
        match scanGitMappings d.Info.Labels cs ms 0 with
        | .failed err => .error err
        | .ignored => .ok []
        | .suitable => .ok [d] := by
  unfold selectStagesAncestorsByGitMappings
  cases currentCommitsByIndex ms [] with
  | error e => rfl
  | ok cs =>
    simp only [scanImages]
    cases scanGitMappings d.Info.Labels cs ms 0 <;> rfl

end BaseStage

/-- C1. Ancestry soundness: a candidate returned by `GitLatestPatchStage.SelectSuitableStage`
is one of the given candidates and, for every git mapping, the commit recorded in its labels
(`VirtualMergeFromCommit` for a virtual merge, `Commit` otherwise) is an ancestor, per the
repository of the mapping, of the current commit of the mapping (normalised the same way). -/
theorem GitLatestPatchStage.SelectSuitableStage_ancestry_sound (gitMappings : List GitMapping)
    (stages : List StageDescription) (d : StageDescription)
    (h : GitLatestPatchStage.SelectSuitableStage gitMappings stages = .ok (some d)) :
    d ∈ stages ∧ ∀ m ∈ gitMappings, ∃ cur built,
      m.GetLatestCommitInfo = .ok cur ∧
      m.GetBuiltImageCommitInfo d.Info.Labels = .ok built ∧
      m.GitRepo.IsAncestor
        (if built.VirtualMerge then built.VirtualMergeFromCommit else built.Commit)
        (if cur.VirtualMerge then cur.VirtualMergeFromCommit else cur.Commit) = .ok true := by
  unfold GitLatestPatchStage.SelectSuitableStage at h
  cases hsel : BaseStage.selectStagesAncestorsByGitMappings gitMappings stages with
  | error e => simp [hsel] at h
  | ok res =>
    simp only [hsel] at h
    have hmem := BaseStage.selectStagesAncestorsByGitMappings_mem gitMappings stages res hsel d
    cases res with
    | nil => simp [BaseStage.selectStageByOldestCreationTimestamp] at h
    | cons o l =>
      obtain ⟨d2, hd2, hin, _⟩ := BaseStage.selectStageByOldestCreationTimestamp_cons o l
      rw [hd2] at h
      simp only [Except.ok.injEq, Option.some.injEq] at h
      subst h
      exact hmem.1 hin

theorem GitLatestPatchStage.SelectSuitableStage_ancestry_sound_witness :
    GitLatestPatchStage.SelectSuitableStage [exampleMapping]
        [candidateC1, candidateC2, candidateC3] = .ok (some candidateC1) ∧
      (candidateC1 ∈ [candidateC1, candidateC2, candidateC3] ∧
        ∀ m ∈ [exampleMapping], ∃ cur built,
          m.GetLatestCommitInfo = .ok cur ∧
          m.GetBuiltImageCommitInfo candidateC1.Info.Labels = .ok built ∧
          m.GitRepo.IsAncestor
            (if built.VirtualMerge then built.VirtualMergeFromCommit else built.Commit)
            (if cur.VirtualMerge then cur.VirtualMergeFromCommit else cur.Commit) = .ok true) :=
  ⟨rfl, GitLatestPatchStage.SelectSuitableStage_ancestry_sound [exampleMapping]
    [candidateC1, candidateC2, candidateC3] candidateC1 rfl⟩

/-- C2. Ancestry filter, then oldest: when the latest commit of every git mapping is available
and no ancestry query on a candidate's recorded commit fails,
`GitLatestPatchStage.SelectSuitableStage` returns without error; it returns no candidate
exactly when no candidate passes the ancestry filter, and otherwise returns a candidate that
passes the filter and has no passing candidate strictly before it by `UniqueIDAsTime`,
whatever the `UniqueID` of the candidates that do not pass. -/
theorem GitLatestPatchStage.SelectSuitableStage_filter_then_oldest
    (gitMappings : List GitMapping) (stages : List StageDescription)
    (hlatest : ∀ m ∈ gitMappings, ∃ cur, m.GetLatestCommitInfo = .ok cur)
    (hanc : ∀ m ∈ gitMappings, ∀ d ∈ stages, ∀ cur built, m.GetLatestCommitInfo = .ok cur →
      m.GetBuiltImageCommitInfo d.Info.Labels = .ok built →
      ∃ r, m.GitRepo.IsAncestor built.ancestryCommit cur.ancestryCommit = .ok r) :
    ∃ r, GitLatestPatchStage.SelectSuitableStage gitMappings stages = .ok r ∧
      (r = none ↔ ∀ d ∈ stages, ¬ PassesAncestry gitMappings d) ∧
      ∀ d, r = some d → d ∈ stages ∧ PassesAncestry gitMappings d ∧
        ∀ e ∈ stages, PassesAncestry gitMappings e →
          ¬ e.StageID.UniqueIDAsTime < d.StageID.UniqueIDAsTime := by
  obtain ⟨res, hres⟩ :=
    BaseStage.selectStagesAncestorsByGitMappings_total gitMappings stages hlatest hanc
  have hmem := BaseStage.selectStagesAncestorsByGitMappings_mem gitMappings stages res hres
  unfold GitLatestPatchStage.SelectSuitableStage
  simp only [hres]
  cases res with
  | nil =>
    refine ⟨none, rfl, ?_, ?_⟩
    · simp only [true_iff]
      intro d hd hp
      exact absurd ((hmem d).2 ⟨hd, hp⟩) (by simp)
    · intro d hd
      exact absurd hd (by simp)
  | cons o l =>
    obtain ⟨d, hd, hin, hmin⟩ := BaseStage.selectStageByOldestCreationTimestamp_cons o l
    refine ⟨some d, hd, ?_, ?_⟩
    · constructor
      · intro hcontra
        exact absurd hcontra (by simp)
      · intro hnone
        exact absurd ((hmem d).1 hin).2 (hnone d ((hmem d).1 hin).1)
    · intro d2 hd2
      simp only [Option.some.injEq] at hd2
      subst hd2
      exact ⟨((hmem d).1 hin).1, ((hmem d).1 hin).2,
        fun e he hp => hmin e ((hmem e).2 ⟨he, hp⟩)⟩

theorem GitLatestPatchStage.SelectSuitableStage_filter_then_oldest_witness :
    GitLatestPatchStage.SelectSuitableStage [exampleMapping]
        [candidateC2, candidateC3, candidateC1] = .ok (some candidateC1) ∧
      ∃ r, GitLatestPatchStage.SelectSuitableStage [exampleMapping]
          [candidateC2, candidateC3, candidateC1] = .ok r ∧
        (r = none ↔ ∀ d ∈ [candidateC2, candidateC3, candidateC1],
          ¬ PassesAncestry [exampleMapping] d) ∧
        ∀ d, r = some d → d ∈ [candidateC2, candidateC3, candidateC1] ∧
          PassesAncestry [exampleMapping] d ∧
          ∀ e ∈ [candidateC2, candidateC3, candidateC1], PassesAncestry [exampleMapping] e →
            ¬ e.StageID.UniqueIDAsTime < d.StageID.UniqueIDAsTime :=
  ⟨rfl, GitLatestPatchStage.SelectSuitableStage_filter_then_oldest [exampleMapping]
    [candidateC2, candidateC3, candidateC1]
    (fun m hm => by
      rw [List.mem_singleton] at hm
      subst hm
      exact ⟨_, rfl⟩)
    (fun m hm d _ cur built _ _ => by
      rw [List.mem_singleton] at hm
      subst hm
      exact ⟨_, rfl⟩)⟩

/-- C3. Virtual-merge normalisation: let two candidates carry, for every git mapping, labels
of a virtual merge (`VirtualMerge` set) with the same `VirtualMergeFromCommit` and arbitrary
`Commit` values. Then the first candidate is kept by `selectStagesAncestorsByGitMappings`
exactly when, for every mapping, `IsAncestor` holds of its `VirtualMergeFromCommit` and the
current commit of the mapping (itself `VirtualMergeFromCommit` when the latest commit is a
virtual merge), and the outcome for the two candidates (kept, left out, or the error) is the
same: it does not depend on `Commit`. -/
theorem BaseStage.selectStagesAncestorsByGitMappings_virtualMerge
    (gitMappings : List GitMapping) (d1 d2 : StageDescription)
    (h : ∀ m ∈ gitMappings, ∃ M1 M2 X,
      m.GetBuiltImageCommitInfo d1.Info.Labels = .ok ⟨M1, true, X⟩ ∧
      m.GetBuiltImageCommitInfo d2.Info.Labels = .ok ⟨M2, true, X⟩) :
    (BaseStage.selectStagesAncestorsByGitMappings gitMappings [d1] = .ok [d1] ↔
      ∀ m ∈ gitMappings, ∃ cur M X, m.GetLatestCommitInfo = .ok cur ∧
        m.GetBuiltImageCommitInfo d1.Info.Labels = .ok ⟨M, true, X⟩ ∧
        m.GitRepo.IsAncestor X
          (if cur.VirtualMerge then cur.VirtualMergeFromCommit else cur.Commit) = .ok true) ∧
    (BaseStage.selectStagesAncestorsByGitMappings gitMappings [d1]).map List.length =
      (BaseStage.selectStagesAncestorsByGitMappings gitMappings [d2]).map List.length := by
  constructor
  · constructor
    · intro hsel
      have hp := ((BaseStage.selectStagesAncestorsByGitMappings_mem gitMappings [d1] [d1]
        hsel d1).1 (by simp)).2
      intro m hm
      obtain ⟨cur, built, h1, h2, h3⟩ := hp m hm
      obtain ⟨M1, M2, X, hb1, _⟩ := h m hm
      rw [hb1] at h2
      simp only [Except.ok.injEq] at h2
      subst h2
      exact ⟨cur, M1, X, h1, hb1, h3⟩
    · intro hall
      have hlatest : ∀ m ∈ gitMappings, ∃ cur, m.GetLatestCommitInfo = .ok cur := by
        intro m hm
        obtain ⟨cur, _, _, h1, _⟩ := hall m hm
        exact ⟨cur, h1⟩
      have hpass : PassesAncestry gitMappings d1 := by
        intro m hm
        obtain ⟨cur, M, X, h1, h2, h3⟩ := hall m hm
        exact ⟨cur, ⟨M, true, X⟩, h1, h2, h3⟩
      have hanc : ∀ m ∈ gitMappings, ∀ d ∈ [d1], ∀ cur built, m.GetLatestCommitInfo = .ok cur →
          m.GetBuiltImageCommitInfo d.Info.Labels = .ok built →
          ∃ r, m.GitRepo.IsAncestor built.ancestryCommit cur.ancestryCommit = .ok r := by
        intro m hm d hd cur built h1 h2
        rw [List.mem_singleton] at hd
        subst hd
        obtain ⟨cur2, M, X, h3, h4, h5⟩ := hall m hm
        rw [h1] at h3
        rw [h2] at h4
        simp only [Except.ok.injEq] at h3 h4
        subst h3 h4
        exact ⟨true, h5⟩
      obtain ⟨res, hres⟩ :=
        BaseStage.selectStagesAncestorsByGitMappings_total gitMappings [d1] hlatest hanc
      have hin := (BaseStage.selectStagesAncestorsByGitMappings_mem gitMappings [d1] res
        hres d1).2 ⟨by simp, hpass⟩
      rw [BaseStage.selectStagesAncestorsByGitMappings_singleton] at hres ⊢
      cases hc : BaseStage.currentCommitsByIndex gitMappings [] with
      | error e => simp [hc] at hres
      | ok cs =>
        simp only [hc] at hres ⊢
        cases hs : BaseStage.scanGitMappings d1.Info.Labels cs gitMappings 0 with
        | failed e => simp [hs] at hres
        | ignored =>
          simp only [hs, Except.ok.injEq] at hres
          subst hres
          exact absurd hin (by simp)
        | suitable => rfl
  · rw [BaseStage.selectStagesAncestorsByGitMappings_singleton,
      BaseStage.selectStagesAncestorsByGitMappings_singleton]
    cases BaseStage.currentCommitsByIndex gitMappings [] with
    | error e => rfl
    | ok cs =>
      have hcg :=
        BaseStage.scanGitMappings_congr d1.Info.Labels d2.Info.Labels cs gitMappings h 0
      dsimp only
      rw [hcg]
      cases BaseStage.scanGitMappings d2.Info.Labels cs gitMappings 0 <;> rfl

theorem BaseStage.selectStagesAncestorsByGitMappings_virtualMerge_witness :
    BaseStage.selectStagesAncestorsByGitMappings [exampleMapping]
        [candidateVirtualMerge "M"] = .ok [candidateVirtualMerge "M"] ∧
      ((BaseStage.selectStagesAncestorsByGitMappings [exampleMapping]
          [candidateVirtualMerge "M"] = .ok [candidateVirtualMerge "M"] ↔
        ∀ m ∈ [exampleMapping], ∃ cur M X, m.GetLatestCommitInfo = .ok cur ∧
          m.GetBuiltImageCommitInfo (candidateVirtualMerge "M").Info.Labels =
            .ok ⟨M, true, X⟩ ∧
          m.GitRepo.IsAncestor X
            (if cur.VirtualMerge then cur.VirtualMergeFromCommit else cur.Commit) = .ok true) ∧
      (BaseStage.selectStagesAncestorsByGitMappings [exampleMapping]
          [candidateVirtualMerge "M"]).map List.length =
        (BaseStage.selectStagesAncestorsByGitMappings [exampleMapping]
          [candidateVirtualMerge "C2"]).map List.length) :=
  ⟨rfl, BaseStage.selectStagesAncestorsByGitMappings_virtualMerge [exampleMapping]
    (candidateVirtualMerge "M") (candidateVirtualMerge "C2")
    (fun m hm => by
      rw [List.mem_singleton] at hm
      subst hm
      exact ⟨"M", "C2", "X", rfl, rfl⟩)⟩

/-- C4. Default selection is the oldest by time: for the empty candidate list
`BaseStage.SelectSuitableStage` returns no candidate and no error; for a non-empty list it
returns, without error, a member of the list that no candidate is strictly before by
`UniqueIDAsTime`. -/
theorem BaseStage.SelectSuitableStage_oldest (stages : List StageDescription) :
    ∃ r, BaseStage.SelectSuitableStage stages = .ok r ∧
      (stages = [] → r = none) ∧
      (stages ≠ [] → ∃ d, r = some d ∧ d ∈ stages ∧
        ∀ e ∈ stages, ¬ e.StageID.UniqueIDAsTime < d.StageID.UniqueIDAsTime) := by
  cases stages with
  | nil => exact ⟨none, rfl, fun _ => rfl, fun h => absurd rfl h⟩
  | cons o l =>
    obtain ⟨d, hd, hin, hmin⟩ := BaseStage.selectStageByOldestCreationTimestamp_cons o l
    exact ⟨some d, hd, fun h => absurd h (by simp), fun _ => ⟨d, rfl, hin, hmin⟩⟩

theorem BaseStage.SelectSuitableStage_oldest_witness :
    BaseStage.SelectSuitableStage [candidateC1, candidateC2, candidateC3] =
        .ok (some candidateC2) ∧
      ∃ r, BaseStage.SelectSuitableStage [candidateC1, candidateC2, candidateC3] = .ok r ∧
        ([candidateC1, candidateC2, candidateC3] = [] → r = none) ∧
        ([candidateC1, candidateC2, candidateC3] ≠ [] → ∃ d, r = some d ∧
          d ∈ [candidateC1, candidateC2, candidateC3] ∧
          ∀ e ∈ [candidateC1, candidateC2, candidateC3],
            ¬ e.StageID.UniqueIDAsTime < d.StageID.UniqueIDAsTime) :=
  ⟨rfl, BaseStage.SelectSuitableStage_oldest [candidateC1, candidateC2, candidateC3]⟩

/-! ## Theorems: the label key of a custom mount -/

namespace strings

theorem replaceAllAux_slash_cons (c : Char) (cs : List Char) :
    replaceAllAux ['/'] ['-', '-'] 0 (c :: cs) =
      if c = '/' then '-' :: '-' :: replaceAllAux ['/'] ['-', '-'] 0 cs
      else c :: replaceAllAux ['/'] ['-', '-'] 0 cs := by
  by_cases h : c = '/'
  · simp [replaceAllAux, List.isPrefixOf, h]
  · have h2 : ¬ '/' = c := fun e => h e.symm
    simp [replaceAllAux, List.isPrefixOf, h, h2]

theorem replaceAllAux_dashes_pair (r : List Char) :
    replaceAllAux ['-', '-'] ['/'] 0 ('-' :: '-' :: r) =
      '/' :: replaceAllAux ['-', '-'] ['/'] 0 r := by
  simp [replaceAllAux, List.isPrefixOf]

theorem replaceAllAux_dashes_other (c : Char) (r : List Char) (h : c ≠ '-') :
    replaceAllAux ['-', '-'] ['/'] 0 (c :: r) = c :: replaceAllAux ['-', '-'] ['/'] 0 r := by
  have h2 : ¬ '-' = c := fun e => h e.symm
  simp [replaceAllAux, List.isPrefixOf, h2]

theorem replaceAllAux_dashes_single (r : List Char) (h : r.head? ≠ some '-') :
    replaceAllAux ['-', '-'] ['/'] 0 ('-' :: r) = '-' :: replaceAllAux ['-', '-'] ['/'] 0 r := by
  cases r with
  | nil => simp [replaceAllAux, List.isPrefixOf]
  | cons c r =>
    have hc : ¬ '-' = c := by
      intro e
      exact h (by simp [← e])
    simp [replaceAllAux, List.isPrefixOf, hc]

/-- Decoding the encoding of a path gives the path back when no `-` of the path is followed
by `-` or by `/`. -/
theorem replaceAllAux_roundtrip (s : List Char)
    (h : ∀ t ∈ s.tails, ['-', '-'].isPrefixOf t = false ∧ ['-', '/'].isPrefixOf t = false) :
    replaceAllAux ['-', '-'] ['/'] 0 (replaceAllAux ['/'] ['-', '-'] 0 s) = s := by
  induction s with
  | nil => rfl
  | cons c cs ih =>
    have ih2 := ih (fun t ht => h t (by simp [ht]))
    have h0 := h (c :: cs) (by simp)
    rw [replaceAllAux_slash_cons]
    by_cases hs : c = '/'
    · simp only [hs, if_true]
      rw [replaceAllAux_dashes_pair, ih2]
    · simp only [hs, if_false]
      by_cases hd : c = '-'
      · subst hd
        rw [replaceAllAux_dashes_single, ih2]
        cases cs with
        | nil => simp [replaceAllAux]
        | cons c2 cs2 =>
          rw [replaceAllAux_slash_cons]
          have h1 : c2 ≠ '-' := by
            intro hc
            simp [List.isPrefixOf, hc] at h0
          have h2 : c2 ≠ '/' := by
            intro hc
            simp [List.isPrefixOf, hc] at h0
          simp [h1, h2]
      · rw [replaceAllAux_dashes_other c _ hd, ih2]

theorem cut_self_append (sep r : List Char) (h : sep ≠ []) :
    cut sep (sep ++ r) = some ([], r) := by
  cases sep with
  | nil => exact absurd rfl h
  | cons c cs =>
    have hp : (c :: cs).isPrefixOf (c :: (cs ++ r)) = true := by
      have : (c :: cs).isPrefixOf ((c :: cs) ++ r) = true := by
        rw [List.isPrefixOf_iff_prefix]
        exact List.prefix_append _ _
      simp at this
      simp [this]
    simp only [List.cons_append, cut, hp, if_true]
    simp

end strings

theorem strings.Contains_eq_false (s substr : String) (h : strings.Contains s substr = false) :
    ∀ t ∈ s.data.tails, substr.data.isPrefixOf t = false := by
  intro t ht
  unfold strings.Contains at h
  rw [List.any_eq_false] at h
  exact Bool.eq_false_iff.2 (h t ht)

theorem strings.SplitN_two_of_append (pre rest : String) (h : pre ≠ "") :
    (strings.SplitN (pre ++ rest) pre 2).getD 1 "" = rest := by
  have hd : pre.data ≠ [] := by
    intro hnil
    apply h
    exact String.ext hnil
  unfold strings.SplitN
  simp only [hd, if_false, String.data_append, strings.splitAux,
    strings.cut_self_append pre.data rest.data hd]
  rfl

/-- C5, counterexample. The path `a`, dash, slash, `b` contains no `--`; its label key is the
prefix followed by `a---b`, which is decoded to `a`, slash, dash, `b`. -/
theorem BaseStage.customMount_dash_slash_not_restored :
    strings.Contains "a-/b" "--" = false ∧
      BaseStage.customMountLabelName exampleConstants "a-/b" =
        "werf-mount-type-custom-dir-a---b" ∧
      BaseStage.customMountFromFilepath exampleConstants
        (BaseStage.customMountLabelName exampleConstants "a-/b") = "a/-b" ∧
      BaseStage.customMountFromFilepath exampleConstants
        (BaseStage.customMountLabelName exampleConstants "a-/b") ≠ "a-/b" := by
  decide

/-- C5, amended. The encoding of a custom mount label key round-trips: for a non-empty label
prefix and every `from` path in which no `-` is followed by `-` or by `/` (the path contains
neither two dashes in a row nor a dash followed by a slash), the label key written by `addCustomMountLabels` has the prefix, and
decoding it as `getCustomMountsFromLabels` does gives the `from` path again. -/
theorem BaseStage.customMount_label_roundtrip (imagePkg : ImageConstants) (src : String)
    (hp : imagePkg.WerfMountCustomDirLabelPrefix ≠ "")
    (h1 : strings.Contains src "--" = false) (h2 : strings.Contains src "-/" = false) :
    strings.HasPrefix (BaseStage.customMountLabelName imagePkg src)
        imagePkg.WerfMountCustomDirLabelPrefix = true ∧
      BaseStage.customMountFromFilepath imagePkg
        (BaseStage.customMountLabelName imagePkg src) = src := by
  constructor
  · unfold strings.HasPrefix BaseStage.customMountLabelName
    rw [String.data_append, List.isPrefixOf_iff_prefix]
    exact List.prefix_append _ _
  · unfold BaseStage.customMountFromFilepath BaseStage.customMountLabelName
    simp only [strings.SplitN_two_of_append _ _ hp, filepath.FromSlash, filepath.ToSlash]
    have hr := strings.replaceAllAux_roundtrip src.data
      (fun t ht => ⟨strings.Contains_eq_false src "--" h1 t ht,
        strings.Contains_eq_false src "-/" h2 t ht⟩)
    apply String.ext
    simpa [strings.ReplaceAll] using hr

theorem BaseStage.customMount_label_roundtrip_witness :
    BaseStage.customMountLabelName exampleConstants "/home/user/my-cache" =
        "werf-mount-type-custom-dir---home--user--my-cache" ∧
      (strings.HasPrefix (BaseStage.customMountLabelName exampleConstants "/home/user/my-cache")
          exampleConstants.WerfMountCustomDirLabelPrefix = true ∧
        BaseStage.customMountFromFilepath exampleConstants
          (BaseStage.customMountLabelName exampleConstants "/home/user/my-cache") =
            "/home/user/my-cache") :=
  ⟨by decide, BaseStage.customMount_label_roundtrip exampleConstants "/home/user/my-cache"
    (by decide) (by decide) (by decide)⟩

/-! ## Theorems: the order of strings -/

namespace strings

theorem lessEq_total (x y : List Char) : lessEq x y = true ∨ lessEq y x = true := by
  induction x generalizing y with
  | nil => exact Or.inl rfl
  | cons a as ih =>
    cases y with
    | nil => exact Or.inr rfl
    | cons b bs =>
      simp only [lessEq, Bool.or_eq_true, Bool.and_eq_true, decide_eq_true_eq]
      rcases Nat.lt_trichotomy a.toNat b.toNat with h | h | h
      · exact Or.inl (Or.inl h)
      · have hab : a = b := by
          apply Char.ext
          apply UInt32.ext
          exact h
        subst hab
        rcases ih bs with h2 | h2
        · exact Or.inl (Or.inr ⟨rfl, h2⟩)
        · exact Or.inr (Or.inr ⟨rfl, h2⟩)
      · exact Or.inr (Or.inl h)

theorem lessEq_antisymm (x y : List Char) (h1 : lessEq x y = true) (h2 : lessEq y x = true) :
    x = y := by
  induction x generalizing y with
  | nil =>
    cases y with
    | nil => rfl
    | cons b bs => simp [lessEq] at h2
  | cons a as ih =>
    cases y with
    | nil => simp [lessEq] at h1
    | cons b bs =>
      simp only [lessEq, Bool.or_eq_true, Bool.and_eq_true, decide_eq_true_eq] at h1 h2
      rcases h1 with h1 | ⟨hab, h1⟩
      · rcases h2 with h2 | ⟨hba, _⟩
        · omega
        · subst hba
          omega
      · subst hab
        rcases h2 with h2 | ⟨_, h2⟩
        · omega
        · rw [ih bs h1 h2]

theorem lessEq_trans (x y z : List Char) (h1 : lessEq x y = true) (h2 : lessEq y z = true) :
    lessEq x z = true := by
  induction x generalizing y z with
  | nil => rfl
  | cons a as ih =>
    cases y with
    | nil => simp [lessEq] at h1
    | cons b bs =>
      cases z with
      | nil => simp [lessEq] at h2
      | cons c cs =>
        simp only [lessEq, Bool.or_eq_true, Bool.and_eq_true, decide_eq_true_eq] at h1 h2 ⊢
        rcases h1 with h1 | ⟨hab, h1⟩
        · rcases h2 with h2 | ⟨hbc, _⟩
          · exact Or.inl (by omega)
          · subst hbc
            exact Or.inl h1
        · subst hab
          rcases h2 with h2 | ⟨hbc, h2⟩
          · exact Or.inl h2
          · subst hbc
            exact Or.inr ⟨rfl, ih bs cs h1 h2⟩

end strings

/-- Sorting does not depend on the order of the slice. -/
theorem sort.Strings_perm (l1 l2 : List String) (h : l1.Perm l2) :
    sort.Strings l1 = sort.Strings l2 := by
  have htotal : IsTotal String (fun a b => strings.lessEq a.data b.data = true) :=
    ⟨fun a b => strings.lessEq_total a.data b.data⟩
  have htrans : IsTrans String (fun a b => strings.lessEq a.data b.data = true) :=
    ⟨fun a b c => strings.lessEq_trans a.data b.data c.data⟩
  have hanti : IsAntisymm String (fun a b => strings.lessEq a.data b.data = true) :=
    ⟨fun a b h1 h2 => String.ext (strings.lessEq_antisymm a.data b.data h1 h2)⟩
  unfold sort.Strings
  exact List.eq_of_perm_of_sorted
    (((List.perm_insertionSort _ l1).trans h).trans (List.perm_insertionSort _ l2).symm)
    (List.sorted_insertionSort _ l1) (List.sorted_insertionSort _ l2)

/-- The result of `sort.Strings` is in increasing order. -/
theorem sort.Strings_sorted (l : List String) :
    (sort.Strings l).Sorted (fun a b => strings.lessEq a.data b.data = true) := by
  have htotal : IsTotal String (fun a b => strings.lessEq a.data b.data = true) :=
    ⟨fun a b => strings.lessEq_total a.data b.data⟩
  have htrans : IsTrans String (fun a b => strings.lessEq a.data b.data = true) :=
    ⟨fun a b c => strings.lessEq_trans a.data b.data c.data⟩
  exact List.sorted_insertionSort _ l

theorem sort.Strings_perm_self (l : List String) : (sort.Strings l).Perm l :=
  List.perm_insertionSort _ l

/-- A slice in increasing order is not changed by `sort.Strings`. -/
theorem sort.Strings_of_sorted (l : List String)
    (h : l.Sorted (fun a b => strings.lessEq a.data b.data = true)) : sort.Strings l = l :=
  List.Sorted.insertionSort_eq h

/-! ## Theorems: merging mounts -/

namespace util

theorem UniqAppendString_of_mem (acc : List String) (a : String) (h : a ∈ acc) :
    UniqAppendString acc a = acc := by
  simp [UniqAppendString, IsStringsContainValue, h]

theorem UniqAppendString_of_not_mem (acc : List String) (a : String) (h : a ∉ acc) :
    UniqAppendString acc a = acc ++ [a] := by
  simp [UniqAppendString, IsStringsContainValue, h]

theorem foldl_UniqAppendString_mem (arr acc : List String) (x : String) :
    x ∈ arr.foldl UniqAppendString acc ↔ x ∈ acc ∨ x ∈ arr := by
  induction arr generalizing acc with
  | nil => simp
  | cons a arr ih =>
    rw [List.foldl_cons, ih]
    by_cases ha : a ∈ acc
    · rw [UniqAppendString_of_mem acc a ha]
      constructor
      · rintro (h | h)
        · exact Or.inl h
        · exact Or.inr (List.mem_cons_of_mem _ h)
      · rintro (h | h)
        · exact Or.inl h
        · rcases List.mem_cons.1 h with h | h
          · exact Or.inl (h ▸ ha)
          · exact Or.inr h
    · rw [UniqAppendString_of_not_mem acc a ha]
      simp only [List.mem_append, List.mem_singleton, List.mem_cons]
      tauto

theorem foldl_UniqAppendString_nodup (arr acc : List String) (h : acc.Nodup) :
    (arr.foldl UniqAppendString acc).Nodup := by
  induction arr generalizing acc with
  | nil => simpa using h
  | cons a arr ih =>
    rw [List.foldl_cons]
    apply ih
    by_cases ha : a ∈ acc
    · rw [UniqAppendString_of_mem acc a ha]
      exact h
    · rw [UniqAppendString_of_not_mem acc a ha, List.nodup_append]
      refine ⟨h, List.nodup_singleton a, ?_⟩
      intro x hx hx2
      rw [List.mem_singleton] at hx2
      exact ha (hx2 ▸ hx)

theorem foldl_UniqAppendString_of_nodup (arr acc : List String) (h : (acc ++ arr).Nodup) :
    arr.foldl UniqAppendString acc = acc ++ arr := by
  induction arr generalizing acc with
  | nil => simp
  | cons a arr ih =>
    have ha : a ∉ acc := by
      intro hin
      rw [List.nodup_append] at h
      exact h.2.2 hin (by simp)
    rw [List.foldl_cons]
    rw [UniqAppendString_of_not_mem acc a ha, ih (acc ++ [a]) (by simpa using h)]
    simp

theorem mem_UniqStrings (arr : List String) (x : String) : x ∈ UniqStrings arr ↔ x ∈ arr := by
  unfold UniqStrings
  rw [(sort.Strings_perm_self _).mem_iff, foldl_UniqAppendString_mem]
  simp

theorem nodup_UniqStrings (arr : List String) : (UniqStrings arr).Nodup :=
  (sort.Strings_perm_self _).nodup_iff.2 (foldl_UniqAppendString_nodup arr [] List.nodup_nil)

theorem sorted_UniqStrings (arr : List String) :
    (UniqStrings arr).Sorted (fun a b => strings.lessEq a.data b.data = true) :=
  sort.Strings_sorted _

/-- A slice without duplicates in increasing order is not changed by `UniqStrings`. -/
theorem UniqStrings_of_nodup_of_sorted (arr : List String) (h : arr.Nodup)
    (hs : arr.Sorted (fun a b => strings.lessEq a.data b.data = true)) :
    UniqStrings arr = arr := by
  unfold UniqStrings
  rw [foldl_UniqAppendString_of_nodup arr [] (by simpa using h)]
  exact sort.Strings_of_sorted _ hs

end util

/-- A loop that sets `res[k]` from the former `res[k]` and the value of the entry, over
entries with distinct keys: every key of the entries is set once, from the initial map. -/
theorem foldl_insert_lookup (g : Option (List String) → List String → List String)
    (es : List (Σ _ : String, List String)) (hes : es.NodupKeys) (init : Mounts) (k : String) :
    (es.foldl (fun (res : Mounts) e => res.insert e.1 (g (res.lookup e.1) e.2)) init).lookup k =
      match List.dlookup k es with
      | none => init.lookup k
      | some v => some (g (init.lookup k) v) := by
  induction es generalizing init with
  | nil => simp
  | cons e rest ih =>
    obtain ⟨k1, v1⟩ := e
    rw [List.nodupKeys_cons] at hes
    rw [List.foldl_cons, ih hes.2]
    by_cases hk : k = k1
    · subst hk
      have hnone : List.dlookup k rest = none := List.dlookup_eq_none.2 hes.1
      simp [hnone, List.dlookup_cons_eq]
    · have hne : List.dlookup k (⟨k1, v1⟩ :: rest) = List.dlookup k rest :=
        List.dlookup_cons_ne rest (s := ⟨k1, v1⟩) (fun h => hk h)
      rw [hne, AList.lookup_insert_ne hk]

theorem mergeMounts_lookup (a b : Mounts) (k : String) :
    (mergeMounts a b).lookup k =
      match b.lookup k with
      | none => a.lookup k
      | some bv => some (util.UniqStrings ((a.lookup k).getD [] ++ bv)) := by
  have h1 : ∀ k, (a.entries.foldl (fun (res : Mounts) e => res.insert e.1 e.2) ∅).lookup k =
      a.lookup k := by
    intro k
    rw [foldl_insert_lookup (fun _ v => v) a.entries a.nodupKeys ∅ k]
    cases hl : List.dlookup k a.entries with
    | none =>
      have : a.lookup k = none := hl
      simp [this]
    | some v =>
      have : a.lookup k = some v := hl
      simp [this]
  unfold mergeMounts
  rw [foldl_insert_lookup (fun o v => util.UniqStrings (o.getD [] ++ v)) b.entries b.nodupKeys]
  rw [h1]
  rfl

theorem mergeMounts_mem (a b : Mounts) (k : String) : k ∈ mergeMounts a b ↔ k ∈ a ∨ k ∈ b := by
  rw [← AList.lookup_isSome, ← AList.lookup_isSome, ← AList.lookup_isSome, mergeMounts_lookup]
  cases b.lookup k <;> cases a.lookup k <;> simp

theorem mergeMounts_mem_getD (a b : Mounts) (k x : String) :
    x ∈ ((mergeMounts a b).lookup k).getD [] ↔
      x ∈ (a.lookup k).getD [] ∨ x ∈ (b.lookup k).getD [] := by
  rw [mergeMounts_lookup]
  cases b.lookup k <;> cases a.lookup k <;> simp [util.mem_UniqStrings]

/-- C6. Merge commutativity up to order: `mergeMounts a b` and `mergeMounts b a` have the same
keys and, for every key, the same mountpoints when the value lists are compared as sets. -/
theorem mergeMounts_comm_as_sets (a b : Mounts) :
    (∀ k, k ∈ mergeMounts a b ↔ k ∈ mergeMounts b a) ∧
      ∀ k x, x ∈ ((mergeMounts a b).lookup k).getD [] ↔
        x ∈ ((mergeMounts b a).lookup k).getD [] := by
  constructor
  · intro k
    rw [mergeMounts_mem, mergeMounts_mem]
    exact Or.comm
  · intro k x
    rw [mergeMounts_mem_getD, mergeMounts_mem_getD]
    exact Or.comm

/-- C7, counterexample. A key that only the first map has keeps its list as it is: with the
mountpoint `/x` twice under `tmp_dir` in the first map and an empty second map, the merged
list has `/x` twice. -/
theorem mergeMounts_keeps_duplicates :
    (mergeMounts (AList.insert "tmp_dir" ["/x", "/x"] ∅) ∅).lookup "tmp_dir" =
        some ["/x", "/x"] ∧
      ¬ (((mergeMounts (AList.insert "tmp_dir" ["/x", "/x"] ∅) ∅).lookup "tmp_dir").getD
        []).Nodup := by
  decide

/-- C7, amended. Merge rule: the keys of `mergeMounts a b` are exactly the keys of `a` or `b`;
for every key the merged list contains every mountpoint of `a[k]` and of `b[k]` and nothing
else; for a key of `b` the merged list has no mountpoint more than once; for a key that only
`a` has, the merged list is `a[k]` itself, so it has no mountpoint more than once when `a[k]`
has none. -/
theorem mergeMounts_union (a b : Mounts) :
    (∀ k, k ∈ mergeMounts a b ↔ k ∈ a ∨ k ∈ b) ∧
      (∀ k x, x ∈ ((mergeMounts a b).lookup k).getD [] ↔
        x ∈ (a.lookup k).getD [] ∨ x ∈ (b.lookup k).getD []) ∧
      (∀ k, k ∈ b → (((mergeMounts a b).lookup k).getD []).Nodup) ∧
      (∀ k, k ∉ b → (mergeMounts a b).lookup k = a.lookup k) ∧
      (∀ k, ((a.lookup k).getD []).Nodup → (((mergeMounts a b).lookup k).getD []).Nodup) := by
  refine ⟨mergeMounts_mem a b, mergeMounts_mem_getD a b, ?_, ?_, ?_⟩
  · intro k hk
    rw [mergeMounts_lookup]
    rw [← AList.lookup_isSome] at hk
    cases hb : b.lookup k with
    | none => simp [hb] at hk
    | some bv => simpa using util.nodup_UniqStrings _
  · intro k hk
    rw [mergeMounts_lookup]
    rw [← AList.lookup_isSome] at hk
    cases hb : b.lookup k with
    | none => rfl
    | some bv => simp [hb] at hk
  · intro k hk
    rw [mergeMounts_lookup]
    cases hb : b.lookup k with
    | none => simpa using hk
    | some bv => simpa using util.nodup_UniqStrings _

theorem mergeMounts_union_witness :
    (mergeMounts exampleMountsA exampleMountsB).lookup "tmp_dir" = some ["/a", "/b", "/c"] ∧
      ((∀ k, k ∈ mergeMounts exampleMountsA exampleMountsB ↔
        k ∈ exampleMountsA ∨ k ∈ exampleMountsB) ∧
      (∀ k x, x ∈ ((mergeMounts exampleMountsA exampleMountsB).lookup k).getD [] ↔
        x ∈ (exampleMountsA.lookup k).getD [] ∨ x ∈ (exampleMountsB.lookup k).getD []) ∧
      (∀ k, k ∈ exampleMountsB →
        (((mergeMounts exampleMountsA exampleMountsB).lookup k).getD []).Nodup) ∧
      (∀ k, k ∉ exampleMountsB →
        (mergeMounts exampleMountsA exampleMountsB).lookup k = exampleMountsA.lookup k) ∧
      (∀ k, ((exampleMountsA.lookup k).getD []).Nodup →
        (((mergeMounts exampleMountsA exampleMountsB).lookup k).getD []).Nodup)) :=
  ⟨by decide, mergeMounts_union exampleMountsA exampleMountsB⟩

/-! ## Theorems: the mount labels written by `PrepareImage` -/

namespace BaseStage

theorem addServiceMountsVolumesOfType_labels (env : PrepareEnv) (hostDir : String → String)
    (mountpoints : List String) (image : LegacyImage) :
    (addServiceMountsVolumesOfType env hostDir mountpoints image).1.Labels = image.Labels := by
  induction mountpoints generalizing image with
  | nil => rfl
  | cons mp rest ih =>
    unfold addServiceMountsVolumesOfType
    dsimp only
    split
    · rfl
    · rw [ih]
      rfl

theorem addServiceMountsVolumes_labels (env : PrepareEnv) (s : BaseStage)
    (es : List (Σ _ : String, List String)) (image : LegacyImage) :
    (addServiceMountsVolumes env s es image).1.Labels = image.Labels := by
  induction es generalizing image with
  | nil => rfl
  | cons e rest ih =>
    obtain ⟨mountType, mountpoints⟩ := e
    unfold addServiceMountsVolumes
    split_ifs with h1 h2
    · split
      · next image2 err heq =>
        have hl := addServiceMountsVolumesOfType_labels env
          (fun absoluteMountpoint =>
            filepath.Join [s.imageTmpDir, "mount", env.LimitedSlug absoluteMountpoint])
          mountpoints image
        rw [heq] at hl
        exact hl
      · next image2 heq =>
        have hl := addServiceMountsVolumesOfType_labels env
          (fun absoluteMountpoint =>
            filepath.Join [s.imageTmpDir, "mount", env.LimitedSlug absoluteMountpoint])
          mountpoints image
        rw [heq] at hl
        rw [ih]
        exact hl
    · split
      · next image2 err heq =>
        have hl := addServiceMountsVolumesOfType_labels env
          (fun absoluteMountpoint =>
            filepath.Join [env.GetSharedContextDir, "mounts", "projects", s.projectName,
              env.LimitedSlug absoluteMountpoint])
          mountpoints image
        rw [heq] at hl
        exact hl
      · next image2 heq =>
        have hl := addServiceMountsVolumesOfType_labels env
          (fun absoluteMountpoint =>
            filepath.Join [env.GetSharedContextDir, "mounts", "projects", s.projectName,
              env.LimitedSlug absoluteMountpoint])
          mountpoints image
        rw [heq] at hl
        rw [ih]
        exact hl
    · rfl

theorem foldl_AddVolume_labels (f : String → String) (mountpoints : List String)
    (image : LegacyImage) :
    (mountpoints.foldl (fun (image : LegacyImage) mountpoint =>
      image.AddVolume (f mountpoint)) image).Labels = image.Labels := by
  induction mountpoints generalizing image with
  | nil => rfl
  | cons mp rest ih => rw [List.foldl_cons, ih]; rfl

theorem addCustomMountVolumes_labels (env : PrepareEnv)
    (es : List (Σ _ : String, List String)) (image : LegacyImage) :
    (addCustomMountVolumes env es image).1.Labels = image.Labels := by
  induction es generalizing image with
  | nil => rfl
  | cons e rest ih =>
    obtain ⟨src, mountpoints⟩ := e
    unfold addCustomMountVolumes
    dsimp only
    split
    · rfl
    · split
      · rfl
      · rw [ih, foldl_AddVolume_labels]

end BaseStage

namespace BaseStage

theorem addCustomMountLabels_lookup (imagePkg : ImageConstants)
    (es : List (Σ _ : String, List String)) (image : LegacyImage) (name : String)
    (h : ∀ e ∈ es, name ≠ customMountLabelName imagePkg e.1) :
    (addCustomMountLabels imagePkg es image).Labels.lookup name = image.Labels.lookup name := by
  induction es generalizing image with
  | nil => rfl
  | cons e rest ih =>
    obtain ⟨src, mountpoints⟩ := e
    unfold addCustomMountLabels
    rw [ih _ (fun e he => h e (by simp [he]))]
    exact AList.lookup_insert_ne (h ⟨src, mountpoints⟩ (by simp))

/-- The labels of the image after `PrepareImage`, read at a name that is not the label name
of a custom mount of the stage, are the labels after `addServiceMountsLabels`, whether
`PrepareImage` returns an error or not. -/
theorem PrepareImage_lookup (imagePkg : ImageConstants) (env : PrepareEnv) (s : BaseStage)
    (prevBuiltImage : Option StageDescription) (image : LegacyImage) (name : String)
    (h : ∀ e ∈ (getCustomMounts imagePkg s prevBuiltImage).entries,
      name ≠ customMountLabelName imagePkg e.1) :
    (PrepareImage imagePkg env s prevBuiltImage image).1.Labels.lookup name =
      (addServiceMountsLabels imagePkg (getServiceMounts imagePkg s prevBuiltImage).entries
        (image.AddLabel imagePkg.WerfProjectRepoCommitLabel env.HeadCommit)).1.Labels.lookup
        name := by
  unfold PrepareImage
  dsimp only
  split
  · next image2 err heq => rw [heq]
  · next image2 heq =>
    rw [heq]
    dsimp only
    have hv := addServiceMountsVolumes_labels env s
      (getServiceMounts imagePkg s prevBuiltImage).entries image2
    split
    · next image3 err heq3 =>
      rw [heq3] at hv
      dsimp only at hv ⊢
      rw [hv]
    · next image3 heq3 =>
      rw [heq3] at hv
      dsimp only at hv
      have hc := addCustomMountVolumes_labels env
        (getCustomMounts imagePkg s prevBuiltImage).entries
        (addCustomMountLabels imagePkg (getCustomMounts imagePkg s prevBuiltImage).entries image3)
      have hl := addCustomMountLabels_lookup imagePkg
        (getCustomMounts imagePkg s prevBuiltImage).entries image3 name h
      split
      · next image5 err heq5 =>
        rw [heq5] at hc
        dsimp only at hc ⊢
        rw [hc, hl, hv]
      · next image5 heq5 =>
        rw [heq5] at hc
        dsimp only at hc ⊢
        rw [hc, hl, hv]

theorem addServiceMountsLabels_ok (imagePkg : ImageConstants)
    (es : List (Σ _ : String, List String)) (image : LegacyImage)
    (hkeys : ∀ e ∈ es, e.1 = "tmp_dir" ∨ e.1 = "build_dir") :
    (addServiceMountsLabels imagePkg es image).2 = none := by
  induction es generalizing image with
  | nil => rfl
  | cons e rest ih =>
    obtain ⟨mountType, mountpoints⟩ := e
    unfold addServiceMountsLabels
    have hk := hkeys ⟨mountType, mountpoints⟩ (by simp)
    have hrest : ∀ e ∈ rest, e.1 = "tmp_dir" ∨ e.1 = "build_dir" :=
      fun e he => hkeys e (by simp [he])
    split_ifs with h1 h2
    · exact ih _ hrest
    · exact ih _ hrest
    · rcases hk with hk | hk
      · exact absurd hk h1
      · exact absurd hk h2

/-- The label written by `addServiceMountsLabels` for a mount type, when the two service
mount labels have different names: the joined mountpoints of the type when the map has the
type, the former label otherwise. -/
theorem addServiceMountsLabels_lookup (imagePkg : ImageConstants)
    (hne : imagePkg.WerfMountTmpDirLabel ≠ imagePkg.WerfMountBuildDirLabel)
    (es : List (Σ _ : String, List String)) (hes : es.NodupKeys) (image : LegacyImage)
    (hkeys : ∀ e ∈ es, e.1 = "tmp_dir" ∨ e.1 = "build_dir") :
    (addServiceMountsLabels imagePkg es image).1.Labels.lookup imagePkg.WerfMountTmpDirLabel =
        (match List.dlookup "tmp_dir" es with
          | some mountpoints => some (strings.Join mountpoints ";")
          | none => image.Labels.lookup imagePkg.WerfMountTmpDirLabel) ∧
      (addServiceMountsLabels imagePkg es image).1.Labels.lookup
          imagePkg.WerfMountBuildDirLabel =
        (match List.dlookup "build_dir" es with
          | some mountpoints => some (strings.Join mountpoints ";")
          | none => image.Labels.lookup imagePkg.WerfMountBuildDirLabel) := by
  induction es generalizing image with
  | nil => exact ⟨rfl, rfl⟩
  | cons e rest ih =>
    obtain ⟨mountType, mountpoints⟩ := e
    rw [List.nodupKeys_cons] at hes
    have hk := hkeys ⟨mountType, mountpoints⟩ (by simp)
    have hrest : ∀ e ∈ rest, e.1 = "tmp_dir" ∨ e.1 = "build_dir" :=
      fun e he => hkeys e (by simp [he])
    have htb : ("tmp_dir" : String) ≠ "build_dir" := by decide
    unfold addServiceMountsLabels
    rcases hk with hk | hk
    · simp only at hk
      subst hk
      simp only [if_true]
      have hnone : List.dlookup "tmp_dir" rest = none := List.dlookup_eq_none.2 hes.1
      have hb : List.dlookup "build_dir" (⟨"tmp_dir", mountpoints⟩ :: rest) =
          List.dlookup "build_dir" rest :=
        List.dlookup_cons_ne rest (s := ⟨"tmp_dir", mountpoints⟩) (fun h => htb h.symm)
      obtain ⟨ih1, ih2⟩ := ih hes.2 (image.AddLabel imagePkg.WerfMountTmpDirLabel
        (strings.Join mountpoints ";")) hrest
      refine ⟨?_, ?_⟩
      · rw [ih1, hnone, List.dlookup_cons_eq]
        exact AList.lookup_insert _
      · rw [ih2, hb]
        cases List.dlookup "build_dir" rest with
        | some v => rfl
        | none => exact AList.lookup_insert_ne (fun h => hne h.symm)
    · simp only at hk
      subst hk
      have hft : ¬ ("build_dir" : String) = "tmp_dir" := by decide
      simp only [hft, if_false, if_true]
      have hnone : List.dlookup "build_dir" rest = none := List.dlookup_eq_none.2 hes.1
      have hb : List.dlookup "tmp_dir" (⟨"build_dir", mountpoints⟩ :: rest) =
          List.dlookup "tmp_dir" rest :=
        List.dlookup_cons_ne rest (s := ⟨"build_dir", mountpoints⟩) (fun h => htb h)
      obtain ⟨ih1, ih2⟩ := ih hes.2 (image.AddLabel imagePkg.WerfMountBuildDirLabel
        (strings.Join mountpoints ";")) hrest
      refine ⟨?_, ?_⟩
      · rw [ih1, hb]
        cases List.dlookup "tmp_dir" rest with
        | some v => rfl
        | none => exact AList.lookup_insert_ne hne
      · rw [ih2, hnone, List.dlookup_cons_eq]
        exact AList.lookup_insert _

end BaseStage

namespace BaseStage

theorem getServiceMountsFromLabels_none (imagePkg : ImageConstants) :
    getServiceMountsFromLabels imagePkg none = ∅ := rfl

theorem getCustomMountsFromLabels_none (imagePkg : ImageConstants) :
    getCustomMountsFromLabels imagePkg none = ∅ := rfl

theorem mergeMounts_empty_single (k : String) (l : List String) :
    mergeMounts ∅ (AList.insert k l ∅) = AList.insert k (util.UniqStrings l) ∅ := rfl

theorem mergeMounts_empty_right (a : Mounts) (k : String) :
    (mergeMounts a ∅).lookup k = a.lookup k := by
  rw [mergeMounts_lookup]
  rfl

theorem foldl_serviceMountsFromConfig (cms : List Mount) (init : Mounts)
    (h : ∀ m ∈ cms, m.MountType = "tmp_dir") (hne : cms ≠ []) :
    cms.foldl
      (fun (mountpointsByType : Mounts) mountCfg =>
        if !util.IsStringsContainValue ["tmp_dir", "build_dir"] mountCfg.MountType then
          mountpointsByType
        else
          let mountpoint := path.Clean mountCfg.To
          mountpointsByType.insert mountCfg.MountType
            ((mountpointsByType.lookup mountCfg.MountType).getD [] ++ [mountpoint]))
      init =
    init.insert "tmp_dir"
      ((init.lookup "tmp_dir").getD [] ++ cms.map (fun m => path.Clean m.To)) := by
  induction cms generalizing init with
  | nil => exact absurd rfl hne
  | cons m rest ih =>
    have hm : m.MountType = "tmp_dir" := h m (by simp)
    have hstep : (if !util.IsStringsContainValue ["tmp_dir", "build_dir"] m.MountType then init
        else init.insert m.MountType
          ((init.lookup m.MountType).getD [] ++ [path.Clean m.To])) =
        init.insert "tmp_dir" ((init.lookup "tmp_dir").getD [] ++ [path.Clean m.To]) := by
      rw [hm]
      rfl
    rw [List.foldl_cons]
    dsimp only
    rw [hstep]
    cases rest with
    | nil => rfl
    | cons m2 rest2 =>
      rw [ih _ (fun x hx => h x (by simp [hx])) (by simp)]
      rw [AList.insert_insert, AList.lookup_insert]
      simp

theorem foldl_customMountsFromConfig (cms : List Mount) (init : Mounts)
    (h : ∀ m ∈ cms, m.MountType ≠ "custom_dir") :
    cms.foldl
      (fun (mountpointsByFrom : Mounts) mountCfg =>
        if mountCfg.MountType ≠ "custom_dir" then mountpointsByFrom
        else
          let src := filepath.Clean mountCfg.From
          let mountpoint := path.Clean mountCfg.To
          mountpointsByFrom.insert src
            (util.UniqAppendString ((mountpointsByFrom.lookup src).getD []) mountpoint))
      init = init := by
  induction cms generalizing init with
  | nil => rfl
  | cons m rest ih =>
    have hm : m.MountType ≠ "custom_dir" := h m (by simp)
    rw [List.foldl_cons]
    simp only [hm, ne_eq, not_false_eq_true, if_true]
    exact ih init (fun x hx => h x (by simp [hx]))

end BaseStage

/-- C8. The service mount label is the sorted de-duplicated list: for every list of `tmp_dir`
config mounts and no previous built image, the `WerfMountTmpDir` label on the image after
`BaseStage.PrepareImage` is the join with `;` of the list that has exactly the cleaned
mountpoints of the configuration as members, each of them once, in increasing order. The label
is written when the list of config mounts is not empty; with no config mounts there is no
service mount and no label is written for one. -/
theorem BaseStage.PrepareImage_tmpDir_label (imagePkg : ImageConstants) (env : PrepareEnv)
    (s : BaseStage) (image : LegacyImage)
    (h : ∀ m ∈ s.configMounts, m.MountType = "tmp_dir") :
    (s.configMounts ≠ [] →
      ∃ l, (BaseStage.PrepareImage imagePkg env s none image).1.Labels.lookup
          imagePkg.WerfMountTmpDirLabel = some (strings.Join l ";") ∧
        (∀ x, x ∈ l ↔ x ∈ s.configMounts.map (fun m => path.Clean m.To)) ∧
        l.Nodup ∧ l.Sorted (fun a b => strings.lessEq a.data b.data = true)) ∧
    (s.configMounts = [] → BaseStage.getServiceMounts imagePkg s none = ∅) := by
  refine ⟨?_, ?_⟩
  · intro hne
    have hcfg : BaseStage.getServiceMountsFromConfig s =
        AList.insert "tmp_dir" (s.configMounts.map (fun m => path.Clean m.To)) ∅ := by
      unfold BaseStage.getServiceMountsFromConfig
      rw [BaseStage.foldl_serviceMountsFromConfig s.configMounts ∅ h hne]
      rfl
    have hsvc : BaseStage.getServiceMounts imagePkg s none =
        AList.insert "tmp_dir"
          (util.UniqStrings (s.configMounts.map (fun m => path.Clean m.To))) ∅ := by
      unfold BaseStage.getServiceMounts
      rw [hcfg, BaseStage.getServiceMountsFromLabels_none, BaseStage.mergeMounts_empty_single]
    have hcustom : BaseStage.getCustomMounts imagePkg s none = ∅ := by
      unfold BaseStage.getCustomMounts BaseStage.getCustomMountsFromConfig
      rw [BaseStage.foldl_customMountsFromConfig s.configMounts ∅
        (fun m hm => by rw [h m hm]; decide)]
      rfl
    refine ⟨util.UniqStrings (s.configMounts.map (fun m => path.Clean m.To)), ?_,
      util.mem_UniqStrings _, util.nodup_UniqStrings _, util.sorted_UniqStrings _⟩
    rw [BaseStage.PrepareImage_lookup imagePkg env s none image imagePkg.WerfMountTmpDirLabel
      (by rw [hcustom]; intro e he; exact absurd he (by simp)), hsvc]
    have hent : (AList.insert "tmp_dir"
        (util.UniqStrings (s.configMounts.map (fun m => path.Clean m.To)))
        (∅ : Mounts)).entries =
        [⟨"tmp_dir", util.UniqStrings (s.configMounts.map (fun m => path.Clean m.To))⟩] := rfl
    rw [hent]
    simp only [BaseStage.addServiceMountsLabels, if_true, LegacyImage.AddLabel]
    exact AList.lookup_insert _
  · intro hnil
    unfold BaseStage.getServiceMounts BaseStage.getServiceMountsFromConfig
    rw [hnil]
    rfl

theorem BaseStage.PrepareImage_tmpDir_label_witness :
    (BaseStage.PrepareImage exampleConstants exampleEnv exampleStage none
        emptyImage).1.Labels.lookup exampleConstants.WerfMountTmpDirLabel =
        some "/tmp/bar;/tmp/foo" ∧
      ∃ l, (BaseStage.PrepareImage exampleConstants exampleEnv exampleStage none
          emptyImage).1.Labels.lookup exampleConstants.WerfMountTmpDirLabel =
          some (strings.Join l ";") ∧
        (∀ x, x ∈ l ↔ x ∈ exampleStage.configMounts.map (fun m => path.Clean m.To)) ∧
        l.Nodup ∧ l.Sorted (fun a b => strings.lessEq a.data b.data = true) :=
  ⟨by decide,
    (BaseStage.PrepareImage_tmpDir_label exampleConstants exampleEnv exampleStage emptyImage
      (by decide)).1 (by decide)⟩

/-! ## Theorems: splitting a joined list of mountpoints -/

namespace strings

theorem not_mem_of_Contains_eq_false (s : String) (c : Char)
    (h : Contains s (String.mk [c]) = false) : c ∉ s.data := by
  have ht := Contains_eq_false s (String.mk [c]) h
  generalize s.data = l at ht
  induction l with
  | nil => simp
  | cons a l ih =>
    intro hmem
    rcases List.mem_cons.1 hmem with hc | hc
    · have := ht (a :: l) (by simp)
      simp [List.isPrefixOf, hc] at this
    · exact ih (fun t htl => ht t (by simp [htl])) hc

theorem cut_of_not_mem (c : Char) (a : List Char) (h : c ∉ a) : cut [c] a = none := by
  induction a with
  | nil => simp [cut]
  | cons x a ih =>
    have hx : ¬ c = x := fun e => h (by simp [e])
    have ha : c ∉ a := fun e => h (by simp [e])
    simp [cut, List.isPrefixOf, hx, ih ha]

theorem cut_append_sep (c : Char) (a r : List Char) (h : c ∉ a) :
    cut [c] (a ++ c :: r) = some (a, r) := by
  induction a with
  | nil => simp [cut, List.isPrefixOf]
  | cons x a ih =>
    have hx : ¬ c = x := fun e => h (by simp [e])
    have ha : c ∉ a := fun e => h (by simp [e])
    simp [cut, List.isPrefixOf, hx, ih ha]

theorem splitAux_joinAux (c : Char) (ls : List (List Char)) (hne : ls ≠ [])
    (h : ∀ a ∈ ls, c ∉ a) (n : Nat) (hn : ls.length ≤ n) :
    splitAux [c] n (joinAux [c] ls) = ls := by
  induction ls generalizing n with
  | nil => exact absurd rfl hne
  | cons a rest ih =>
    cases rest with
    | nil =>
      have ha : c ∉ a := h a (by simp)
      match n, hn with
      | 1, _ => rfl
      | m + 2, _ => simp [splitAux, joinAux, cut_of_not_mem c a ha]
    | cons b rest2 =>
      have ha : c ∉ a := h a (by simp)
      match n, hn with
      | m + 2, hm =>
        have hlen : (b :: rest2).length ≤ m + 1 := by
          simp only [List.length_cons] at hm ⊢
          omega
        have ih2 := ih (by simp) (fun x hx => h x (by simp [hx])) (m + 1) hlen
        simp only [joinAux, List.append_assoc, List.singleton_append, splitAux,
          cut_append_sep c a _ ha]
        rw [ih2]

theorem length_joinAux (c : Char) (ls : List (List Char)) :
    ls.length ≤ (joinAux [c] ls).length + 1 := by
  induction ls with
  | nil => simp
  | cons a rest ih =>
    cases rest with
    | nil => simp
    | cons b rest2 =>
      simp only [joinAux, List.length_append, List.length_cons, List.length_nil] at ih ⊢
      omega

/-- Splitting at `;` the join with `;` of a non-empty list of strings without `;` gives the
list back. -/
theorem Split_Join (l : List String) (hne : l ≠ [])
    (h : ∀ m ∈ l, Contains m ";" = false) : Split (Join l ";") ";" = l := by
  have hsep : (";" : String).data = [';'] := rfl
  have hnil : ¬ ([';'] : List Char) = [] := by simp
  unfold Split SplitN Join
  simp only [hsep, hnil, if_false]
  rw [splitAux_joinAux ';' (l.map String.data) (by simpa using hne)
    (by
      intro a ha
      obtain ⟨m, hm, rfl⟩ := List.mem_map.1 ha
      exact not_mem_of_Contains_eq_false m ';' (h m hm))
    _ (by simpa using length_joinAux ';' (l.map String.data))]
  rw [List.map_map]
  exact List.map_id _

end strings

theorem util.RejectEmptyStrings_of_ne (l : List String) (h : ∀ m ∈ l, m ≠ "") :
    util.RejectEmptyStrings l = l := by
  unfold util.RejectEmptyStrings
  rw [List.filter_eq_self]
  intro m hm
  simpa using h m hm

/-- Reading back a label value that is the join of distinct, non-empty mountpoints without
`;`, in increasing order, gives the mountpoints. -/
theorem mountpoints_of_label_value (l : List String) (hd : l.Nodup)
    (hs : l.Sorted (fun a b => strings.lessEq a.data b.data = true))
    (h : ∀ m ∈ l, m ≠ "" ∧ strings.Contains m ";" = false) :
    util.RejectEmptyStrings (util.UniqStrings (strings.Split (strings.Join l ";") ";")) = l := by
  cases l with
  | nil => decide
  | cons a rest =>
    rw [strings.Split_Join (a :: rest) (by simp) (fun m hm => (h m hm).2),
      util.UniqStrings_of_nodup_of_sorted _ hd hs,
      util.RejectEmptyStrings_of_ne _ (fun m hm => (h m hm).1)]

namespace BaseStage

theorem getServiceMountsFromLabels_lookup (imagePkg : ImageConstants)
    (prevBuiltImage : Option StageDescription) :
    (getServiceMountsFromLabels imagePkg prevBuiltImage).lookup "tmp_dir" =
        ((prevLabels prevBuiltImage).lookup imagePkg.WerfMountTmpDirLabel).map
          (fun v => util.RejectEmptyStrings (util.UniqStrings (strings.Split v ";"))) ∧
      (getServiceMountsFromLabels imagePkg prevBuiltImage).lookup "build_dir" =
        ((prevLabels prevBuiltImage).lookup imagePkg.WerfMountBuildDirLabel).map
          (fun v => util.RejectEmptyStrings (util.UniqStrings (strings.Split v ";"))) ∧
      ∀ k, k ∈ getServiceMountsFromLabels imagePkg prevBuiltImage →
        k = "tmp_dir" ∨ k = "build_dir" := by
  have htb : ("tmp_dir" : String) ≠ "build_dir" := by decide
  unfold getServiceMountsFromLabels
  simp only [List.foldl]
  cases (prevLabels prevBuiltImage).lookup imagePkg.WerfMountTmpDirLabel <;>
    cases (prevLabels prevBuiltImage).lookup imagePkg.WerfMountBuildDirLabel <;>
    simp only [Option.map, AList.lookup_insert, AList.lookup_insert_ne htb,
      AList.lookup_insert_ne htb.symm, AList.lookup_empty, AList.mem_insert,
      AList.not_mem_empty, true_and, or_false, false_imp_iff, implies_true, and_true] <;>
    (intro k hk; tauto)

theorem getServiceMounts_of_no_config (imagePkg : ImageConstants) (s : BaseStage)
    (prevBuiltImage : Option StageDescription) (hcfg : s.configMounts = []) (k : String) :
    (getServiceMounts imagePkg s prevBuiltImage).lookup k =
      (getServiceMountsFromLabels imagePkg prevBuiltImage).lookup k := by
  unfold getServiceMounts getServiceMountsFromConfig
  rw [hcfg]
  exact mergeMounts_empty_right _ k

theorem customMountLabelName_ne (imagePkg : ImageConstants) (name src : String)
    (h : strings.HasPrefix name imagePkg.WerfMountCustomDirLabelPrefix = false) :
    name ≠ customMountLabelName imagePkg src := by
  intro heq
  have hp : strings.HasPrefix (customMountLabelName imagePkg src)
      imagePkg.WerfMountCustomDirLabelPrefix = true := by
    unfold strings.HasPrefix customMountLabelName
    rw [String.data_append, List.isPrefixOf_iff_prefix]
    exact List.prefix_append _ _
  rw [← heq, h] at hp
  exact absurd hp (by simp)

/-- Without config mounts, the label of a service mount type after `PrepareImage` is the
join of the mountpoints read from the label of the same name of the previous image. -/
theorem PrepareImage_service_labels (imagePkg : ImageConstants) (env : PrepareEnv)
    (s : BaseStage) (prev : StageDescription) (image : LegacyImage)
    (hne : imagePkg.WerfMountTmpDirLabel ≠ imagePkg.WerfMountBuildDirLabel)
    (hcfg : s.configMounts = []) (label v : String)
    (hlabel : label = imagePkg.WerfMountTmpDirLabel ∨ label = imagePkg.WerfMountBuildDirLabel)
    (hpre : strings.HasPrefix label imagePkg.WerfMountCustomDirLabelPrefix = false)
    (hprev : prev.Info.Labels.lookup label = some v) :
    (PrepareImage imagePkg env s (some prev) image).1.Labels.lookup label =
      some (strings.Join
        (util.RejectEmptyStrings (util.UniqStrings (strings.Split v ";"))) ";") := by
  rw [PrepareImage_lookup imagePkg env s (some prev) image label
    (fun e _ => customMountLabelName_ne imagePkg label e.1 hpre)]
  obtain ⟨ht, hb, hkeys⟩ := getServiceMountsFromLabels_lookup imagePkg (some prev)
  have hkeys2 : ∀ e ∈ (getServiceMounts imagePkg s (some prev)).entries,
      e.1 = "tmp_dir" ∨ e.1 = "build_dir" := by
    intro e he
    apply hkeys
    have hmem : e.1 ∈ getServiceMounts imagePkg s (some prev) :=
      AList.mem_keys.2 (List.mem_keys_of_mem he)
    rw [← AList.lookup_isSome] at hmem ⊢
    rwa [getServiceMounts_of_no_config imagePkg s (some prev) hcfg] at hmem
  obtain ⟨h1, h2⟩ := addServiceMountsLabels_lookup imagePkg hne
    (getServiceMounts imagePkg s (some prev)).entries
    (getServiceMounts imagePkg s (some prev)).nodupKeys
    (image.AddLabel imagePkg.WerfProjectRepoCommitLabel env.HeadCommit) hkeys2
  have hd : ∀ k, List.dlookup k (getServiceMounts imagePkg s (some prev)).entries =
      (getServiceMountsFromLabels imagePkg (some prev)).lookup k :=
    fun k => getServiceMounts_of_no_config imagePkg s (some prev) hcfg k
  rcases hlabel with hl | hl
  · subst hl
    rw [h1, hd, ht]
    have : (prevLabels (some prev)).lookup imagePkg.WerfMountTmpDirLabel = some v := hprev
    rw [this]
    rfl
  · subst hl
    rw [h2, hd, hb]
    have : (prevLabels (some prev)).lookup imagePkg.WerfMountBuildDirLabel = some v := hprev
    rw [this]
    rfl

end BaseStage

/-- C9, counterexample. The previous built image has the `WerfMountTmpDir` label
`/tmp/foo;/tmp/bar`, the join of two distinct, non-empty mountpoints without `;`, and the stage
has no config mounts; the mountpoints read from the label are de-duplicated in increasing
order, and `BaseStage.PrepareImage` writes `/tmp/bar;/tmp/foo`. -/
theorem BaseStage.PrepareImage_reorders_mount_label :
    examplePrevImage.Info.Labels.lookup exampleConstants.WerfMountTmpDirLabel =
        some (strings.Join ["/tmp/foo", "/tmp/bar"] ";") ∧
      ["/tmp/foo", "/tmp/bar"].Nodup ∧
      (∀ m ∈ ["/tmp/foo", "/tmp/bar"], m ≠ "" ∧ strings.Contains m ";" = false) ∧
      exampleStageNoMounts.configMounts = [] ∧
      (BaseStage.PrepareImage exampleConstants exampleEnv exampleStageNoMounts
        (some examplePrevImage) emptyImage).1.Labels.lookup
          exampleConstants.WerfMountTmpDirLabel = some "/tmp/bar;/tmp/foo" ∧
      (BaseStage.PrepareImage exampleConstants exampleEnv exampleStageNoMounts
        (some examplePrevImage) emptyImage).1.Labels.lookup
          exampleConstants.WerfMountTmpDirLabel ≠
        examplePrevImage.Info.Labels.lookup exampleConstants.WerfMountTmpDirLabel := by
  decide

/-- C9, amended. Mount labels in increasing order are inherited unchanged: let the two service
mount labels have different names that do not start with the custom mount label prefix. For
every previous built image whose `WerfMountTmpDir` (or `WerfMountBuildDir`) label value is the
join with `;` of distinct, non-empty mountpoints without `;`, in increasing order, and a stage
without config mounts, the label of the same name on the image after `BaseStage.PrepareImage`
is the previous label value, whether `PrepareImage` returns an error or not. -/
theorem BaseStage.PrepareImage_inherits_mount_label (imagePkg : ImageConstants)
    (env : PrepareEnv) (s : BaseStage) (prev : StageDescription) (image : LegacyImage)
    (hne : imagePkg.WerfMountTmpDirLabel ≠ imagePkg.WerfMountBuildDirLabel)
    (hcfg : s.configMounts = []) (label : String)
    (hlabel : label = imagePkg.WerfMountTmpDirLabel ∨ label = imagePkg.WerfMountBuildDirLabel)
    (hpre : strings.HasPrefix label imagePkg.WerfMountCustomDirLabelPrefix = false)
    (l : List String) (hd : l.Nodup)
    (hs : l.Sorted (fun a b => strings.lessEq a.data b.data = true))
    (hl : ∀ m ∈ l, m ≠ "" ∧ strings.Contains m ";" = false)
    (hprev : prev.Info.Labels.lookup label = some (strings.Join l ";")) :
    (BaseStage.PrepareImage imagePkg env s (some prev) image).1.Labels.lookup label =
      some (strings.Join l ";") := by
  rw [BaseStage.PrepareImage_service_labels imagePkg env s prev image hne hcfg label
    (strings.Join l ";") hlabel hpre hprev, mountpoints_of_label_value l hd hs hl]

theorem BaseStage.PrepareImage_inherits_mount_label_witness :
    examplePrevImageSorted.Info.Labels.lookup exampleConstants.WerfMountTmpDirLabel =
        some "/tmp/bar;/tmp/foo" ∧
      (BaseStage.PrepareImage exampleConstants exampleEnv exampleStageNoMounts
        (some examplePrevImageSorted) emptyImage).1.Labels.lookup
          exampleConstants.WerfMountTmpDirLabel =
        some (strings.Join ["/tmp/bar", "/tmp/foo"] ";") :=
  ⟨by decide, BaseStage.PrepareImage_inherits_mount_label exampleConstants exampleEnv
    exampleStageNoMounts examplePrevImageSorted emptyImage (by decide) rfl
    exampleConstants.WerfMountTmpDirLabel (Or.inl rfl) (by decide)
    ["/tmp/bar", "/tmp/foo"] (by decide) (by decide) (by decide) (by decide)⟩

/-! ## Theorems: the checksum command -/

theorem foldl_append_flatMap (f : String → List String) (l init : List String) :
    l.foldl (fun acc x => acc ++ f x) init = init ++ l.flatMap f := by
  induction l generalizing init with
  | nil => simp
  | cons a l ih => simp [List.foldl_cons, ih, List.flatMap_cons]

set_option maxRecDepth 100000 in
/-- C10. The checksum command of the spec's example: with the binaries of the helper container
under their bare tool names, `generateChecksumCommand` for `/app`, the include path `src/**`,
the exclude path `src/vendor/**` and the result path `/r` is exactly the one-line pipeline of
the spec. In general every include path contributes the pair of `-wholename` tests on
`path.Join(from, formatted)` and `path.Join(from, formatted, "**")`, every exclude path the
same pair of negated tests, in list order. -/
theorem generateChecksumCommand_example :
    generateChecksumCommand bareStapel "/app" ["src/**"] ["src/vendor/**"] "/r" =
        "find /app -type f \\( -wholename \"/app/src\" -or -wholename \"/app/src/**\" \\) -and \\( ! -wholename \"/app/src/vendor\" -and ! -wholename \"/app/src/vendor/**\" \\) | sort -n | xargs md5sum | md5sum | cut -d ' ' -f 1 > /r" ∧
      (∀ (src : String) (includePaths : List String),
        nameIncludeArgs src includePaths = includePaths.flatMap (fun p =>
          ["-wholename \"" ++ path.Join [src, formatIncludeAndExcludePath p] ++ "\"",
            "-wholename \"" ++ path.Join [src, formatIncludeAndExcludePath p, "**"] ++ "\""])) ∧
      (∀ (src : String) (excludePaths : List String),
        nameExcludeArgs src excludePaths = excludePaths.flatMap (fun p =>
          ["! -wholename \"" ++ path.Join [src, formatIncludeAndExcludePath p] ++ "\"",
            "! -wholename \"" ++ path.Join [src, formatIncludeAndExcludePath p, "**"] ++
              "\""])) := by
  refine ⟨by decide, ?_, ?_⟩
  · intro src includePaths
    unfold nameIncludeArgs
    rw [foldl_append_flatMap]
    rfl
  · intro src excludePaths
    unfold nameExcludeArgs
    rw [foldl_append_flatMap]
    rfl

/-! ## Theorems: the groups of the find command and the normalisation of its paths -/

theorem nameIncludeArgs_flatMap (src : String) (includePaths : List String) :
    nameIncludeArgs src includePaths = includePaths.flatMap (fun p =>
      ["-wholename \"" ++ path.Join [src, formatIncludeAndExcludePath p] ++ "\"",
        "-wholename \"" ++ path.Join [src, formatIncludeAndExcludePath p, "**"] ++ "\""]) := by
  unfold nameIncludeArgs
  rw [foldl_append_flatMap]
  rfl

theorem nameExcludeArgs_flatMap (src : String) (excludePaths : List String) :
    nameExcludeArgs src excludePaths = excludePaths.flatMap (fun p =>
      ["! -wholename \"" ++ path.Join [src, formatIncludeAndExcludePath p] ++ "\"",
        "! -wholename \"" ++ path.Join [src, formatIncludeAndExcludePath p, "**"] ++ "\""]) := by
  unfold nameExcludeArgs
  rw [foldl_append_flatMap]
  rfl

theorem nameIncludeArgs_length (src : String) (includePaths : List String) :
    (nameIncludeArgs src includePaths).length ≠ 0 ↔ includePaths ≠ [] := by
  rw [nameIncludeArgs_flatMap]
  cases includePaths with
  | nil => simp
  | cons p rest => simp [List.flatMap_cons]

theorem nameExcludeArgs_length (src : String) (excludePaths : List String) :
    (nameExcludeArgs src excludePaths).length ≠ 0 ↔ excludePaths ≠ [] := by
  rw [nameExcludeArgs_flatMap]
  cases excludePaths with
  | nil => simp
  | cons p rest => simp [List.flatMap_cons]

/-- C11. Optional groups of the find command: the command is the find part, a pipe to
`<sort> -n`, to `<xargs> <md5sum>`, to `<md5sum>`, to `<cut> -d ' ' -f 1`, redirected to the
result path. The find part is `<find> <from> -type f`, followed by the parenthesised include
group exactly when `includePaths` is not empty, by `-and` exactly when both lists are not
empty, and by the parenthesised exclude group exactly when `excludePaths` is not empty. With
both lists empty the command is
`<find> <from> -type f | <sort> -n | <xargs> <md5sum> | <md5sum> | <cut> -d ' ' -f 1 > <result>`.
-/
theorem generateChecksumCommand_groups (stapel : Stapel) (src : String)
    (includePaths excludePaths : List String) (resultChecksumPath : String) :
    generateChecksumCommand stapel src includePaths excludePaths resultChecksumPath =
      stapel.FindBinPath ++ " " ++ src ++ " -type f" ++
        (if includePaths = [] then ""
          else " \\( " ++ strings.Join (nameIncludeArgs src includePaths) " -or " ++ " \\)") ++
        (if includePaths ≠ [] ∧ excludePaths ≠ [] then " -and" else "") ++
        (if excludePaths = [] then ""
          else " \\( " ++ strings.Join (nameExcludeArgs src excludePaths) " -and " ++ " \\)") ++
        " | " ++ stapel.SortBinPath ++ " -n" ++
        " | " ++ stapel.XargsBinPath ++ " " ++ stapel.Md5sumBinPath ++
        " | " ++ stapel.Md5sumBinPath ++
        " | " ++ stapel.CutBinPath ++ " -d ' ' -f 1" ++
        " > " ++ resultChecksumPath ∧
    generateChecksumCommand stapel src [] [] resultChecksumPath =
      stapel.FindBinPath ++ " " ++ src ++ " -type f | " ++ stapel.SortBinPath ++ " -n | " ++
        stapel.XargsBinPath ++ " " ++ stapel.Md5sumBinPath ++ " | " ++ stapel.Md5sumBinPath ++
        " | " ++ stapel.CutBinPath ++ " -d ' ' -f 1 > " ++ resultChecksumPath := by
  have hi := nameIncludeArgs_length src includePaths
  have he := nameExcludeArgs_length src excludePaths
  refine ⟨?_, ?_⟩
  case refine_2 =>
    apply String.ext
    simp [generateChecksumCommand, nameIncludeArgs, nameExcludeArgs, strings.Join,
      strings.joinAux]
  unfold generateChecksumCommand
  by_cases h1 : includePaths = [] <;> by_cases h2 : excludePaths = []
  · subst h1 h2
    apply String.ext
    simp [nameIncludeArgs, nameExcludeArgs, strings.Join, strings.joinAux]
  · have he2 := he.2 h2
    subst h1
    apply String.ext
    simp [nameIncludeArgs, he2, h2, strings.Join, strings.joinAux]
  · have hi2 := hi.2 h1
    subst h2
    apply String.ext
    simp [nameExcludeArgs, hi2, h1, strings.Join, strings.joinAux]
  · have hi2 := hi.2 h1
    have he2 := he.2 h2
    apply String.ext
    simp [hi2, he2, h1, h2, strings.Join, strings.joinAux]

theorem formatIncludeAndExcludePath_data (p : String) :
    (formatIncludeAndExcludePath p).data =
      p.data.rdropWhile (fun c => ['*', '/'].contains c) := rfl

theorem rdropWhile_append_of_all (q : Char → Bool) (l t : List Char) (h : ∀ c ∈ t, q c = true) :
    (l ++ t).rdropWhile q = l.rdropWhile q := by
  induction t using List.reverseRecOn with
  | nil => simp
  | append_singleton t c ih =>
    rw [← List.append_assoc, List.rdropWhile_concat_pos _ _ _ (h c (by simp))]
    exact ih (fun x hx => h x (by simp [hx]))

theorem rdropWhile_split (q : Char → Bool) (l : List Char) :
    ∃ t, l = l.rdropWhile q ++ t ∧ ∀ c ∈ t, q c = true := by
  induction l using List.reverseRecOn with
  | nil => exact ⟨[], by simp, by simp⟩
  | append_singleton l c ih =>
    by_cases hc : q c = true
    · obtain ⟨t, ht, hall⟩ := ih
      refine ⟨t ++ [c], ?_, ?_⟩
      · rw [List.rdropWhile_concat_pos _ _ _ hc, ← List.append_assoc, ← ht]
      · intro x hx
        rcases List.mem_append.1 hx with h | h
        · exact hall x h
        · rw [List.mem_singleton] at h
          rw [h]
          exact hc
    · refine ⟨[], ?_, by simp⟩
      rw [List.rdropWhile_concat_neg _ _ _ hc]
      simp

theorem rdropWhile_getLast (q : Char → Bool) (l : List Char) (c : Char)
    (h : (l.rdropWhile q).getLast? = some c) : q c = false := by
  have hne : l.rdropWhile q ≠ [] := by
    intro hnil
    rw [hnil] at h
    simp at h
  have hlast := List.rdropWhile_last_not q l hne
  rw [List.getLast?_eq_getLast _ hne] at h
  simp only [Option.some.injEq] at h
  rw [h] at hlast
  simpa using hlast

theorem isTrimChar_iff (c : Char) : ['*', '/'].contains c = true ↔ c = '*' ∨ c = '/' := by
  rw [List.elem_iff]
  simp

theorem formatIncludeAndExcludePath_append (p t : String)
    (h : ∀ c ∈ t.data, c = '*' ∨ c = '/') :
    formatIncludeAndExcludePath (p ++ t) = formatIncludeAndExcludePath p := by
  apply String.ext
  rw [formatIncludeAndExcludePath_data, formatIncludeAndExcludePath_data, String.data_append]
  exact rdropWhile_append_of_all _ _ _ (fun c hc => (isTrimChar_iff c).2 (h c hc))

theorem generateChecksumCommand_congr (stapel : Stapel) (src : String)
    (inc1 inc2 exc1 exc2 : List String) (resultChecksumPath : String)
    (hinc : inc1.map formatIncludeAndExcludePath = inc2.map formatIncludeAndExcludePath)
    (hexc : exc1.map formatIncludeAndExcludePath = exc2.map formatIncludeAndExcludePath) :
    generateChecksumCommand stapel src inc1 exc1 resultChecksumPath =
      generateChecksumCommand stapel src inc2 exc2 resultChecksumPath := by
  have h1 : nameIncludeArgs src inc1 = nameIncludeArgs src inc2 := by
    rw [nameIncludeArgs_flatMap, nameIncludeArgs_flatMap]
    have hf : ∀ l : List String, l.flatMap (fun p =>
        ["-wholename \"" ++ path.Join [src, formatIncludeAndExcludePath p] ++ "\"",
          "-wholename \"" ++ path.Join [src, formatIncludeAndExcludePath p, "**"] ++ "\""]) =
        (l.map formatIncludeAndExcludePath).flatMap (fun f =>
          ["-wholename \"" ++ path.Join [src, f] ++ "\"",
            "-wholename \"" ++ path.Join [src, f, "**"] ++ "\""]) := by
      intro l
      induction l with
      | nil => rfl
      | cons a l ih => simp [List.flatMap_cons, ih]
    rw [hf inc1, hf inc2, hinc]
  have h2 : nameExcludeArgs src exc1 = nameExcludeArgs src exc2 := by
    rw [nameExcludeArgs_flatMap, nameExcludeArgs_flatMap]
    have hf : ∀ l : List String, l.flatMap (fun p =>
        ["! -wholename \"" ++ path.Join [src, formatIncludeAndExcludePath p] ++ "\"",
          "! -wholename \"" ++ path.Join [src, formatIncludeAndExcludePath p, "**"] ++ "\""]) =
        (l.map formatIncludeAndExcludePath).flatMap (fun f =>
          ["! -wholename \"" ++ path.Join [src, f] ++ "\"",
            "! -wholename \"" ++ path.Join [src, f, "**"] ++ "\""]) := by
      intro l
      induction l with
      | nil => rfl
      | cons a l ih => simp [List.flatMap_cons, ih]
    rw [hf exc1, hf exc2, hexc]
  unfold generateChecksumCommand
  rw [h1, h2]

/-- C12. Include and exclude normalisation: `formatIncludeAndExcludePath p` is `p` without its
trailing `*` and `/` characters, that is the longest prefix of `p` that does not end in `*`
or `/`; it is idempotent; it gives the same result when `p` is extended by a string made only
of `*` and `/`; and `generateChecksumCommand` returns the same command for include and
exclude lists that are equal after normalisation, so `src`, `src/`, `src/*` and `src/**` are
interchangeable. -/
theorem formatIncludeAndExcludePath_normalises :
    (∀ p : String, ∃ t : String, p = formatIncludeAndExcludePath p ++ t ∧
      (∀ c ∈ t.data, c = '*' ∨ c = '/') ∧
      ∀ c, (formatIncludeAndExcludePath p).data.getLast? = some c → c ≠ '*' ∧ c ≠ '/') ∧
    (∀ p q : String, q.data <+: p.data →
      (∀ c, q.data.getLast? = some c → c ≠ '*' ∧ c ≠ '/') →
      q.data.length ≤ (formatIncludeAndExcludePath p).data.length) ∧
    (∀ p : String,
      formatIncludeAndExcludePath (formatIncludeAndExcludePath p) =
        formatIncludeAndExcludePath p) ∧
    (∀ p t : String, (∀ c ∈ t.data, c = '*' ∨ c = '/') →
      formatIncludeAndExcludePath (p ++ t) = formatIncludeAndExcludePath p) ∧
    (∀ (stapel : Stapel) (src : String) (inc1 inc2 exc1 exc2 : List String) (res : String),
      inc1.map formatIncludeAndExcludePath = inc2.map formatIncludeAndExcludePath →
      exc1.map formatIncludeAndExcludePath = exc2.map formatIncludeAndExcludePath →
      generateChecksumCommand stapel src inc1 exc1 res =
        generateChecksumCommand stapel src inc2 exc2 res) ∧
    (formatIncludeAndExcludePath "src" = "src" ∧ formatIncludeAndExcludePath "src/" = "src" ∧
      formatIncludeAndExcludePath "src/*" = "src" ∧
      formatIncludeAndExcludePath "src/**" = "src") := by
  have hsplit : ∀ p : String, ∃ t : String, p = formatIncludeAndExcludePath p ++ t ∧
      (∀ c ∈ t.data, c = '*' ∨ c = '/') ∧
      ∀ c, (formatIncludeAndExcludePath p).data.getLast? = some c → c ≠ '*' ∧ c ≠ '/' := by
    intro p
    obtain ⟨t, ht, hall⟩ := rdropWhile_split (fun c => ['*', '/'].contains c) p.data
    refine ⟨String.mk t, ?_, ?_, ?_⟩
    · apply String.ext
      rw [String.data_append, formatIncludeAndExcludePath_data]
      exact ht
    · intro c hc
      exact (isTrimChar_iff c).1 (hall c hc)
    · intro c hc
      rw [formatIncludeAndExcludePath_data] at hc
      have hq := rdropWhile_getLast _ _ c hc
      constructor
      · intro h
        rw [h] at hq
        exact absurd hq (by decide)
      · intro h
        rw [h] at hq
        exact absurd hq (by decide)
  refine ⟨hsplit, ?_, ?_, formatIncludeAndExcludePath_append, ?_, by decide⟩
  · intro p q hq hlast
    obtain ⟨t, ht, hall, _⟩ := hsplit p
    by_contra hlen
    rw [not_le] at hlen
    have hp : p.data = (formatIncludeAndExcludePath p).data ++ t.data := by
      conv_lhs => rw [ht]
      exact String.data_append _ _
    have hf : (formatIncludeAndExcludePath p).data <+: q.data :=
      List.prefix_of_prefix_length_le (hp ▸ List.prefix_append _ _) hq (Nat.le_of_lt hlen)
    obtain ⟨u, hu⟩ := hf
    have hune : u ≠ [] := by
      intro hnil
      rw [hnil, List.append_nil] at hu
      rw [← hu] at hlen
      exact absurd hlen (Nat.lt_irrefl _)
    have hut : u <+: t.data := by
      rw [← hu, hp] at hq
      exact (List.prefix_append_right_inj _).1 hq
    have hlastq : q.data.getLast? = some (u.getLast hune) := by
      rw [← hu, List.getLast?_append_of_ne_nil _ hune, List.getLast?_eq_getLast _ hune]
    have hmem : u.getLast hune ∈ t.data := hut.subset (List.getLast_mem hune)
    have := hlast _ hlastq
    rcases hall _ hmem with h | h
    · exact this.1 h
    · exact this.2 h
  · intro p
    apply String.ext
    rw [formatIncludeAndExcludePath_data, formatIncludeAndExcludePath_data]
    exact List.rdropWhile_idempotent _ _
  · intro stapel src inc1 inc2 exc1 exc2 res h1 h2
    exact generateChecksumCommand_congr stapel src inc1 inc2 exc1 exc2 res h1 h2

theorem formatIncludeAndExcludePath_normalises_witness :
    generateChecksumCommand bareStapel "/app" ["src/**", "lib/"] ["src/vendor/*"] "/r" =
      generateChecksumCommand bareStapel "/app" ["src", "lib"] ["src/vendor"] "/r" :=
  formatIncludeAndExcludePath_normalises.2.2.2.2.1 bareStapel "/app" ["src/**", "lib/"]
    ["src", "lib"] ["src/vendor/*"] ["src/vendor"] "/r" (by decide) (by decide)

/-! ## Theorems: `GitLatestPatchStage.IsEmpty` -/

theorem isEmptyLoop_ok (prev : Option StageDescription) (ms : List GitMapping) (b : Bool)
    (h : GitLatestPatchStage.isEmptyLoop prev ms = .ok b) :
    b = true ↔ ∀ m ∈ ms, m.IsPatchEmpty prev = .ok true := by
  induction ms with
  | nil =>
    simp only [GitLatestPatchStage.isEmptyLoop, Except.ok.injEq] at h
    simp [← h]
  | cons m rest ih =>
    unfold GitLatestPatchStage.isEmptyLoop at h
    cases hb : m.GetBaseCommitForPrevBuiltImage prev with
    | error e => simp [hb] at h
    | ok commit =>
      simp only [hb] at h
      cases he : m.GitRepo.IsCommitExists commit with
      | error e => simp [he] at h
      | ok exist =>
        cases exist with
        | false => simp [he] at h
        | true =>
          simp only [he] at h
          cases hp : m.IsPatchEmpty prev with
          | error e => simp [hp] at h
          | ok empty =>
            cases empty with
            | false =>
              simp only [hp, Except.ok.injEq] at h
              subst h
              simp [hp]
            | true =>
              simp only [hp] at h
              simp [hp, ih h]

theorem isEmptyLoop_missing_commit (prev : Option StageDescription)
    (front : List GitMapping) (m : GitMapping) (back : List GitMapping) (commit : String)
    (hfront : ∀ p ∈ front, p.IsPatchEmpty prev ≠ .ok false)
    (hbase : m.GetBaseCommitForPrevBuiltImage prev = .ok commit)
    (hexists : m.GitRepo.IsCommitExists commit = .ok false) :
    ∃ err, GitLatestPatchStage.isEmptyLoop prev (front ++ m :: back) = .error err := by
  induction front with
  | nil =>
    simp only [List.nil_append, GitLatestPatchStage.isEmptyLoop, hbase, hexists]
    exact ⟨_, rfl⟩
  | cons p rest ih =>
    have hp := hfront p (by simp)
    have ih2 := ih (fun q hq => hfront q (by simp [hq]))
    simp only [List.cons_append]
    unfold GitLatestPatchStage.isEmptyLoop
    cases p.GetBaseCommitForPrevBuiltImage prev with
    | error e => exact ⟨_, rfl⟩
    | ok c =>
      dsimp only
      cases p.GitRepo.IsCommitExists c with
      | error e => exact ⟨_, rfl⟩
      | ok exist =>
        cases exist with
        | false => exact ⟨_, rfl⟩
        | true =>
          dsimp only
          cases hpe : p.IsPatchEmpty prev with
          | error e => exact ⟨_, rfl⟩
          | ok empty =>
            cases empty with
            | false => exact absurd hpe hp
            | true => exact ih2

theorem GitPatchStage.IsEmpty_ok (ms : List GitMapping) (prev : Option StageDescription)
    (b : Bool) (h : GitPatchStage.IsEmpty ms prev = .ok b) :
    b = true ↔ ∀ m ∈ ms, m.IsPatchEmpty prev = .ok true := by
  induction ms generalizing b with
  | nil =>
    simp only [GitPatchStage.IsEmpty, Except.ok.injEq] at h
    simp [← h]
  | cons m rest ih =>
    unfold GitPatchStage.IsEmpty at h
    cases hp : m.IsPatchEmpty prev with
    | error e => simp [hp] at h
    | ok empty =>
      simp only [hp] at h
      cases hr : GitPatchStage.IsEmpty rest prev with
      | error e => simp [hr] at h
      | ok restEmpty =>
        simp only [hr, Except.ok.injEq] at h
        have ih2 := ih restEmpty hr
        subst h
        cases empty with
        | false =>
          simp only [Bool.false_and, Bool.false_eq_true, false_iff]
          intro hall
          have hm := hall m (by simp)
          rw [hp] at hm
          exact absurd hm (by simp)
        | true =>
          simp only [Bool.true_and, ih2, List.mem_cons, forall_eq_or_imp, hp, true_and]

theorem IsEmpty_of_base (baseIsEmpty : Except String Bool) (gitMappings : List GitMapping)
    (prevBuiltImage : Option StageDescription)
    (hbase : baseIsEmpty = .ok true →
      ∀ m ∈ gitMappings, m.IsPatchEmpty prevBuiltImage = .ok true)
    (b : Bool) (h : GitLatestPatchStage.IsEmpty baseIsEmpty gitMappings prevBuiltImage = .ok b) :
    b = true ↔ ∀ m ∈ gitMappings, m.IsPatchEmpty prevBuiltImage = .ok true := by
  unfold GitLatestPatchStage.IsEmpty at h
  cases baseIsEmpty with
  | error e => simp at h
  | ok r =>
    cases r with
    | true =>
      simp only [Except.ok.injEq] at h
      subst h
      simp only [true_iff]
      exact hbase rfl
    | false => exact isEmptyLoop_ok prevBuiltImage gitMappings b h

/-- C13. Empty patch iff empty stage: for every GitLatestPatch stage and previous built image,
when `GitLatestPatchStage.IsEmpty` returns without error, its result is true if and only if
every git mapping of the stage reports an empty patch against the previous built image. The
method `IsEmpty` of the embedded stage is the one the spec describes; the same holds for every
result of that method which is true only when every git mapping reports an empty patch. -/
theorem GitLatestPatchStage.IsEmpty_iff_patches_empty (gitMappings : List GitMapping)
    (prevBuiltImage : Option StageDescription) :
    (∀ b, GitLatestPatchStage.IsEmpty (GitPatchStage.IsEmpty gitMappings prevBuiltImage)
        gitMappings prevBuiltImage = .ok b →
      (b = true ↔ ∀ m ∈ gitMappings, m.IsPatchEmpty prevBuiltImage = .ok true)) ∧
    (∀ baseIsEmpty : Except String Bool,
      (baseIsEmpty = .ok true →
        ∀ m ∈ gitMappings, m.IsPatchEmpty prevBuiltImage = .ok true) →
      ∀ b, GitLatestPatchStage.IsEmpty baseIsEmpty gitMappings prevBuiltImage = .ok b →
        (b = true ↔ ∀ m ∈ gitMappings, m.IsPatchEmpty prevBuiltImage = .ok true)) := by
  refine ⟨?_, ?_⟩
  · intro b h
    exact IsEmpty_of_base _ gitMappings prevBuiltImage
      (fun hb => (GitPatchStage.IsEmpty_ok gitMappings prevBuiltImage true hb).1 rfl) b h
  · intro baseIsEmpty hbase b h
    exact IsEmpty_of_base baseIsEmpty gitMappings prevBuiltImage hbase b h

theorem GitLatestPatchStage.IsEmpty_iff_patches_empty_witness :
    GitLatestPatchStage.IsEmpty (GitPatchStage.IsEmpty [exampleMapping] prevImageAtHead)
        [exampleMapping] prevImageAtHead = .ok true ∧
      GitLatestPatchStage.IsEmpty (GitPatchStage.IsEmpty [exampleMapping] prevImageAtC1)
        [exampleMapping] prevImageAtC1 = .ok false ∧
      (true = true ↔ ∀ m ∈ [exampleMapping], m.IsPatchEmpty prevImageAtHead = .ok true) ∧
      (false = true ↔ ∀ m ∈ [exampleMapping], m.IsPatchEmpty prevImageAtC1 = .ok true) :=
  ⟨rfl, rfl,
    (GitLatestPatchStage.IsEmpty_iff_patches_empty [exampleMapping] prevImageAtHead).1 true rfl,
    (GitLatestPatchStage.IsEmpty_iff_patches_empty [exampleMapping] prevImageAtC1).1 false rfl⟩

/-- C14, counterexample. The loop stops at the first git mapping whose patch is not empty:
the base commit `C9` of the second git mapping does not exist in its repository, yet
`GitLatestPatchStage.IsEmpty` returns false and no error, because the first git mapping
reports a patch that is not empty. -/
theorem GitLatestPatchStage.IsEmpty_skips_missing_commit :
    exampleMappingMissingCommit.GetBaseCommitForPrevBuiltImage prevImageAtC1 = .ok "C9" ∧
      exampleMappingMissingCommit.GitRepo.IsCommitExists "C9" = .ok false ∧
      GitLatestPatchStage.IsEmpty (.ok false) [exampleMapping, exampleMappingMissingCommit]
        prevImageAtC1 = .ok false := by
  exact ⟨rfl, rfl, rfl⟩

/-- C14, amended. A missing base commit is a hard error when the loop reaches it: for every
GitLatestPatch stage whose embedded `GitPatchStage.IsEmpty` returns false, if the base commit
of the previous built image does not exist in the repository of a git mapping and no git
mapping before it in the list reports a patch that is not empty, then
`GitLatestPatchStage.IsEmpty` returns an error rather than true or false. -/
theorem GitLatestPatchStage.IsEmpty_missing_commit_error
    (front : List GitMapping) (m : GitMapping) (back : List GitMapping)
    (prevBuiltImage : Option StageDescription) (commit : String)
    (hfront : ∀ p ∈ front, p.IsPatchEmpty prevBuiltImage ≠ .ok false)
    (hbase : m.GetBaseCommitForPrevBuiltImage prevBuiltImage = .ok commit)
    (hexists : m.GitRepo.IsCommitExists commit = .ok false) :
    ∃ err, GitLatestPatchStage.IsEmpty (.ok false) (front ++ m :: back) prevBuiltImage =
      .error err :=
  isEmptyLoop_missing_commit prevBuiltImage front m back commit hfront hbase hexists

theorem GitLatestPatchStage.IsEmpty_missing_commit_error_witness :
    ∃ err, GitLatestPatchStage.IsEmpty (.ok false)
      ([exampleMapping] ++ exampleMappingMissingCommit :: []) prevImageAtHead = .error err :=
  GitLatestPatchStage.IsEmpty_missing_commit_error [exampleMapping] exampleMappingMissingCommit
    [] prevImageAtHead "C9"
    (fun p hp => by
      rw [List.mem_singleton] at hp
      subst hp
      decide)
    rfl rfl

/-! ## Theorems: the git dependencies of the next stage -/

namespace BaseStage

theorem nextStageGitArgs_step_ok (image : Option StageImage) (m : GitMapping)
    (rest : List GitMapping) (args : List String) (c : String)
    (h : nextStageCommit image m = .ok c) :
    nextStageGitArgs image (m :: rest) args = nextStageGitArgs image rest (args ++ [c]) := by
  match image, h with
  | none, h =>
    simp only [nextStageCommit] at h
    cases hq : m.GetLatestCommitInfo with
    | error e => simp [hq, Except.map] at h
    | ok info =>
      simp only [hq, Except.map, Except.ok.injEq] at h
      simp [nextStageGitArgs, hq, h]
  | some ⟨n, none⟩, h =>
    simp only [nextStageCommit] at h
    cases hq : m.GetLatestCommitInfo with
    | error e => simp [hq, Except.map] at h
    | ok info =>
      simp only [hq, Except.map, Except.ok.injEq] at h
      simp [nextStageGitArgs, hq, h]
  | some ⟨n, some d⟩, h =>
    simp only [nextStageCommit] at h
    cases hq : m.GetBuiltImageCommitInfo d.Info.Labels with
    | error e => simp [hq, Except.map] at h
    | ok info =>
      simp only [hq, Except.map, Except.ok.injEq] at h
      simp [nextStageGitArgs, hq, h]

theorem nextStageGitArgs_step_error (image : Option StageImage) (m : GitMapping)
    (rest : List GitMapping) (args : List String) (e : String)
    (h : nextStageCommit image m = .error e) :
    ∃ err, nextStageGitArgs image (m :: rest) args = .error err := by
  match image, h with
  | none, h =>
    simp only [nextStageCommit] at h
    cases hq : m.GetLatestCommitInfo with
    | error e2 => simp [nextStageGitArgs, hq]
    | ok info => simp [hq, Except.map] at h
  | some ⟨n, none⟩, h =>
    simp only [nextStageCommit] at h
    cases hq : m.GetLatestCommitInfo with
    | error e2 => simp [nextStageGitArgs, hq]
    | ok info => simp [hq, Except.map] at h
  | some ⟨n, some d⟩, h =>
    simp only [nextStageCommit] at h
    cases hq : m.GetBuiltImageCommitInfo d.Info.Labels with
    | error e2 => simp [nextStageGitArgs, hq]
    | ok info => simp [hq, Except.map] at h

theorem nextStageGitArgs_ok (image : Option StageImage) (ms : List GitMapping)
    (commits args : List String)
    (h : List.Forall₂ (fun m c => nextStageCommit image m = .ok c) ms commits) :
    nextStageGitArgs image ms args = .ok (args ++ commits) := by
  induction h generalizing args with
  | nil => simp [nextStageGitArgs]
  | @cons m c ms commits hc _ ih =>
    rw [nextStageGitArgs_step_ok image m ms args c hc, ih]
    simp

theorem nextStageGitArgs_error (image : Option StageImage) (ms : List GitMapping)
    (args : List String)
    (h : ∃ m ∈ ms, ∃ e, nextStageCommit image m = .error e) :
    ∃ err, nextStageGitArgs image ms args = .error err := by
  induction ms generalizing args with
  | nil =>
    obtain ⟨m, hm, _⟩ := h
    exact absurd hm (by simp)
  | cons a rest ih =>
    cases ha : nextStageCommit image a with
    | error e => exact nextStageGitArgs_step_error image a rest args e ha
    | ok c =>
      rw [nextStageGitArgs_step_ok image a rest args c ha]
      apply ih
      obtain ⟨m, hm, e, he⟩ := h
      rcases List.mem_cons.1 hm with hma | hmr
      · subst hma
        rw [ha] at he
        exact absurd he (by simp)
      · exact ⟨m, hmr, e, he⟩

theorem nextStageCommits_exist (image : Option StageImage) (ms : List GitMapping)
    (h : ¬ ∃ m ∈ ms, ∃ e, nextStageCommit image m = .error e) :
    List.Forall₂ (fun m c => nextStageCommit image m = .ok c) ms
      (ms.map (fun m => (nextStageCommit image m).toOption.getD "")) := by
  induction ms with
  | nil => exact List.Forall₂.nil
  | cons a rest ih =>
    have hrest : ¬ ∃ m ∈ rest, ∃ e, nextStageCommit image m = .error e := by
      rintro ⟨m, hm, e, he⟩
      exact h ⟨m, by simp [hm], e, he⟩
    rw [List.map_cons]
    refine List.Forall₂.cons ?_ (ih hrest)
    cases ha : nextStageCommit image a with
    | error e => exact absurd ⟨a, by simp, e, ha⟩ h
    | ok c => rfl

end BaseStage

theorem getNextStageGitDependencies_ok (Sha256Hash : List String → String)
    (ms : List GitMapping) (image : Option StageImage) (commits : List String)
    (h : List.Forall₂ (fun m c => nextStageCommit image m = .ok c) ms commits) :
    BaseStage.getNextStageGitDependencies Sha256Hash ms image =
      .ok (Sha256Hash (sort.Strings commits)) := by
  unfold BaseStage.getNextStageGitDependencies
  rw [BaseStage.nextStageGitArgs_ok image ms commits [] h]
  rfl

theorem getNextStageGitDependencies_error (Sha256Hash : List String → String)
    (ms : List GitMapping) (image : Option StageImage)
    (h : ∃ m ∈ ms, ∃ e, nextStageCommit image m = .error e) :
    ∃ err, BaseStage.getNextStageGitDependencies Sha256Hash ms image = .error err := by
  obtain ⟨err, herr⟩ := BaseStage.nextStageGitArgs_error image ms [] h
  exact ⟨err, by simp [BaseStage.getNextStageGitDependencies, herr]⟩

/-- C20. The git dependencies of the next stage do not depend on the order of the git
mappings: for every stage image and every permutation of the git mappings,
`getNextStageGitDependencies` (and `GitLatestPatchStage.GetNextStageDependencies`, which calls
it) succeeds for both orders or fails for both, and returns the same hash when it succeeds.
When the commit of every mapping is available, the result is `Sha256Hash` of the sorted list
of the commits, each read from the labels of the built image of the stage when the image is
resolved and from the latest commit of the mapping otherwise; the call fails exactly when the
commit of some mapping is not available. -/
theorem BaseStage.getNextStageGitDependencies_order_independent
    (Sha256Hash : List String → String) (ms1 ms2 : List GitMapping)
    (image : Option StageImage) (hperm : ms1.Perm ms2) :
    (BaseStage.getNextStageGitDependencies Sha256Hash ms1 image).toOption =
        (BaseStage.getNextStageGitDependencies Sha256Hash ms2 image).toOption ∧
      GitLatestPatchStage.GetNextStageDependencies Sha256Hash ms1 image =
        BaseStage.getNextStageGitDependencies Sha256Hash ms1 image ∧
      (∀ commits, List.Forall₂ (fun m c => nextStageCommit image m = .ok c) ms1 commits →
        BaseStage.getNextStageGitDependencies Sha256Hash ms1 image =
          .ok (Sha256Hash (sort.Strings commits))) ∧
      ((∃ err, BaseStage.getNextStageGitDependencies Sha256Hash ms1 image = .error err) ↔
        ∃ m ∈ ms1, ∃ e, nextStageCommit image m = .error e) := by
  refine ⟨?_, rfl, getNextStageGitDependencies_ok Sha256Hash ms1 image, ?_⟩
  · by_cases h1 : ∃ m ∈ ms1, ∃ e, nextStageCommit image m = .error e
    · have h2 : ∃ m ∈ ms2, ∃ e, nextStageCommit image m = .error e := by
        obtain ⟨m, hm, e, he⟩ := h1
        exact ⟨m, hperm.mem_iff.1 hm, e, he⟩
      obtain ⟨e1, he1⟩ := getNextStageGitDependencies_error Sha256Hash ms1 image h1
      obtain ⟨e2, he2⟩ := getNextStageGitDependencies_error Sha256Hash ms2 image h2
      rw [he1, he2]
      rfl
    · have h2 : ¬ ∃ m ∈ ms2, ∃ e, nextStageCommit image m = .error e := by
        rintro ⟨m, hm, e, he⟩
        exact h1 ⟨m, hperm.mem_iff.2 hm, e, he⟩
      rw [getNextStageGitDependencies_ok Sha256Hash ms1 image _
          (BaseStage.nextStageCommits_exist image ms1 h1),
        getNextStageGitDependencies_ok Sha256Hash ms2 image _
          (BaseStage.nextStageCommits_exist image ms2 h2),
        sort.Strings_perm _ _ (hperm.map _)]
  · constructor
    · rintro ⟨err, herr⟩
      by_contra h1
      rw [getNextStageGitDependencies_ok Sha256Hash ms1 image _
        (BaseStage.nextStageCommits_exist image ms1 h1)] at herr
      exact absurd herr (by simp)
    · exact getNextStageGitDependencies_error Sha256Hash ms1 image

theorem BaseStage.getNextStageGitDependencies_order_independent_witness :
    BaseStage.getNextStageGitDependencies exampleHash [exampleMapping, exampleMappingAtC1]
        none = .ok "C1:::H" ∧
      BaseStage.getNextStageGitDependencies exampleHash [exampleMappingAtC1, exampleMapping]
        none = .ok "C1:::H" ∧
      (BaseStage.getNextStageGitDependencies exampleHash [exampleMapping, exampleMappingAtC1]
          none).toOption =
        (BaseStage.getNextStageGitDependencies exampleHash [exampleMappingAtC1, exampleMapping]
          none).toOption :=
  ⟨by decide, by decide,
    (BaseStage.getNextStageGitDependencies_order_independent exampleHash
      [exampleMapping, exampleMappingAtC1] [exampleMappingAtC1, exampleMapping] none
      (List.Perm.swap _ _ _)).1⟩

/-! ## Theorems: the imports stages -/

/-- C16. The memoisation key depends only on the source content and the path filters: for
all imports and conveyors, when the source image content digest resolved for the two imports is
the same (`GetImageContentDigest` of the source image when `Stage` is empty,
`GetImageStageContentDigest` otherwise) and `Add`, `IncludePaths` and `ExcludePaths` are
equal, `getImportSourceID` is the same, whatever `To`, `Group`, `Owner`, `Before` and `After`
are. -/
theorem getImportSourceID_of_same_source {σ τ : Type} (Sha256Hash : List String → String)
    (c1 : Conveyor σ) (c2 : Conveyor τ) (e1 e2 : Import)
    (hdigest : getSourceImageContentDigest c1 e1 = getSourceImageContentDigest c2 e2)
    (hadd : e1.Add = e2.Add) (hinc : e1.IncludePaths = e2.IncludePaths)
    (hexc : e1.ExcludePaths = e2.ExcludePaths) :
    getImportSourceID Sha256Hash c1 e1 = getImportSourceID Sha256Hash c2 e2 ∧
      (e1.Stage = "" →
        getSourceImageContentDigest c1 e1 = c1.GetImageContentDigest (getSourceImageName e1)) ∧
      (e1.Stage ≠ "" →
        getSourceImageContentDigest c1 e1 =
          c1.GetImageStageContentDigest (getSourceImageName e1) e1.Stage) := by
  refine ⟨?_, ?_, ?_⟩
  · unfold getImportSourceID importSourceIDArgs
    rw [hdigest, hadd, hinc, hexc]
  · intro h
    simp [getSourceImageContentDigest, h]
  · intro h
    simp [getSourceImageContentDigest, h]

theorem getImportSourceID_of_same_source_witness :
    exampleImport.To ≠ exampleImportToOpt.To ∧
      (getImportSourceID exampleHash exampleConveyor exampleImport =
          getImportSourceID exampleHash exampleConveyor exampleImportToOpt ∧
        (exampleImport.Stage = "" →
          getSourceImageContentDigest exampleConveyor exampleImport =
            exampleConveyor.GetImageContentDigest (getSourceImageName exampleImport)) ∧
        (exampleImport.Stage ≠ "" →
          getSourceImageContentDigest exampleConveyor exampleImport =
            exampleConveyor.GetImageStageContentDigest (getSourceImageName exampleImport)
              exampleImport.Stage)) :=
  ⟨by decide, getImportSourceID_of_same_source exampleHash exampleConveyor exampleConveyor
    exampleImport exampleImportToOpt rfl rfl rfl rfl⟩

theorem getDependenciesLoop_eq {σ : Type} (env : ImportsEnv) (s : ImportsStage)
    (c : Conveyor σ) (imports : List Import) (ind : Nat) (args : List String)
    (w : ImportsState σ) :
    ImportsStage.getDependenciesLoop env s c imports ind args w =
      match importChecksums env s c imports ind w with
      | (.ok checksums, w2) =>
        (.ok (env.Sha256Hash (args ++ dependencyArgs checksums imports)), w2)
      | (.error failure, w2) =>
        (.error ("unable to get import " ++ toString failure.1 ++ " source checksum: " ++
          failure.2), w2) := by
  induction imports generalizing ind args w with
  | nil => simp [ImportsStage.getDependenciesLoop, importChecksums, dependencyArgs]
  | cons elm rest ih =>
    unfold ImportsStage.getDependenciesLoop importChecksums
    generalize ImportsStage.getImportSourceChecksum env s c w elm = r
    obtain ⟨res, w1⟩ := r
    cases res with
    | error err => rfl
    | ok checksum =>
      dsimp only
      rw [ih]
      generalize importChecksums env s c rest (ind + 1) w1 = r2
      obtain ⟨res2, w2⟩ := r2
      cases res2 with
      | error failure => rfl
      | ok checksums => simp [dependencyArgs]

theorem importChecksums_error_index {σ : Type} (env : ImportsEnv) (s : ImportsStage)
    (c : Conveyor σ) (imports : List Import) (ind : Nat) (w w2 : ImportsState σ)
    (failure : Nat × String)
    (h : importChecksums env s c imports ind w = (.error failure, w2)) :
    ind ≤ failure.1 ∧ failure.1 < ind + imports.length := by
  induction imports generalizing ind w with
  | nil => simp [importChecksums] at h
  | cons elm rest ih =>
    unfold importChecksums at h
    generalize ImportsStage.getImportSourceChecksum env s c w elm = r at h
    obtain ⟨res, w1⟩ := r
    cases res with
    | error err =>
      simp only [Prod.mk.injEq, Except.error.injEq] at h
      rw [← h.1]
      simp
    | ok checksum =>
      dsimp only at h
      generalize hr2 : importChecksums env s c rest (ind + 1) w1 = r2 at h
      obtain ⟨res2, w3⟩ := r2
      cases res2 with
      | error failure2 =>
        simp only [Prod.mk.injEq, Except.error.injEq] at h
        have := ih (ind + 1) w1 (by rw [hr2, h.1, h.2])
        simp only [List.length_cons]
        omega
      | ok checksums => simp at h

/-- C17. The dependencies of an imports stage: `ImportsStage.GetDependencies` obtains the
source checksums of the imports one after the other. When all are obtained, it returns
`Sha256Hash` of the arguments `c_1, To_1, Group_1, Owner_1, ..., c_n, To_n, Group_n, Owner_n`
in import order, the hash of no arguments when there is no import. Otherwise it returns, at
the first import whose checksum cannot be obtained, an error that names the index of
that import. -/
theorem ImportsStage.GetDependencies_hash_of_checksums {σ : Type} (env : ImportsEnv)
    (s : ImportsStage) (c : Conveyor σ) (w : ImportsState σ) :
    ImportsStage.GetDependencies env s c w =
        (match importChecksums env s c s.imports 0 w with
        | (.ok checksums, w2) =>
          (.ok (env.Sha256Hash (dependencyArgs checksums s.imports)), w2)
        | (.error failure, w2) =>
          (.error ("unable to get import " ++ toString failure.1 ++ " source checksum: " ++
            failure.2), w2)) ∧
      (s.imports = [] → ImportsStage.GetDependencies env s c w = (.ok (env.Sha256Hash []), w)) ∧
      (∀ failure w2, importChecksums env s c s.imports 0 w = (.error failure, w2) →
        failure.1 < s.imports.length) := by
  refine ⟨?_, ?_, ?_⟩
  · unfold ImportsStage.GetDependencies
    rw [getDependenciesLoop_eq]
    simp
  · intro h
    unfold ImportsStage.GetDependencies
    rw [h]
    rfl
  · intro failure w2 h
    have := importChecksums_error_index env s c s.imports 0 w w2 failure h
    omega

theorem ImportsStage.GetDependencies_hash_of_checksums_witness :
    (ImportsStage.GetDependencies exampleImportsEnv exampleImportsStageBoth exampleConveyor
        emptyImportsState).1 =
      .ok (exampleHash ["0cc175b9", "/app", "app", "app", "0cc175b9", "/opt", "root", "root"]) ∧
    (ImportsStage.GetDependencies
        { exampleImportsEnv with GetOrCreateContainer := .error "no docker" }
        exampleImportsStageBoth exampleConveyor emptyImportsState).1 =
      .error ("unable to get import 0 source checksum: " ++
        "unable to generate import source checksum: no docker") ∧
    ImportsStage.GetDependencies exampleImportsEnv exampleImportsStageBoth exampleConveyor
        emptyImportsState =
      (match importChecksums exampleImportsEnv exampleImportsStageBoth exampleConveyor
          exampleImportsStageBoth.imports 0 emptyImportsState with
      | (.ok checksums, w2) =>
        (.ok (exampleImportsEnv.Sha256Hash
          (dependencyArgs checksums exampleImportsStageBoth.imports)), w2)
      | (.error failure, w2) =>
        (.error ("unable to get import " ++ toString failure.1 ++ " source checksum: " ++
          failure.2), w2)) :=
  ⟨by decide, by decide,
    (ImportsStage.GetDependencies_hash_of_checksums exampleImportsEnv exampleImportsStageBoth
      exampleConveyor emptyImportsState).1⟩

namespace ImportsStage

theorem generateImportChecksum_storage {σ : Type} (env : ImportsEnv) (s : ImportsStage)
    (c : Conveyor σ) (w : ImportsState σ) (elm : Import) :
    (generateImportChecksum env s c w elm).2.storage = w.storage := by
  unfold generateImportChecksum
  dsimp only
  split
  · rfl
  · split
    · rfl
    · split
      · rfl
      · split <;> rfl

theorem generateImportChecksum_runs {σ : Type} (env : ImportsEnv) (s : ImportsStage)
    (c : Conveyor σ) (w : ImportsState σ) (elm : Import) (checksum : String)
    (h : (generateImportChecksum env s c w elm).1 = .ok checksum) :
    (generateImportChecksum env s c w elm).2.dockerRuns.length = w.dockerRuns.length + 1 := by
  unfold generateImportChecksum at h ⊢
  dsimp only at h ⊢
  split
  · next heq => simp [heq] at h
  · next name heq =>
    simp only [heq] at h
    split
    · next err heq2 => simp [heq2] at h
    · next heq2 =>
      simp only [heq2] at h
      split
      · next err heq3 => simp [heq3] at h
      · next out heq3 =>
        simp only [heq3] at h
        split
        · next err heq4 => simp [heq4] at h
        · simp

/-- A call of `getImportSourceChecksum` that finds the metadata returns its checksum and
changes nothing. -/
theorem getImportSourceChecksum_hit {σ : Type} (env : ImportsEnv) (s : ImportsStage)
    (c : Conveyor σ) (w : ImportsState σ) (elm : Import) (md : ImportMetadata)
    (h : c.GetImportMetadata w.storage s.projectName
      (getImportSourceID env.Sha256Hash c elm) = .ok (some md)) :
    getImportSourceChecksum env s c w elm = (.ok md.Checksum, w) := by
  unfold getImportSourceChecksum
  simp only [h]

/-- A successful call of `getImportSourceChecksum` that finds no metadata runs the checksum
container once and puts the metadata of the import source. -/
theorem getImportSourceChecksum_miss {σ : Type} (env : ImportsEnv) (s : ImportsStage)
    (c : Conveyor σ) (w : ImportsState σ) (elm : Import) (checksum : String)
    (hmiss : c.GetImportMetadata w.storage s.projectName
      (getImportSourceID env.Sha256Hash c elm) = .ok none)
    (h : (getImportSourceChecksum env s c w elm).1 = .ok checksum) :
    (c.PutImportMetadata w.storage s.projectName
        ⟨getImportSourceID env.Sha256Hash c elm, getSourceImageID c elm, checksum⟩).2 = none ∧
      (getImportSourceChecksum env s c w elm).2.storage =
        (c.PutImportMetadata w.storage s.projectName
          ⟨getImportSourceID env.Sha256Hash c elm, getSourceImageID c elm, checksum⟩).1 ∧
      (getImportSourceChecksum env s c w elm).2.dockerRuns.length =
        w.dockerRuns.length + 1 := by
  have hst := generateImportChecksum_storage env s c w elm
  have hruns := generateImportChecksum_runs env s c w elm
  unfold getImportSourceChecksum at h ⊢
  simp only [hmiss] at h ⊢
  generalize generateImportChecksum env s c w elm = r at h hst hruns ⊢
  obtain ⟨res, w1⟩ := r
  cases res with
  | error err => simp at h
  | ok cs =>
    dsimp only at h hst hruns ⊢
    have hruns2 := hruns cs rfl
    rw [hst] at h ⊢
    generalize hput : c.PutImportMetadata w.storage s.projectName
      ⟨getImportSourceID env.Sha256Hash c elm, getSourceImageID c elm, cs⟩ = r2 at h ⊢
    obtain ⟨st, err⟩ := r2
    cases err with
    | some e => simp at h
    | none =>
      simp only [Except.ok.injEq] at h
      subst h
      rw [hput]
      exact ⟨rfl, rfl, hruns2⟩

end ImportsStage

/-- C15. Import checksum memoisation: over a storage with read-your-writes for the import
metadata, let two imports of the same project, possibly of two consumer stages, have the
same import source ID, and let a first `getImportSourceChecksum` call find no metadata and
succeed.
Then the first call runs the checksum container exactly once and persists the metadata with
the import source ID, the source image ID and the checksum; the second call returns the
persisted checksum, the same as the first, and changes nothing: it neither runs the container
nor writes. -/
theorem ImportsStage.getImportSourceChecksum_memoised {σ : Type} (env : ImportsEnv)
    (c : Conveyor σ) (s1 s2 : ImportsStage) (e1 e2 : Import) (w : ImportsState σ)
    (checksum : String) (hryw : ReadYourWrites c)
    (hproject : s1.projectName = s2.projectName)
    (hid : getImportSourceID env.Sha256Hash c e1 = getImportSourceID env.Sha256Hash c e2)
    (hmiss : c.GetImportMetadata w.storage s1.projectName
      (getImportSourceID env.Sha256Hash c e1) = .ok none)
    (hfirst : (ImportsStage.getImportSourceChecksum env s1 c w e1).1 = .ok checksum) :
    (ImportsStage.getImportSourceChecksum env s1 c w e1).2.dockerRuns.length =
        w.dockerRuns.length + 1 ∧
      c.GetImportMetadata (ImportsStage.getImportSourceChecksum env s1 c w e1).2.storage
          s1.projectName (getImportSourceID env.Sha256Hash c e1) =
        .ok (some ⟨getImportSourceID env.Sha256Hash c e1, getSourceImageID c e1, checksum⟩) ∧
      ImportsStage.getImportSourceChecksum env s2 c
          (ImportsStage.getImportSourceChecksum env s1 c w e1).2 e2 =
        (.ok checksum, (ImportsStage.getImportSourceChecksum env s1 c w e1).2) := by
  obtain ⟨hput, hstorage, hruns⟩ :=
    ImportsStage.getImportSourceChecksum_miss env s1 c w e1 checksum hmiss hfirst
  have hread := hryw w.storage s1.projectName
    ⟨getImportSourceID env.Sha256Hash c e1, getSourceImageID c e1, checksum⟩ hput
  rw [← hstorage] at hread
  refine ⟨hruns, hread, ?_⟩
  have hread2 := hread
  rw [hproject] at hread2
  dsimp only at hread2
  rw [hid] at hread2
  exact ImportsStage.getImportSourceChecksum_hit env s2 c _ e2 _ hread2

theorem ImportsStage.getImportSourceChecksum_memoised_witness :
    (ImportsStage.getImportSourceChecksum exampleImportsEnv exampleImportsStage exampleConveyor
        emptyImportsState exampleImport).2.dockerRuns.length = 0 + 1 ∧
      exampleConveyor.GetImportMetadata
          (ImportsStage.getImportSourceChecksum exampleImportsEnv exampleImportsStage
            exampleConveyor emptyImportsState exampleImport).2.storage
          exampleImportsStage.projectName
          (getImportSourceID exampleImportsEnv.Sha256Hash exampleConveyor exampleImport) =
        .ok (some ⟨getImportSourceID exampleImportsEnv.Sha256Hash exampleConveyor exampleImport,
          getSourceImageID exampleConveyor exampleImport, "0cc175b9"⟩) ∧
      ImportsStage.getImportSourceChecksum exampleImportsEnv exampleImportsStageOther
          exampleConveyor
          (ImportsStage.getImportSourceChecksum exampleImportsEnv exampleImportsStage
            exampleConveyor emptyImportsState exampleImport).2 exampleImportToOpt =
        (.ok "0cc175b9",
          (ImportsStage.getImportSourceChecksum exampleImportsEnv exampleImportsStage
            exampleConveyor emptyImportsState exampleImport).2) :=
  ImportsStage.getImportSourceChecksum_memoised exampleImportsEnv exampleConveyor
    exampleImportsStage exampleImportsStageOther exampleImport exampleImportToOpt
    emptyImportsState "0cc175b9"
    (fun storage projectName md _ => by simp [exampleConveyor, List.lookup])
    rfl rfl rfl (by decide)

namespace ImportsStage

theorem getImportSourceChecksum_preserves {σ : Type} (env : ImportsEnv) (s : ImportsStage)
    (c : Conveyor σ) (w : ImportsState σ) (elm : Import) (hnr : NoEntryRemoved c)
    (p id : String) (h : MetadataPresent c w.storage p id) :
    MetadataPresent c (getImportSourceChecksum env s c w elm).2.storage p id := by
  have hst := generateImportChecksum_storage env s c w elm
  unfold getImportSourceChecksum
  dsimp only
  split
  · exact h
  · exact h
  · generalize generateImportChecksum env s c w elm = r at hst
    obtain ⟨res, w1⟩ := r
    dsimp only at hst
    cases res with
    | error err =>
      dsimp only
      rw [hst]
      exact h
    | ok cs =>
      dsimp only
      have hput := hnr w1.storage s.projectName
        ⟨getImportSourceID env.Sha256Hash c elm, getSourceImageID c elm, cs⟩ p id
        (by rw [hst]; exact h)
      generalize c.PutImportMetadata w1.storage s.projectName
        ⟨getImportSourceID env.Sha256Hash c elm, getSourceImageID c elm, cs⟩ = r2 at hput
      obtain ⟨st, err⟩ := r2
      cases err <;> exact hput

theorem getImportSourceChecksum_present {σ : Type} (env : ImportsEnv) (s : ImportsStage)
    (c : Conveyor σ) (w : ImportsState σ) (elm : Import) (checksum : String)
    (hryw : ReadYourWrites c)
    (h : (getImportSourceChecksum env s c w elm).1 = .ok checksum) :
    MetadataPresent c (getImportSourceChecksum env s c w elm).2.storage s.projectName
      (getImportSourceID env.Sha256Hash c elm) := by
  cases hget : c.GetImportMetadata w.storage s.projectName
      (getImportSourceID env.Sha256Hash c elm) with
  | error err =>
    unfold getImportSourceChecksum at h
    simp [hget] at h
  | ok found =>
    cases found with
    | some md =>
      rw [getImportSourceChecksum_hit env s c w elm md hget]
      exact ⟨md, hget⟩
    | none =>
      obtain ⟨hput, hstorage, _⟩ := getImportSourceChecksum_miss env s c w elm checksum hget h
      rw [hstorage]
      exact ⟨_, hryw w.storage s.projectName
        ⟨getImportSourceID env.Sha256Hash c elm, getSourceImageID c elm, checksum⟩ hput⟩

theorem getDependenciesLoop_preserves {σ : Type} (env : ImportsEnv) (s : ImportsStage)
    (c : Conveyor σ) (hnr : NoEntryRemoved c) (imports : List Import) (ind : Nat)
    (args : List String) (w : ImportsState σ) (p id : String)
    (h : MetadataPresent c w.storage p id) :
    MetadataPresent c (getDependenciesLoop env s c imports ind args w).2.storage p id := by
  induction imports generalizing ind args w with
  | nil => exact h
  | cons elm rest ih =>
    have hstep := getImportSourceChecksum_preserves env s c w elm hnr p id h
    unfold getDependenciesLoop
    generalize getImportSourceChecksum env s c w elm = r at hstep
    obtain ⟨res, w1⟩ := r
    cases res with
    | error err => exact hstep
    | ok cs => exact ih _ _ w1 hstep

theorem getDependenciesLoop_present {σ : Type} (env : ImportsEnv) (s : ImportsStage)
    (c : Conveyor σ) (hryw : ReadYourWrites c) (hnr : NoEntryRemoved c)
    (imports : List Import) (ind : Nat) (args : List String) (w : ImportsState σ)
    (deps : String) (h : (getDependenciesLoop env s c imports ind args w).1 = .ok deps) :
    ∀ elm ∈ imports,
      MetadataPresent c (getDependenciesLoop env s c imports ind args w).2.storage
        s.projectName (getImportSourceID env.Sha256Hash c elm) := by
  induction imports generalizing ind args w with
  | nil =>
    intro elm helm
    exact absurd helm (by simp)
  | cons first rest ih =>
    have hself := getImportSourceChecksum_present env s c w first
    unfold getDependenciesLoop at h ⊢
    generalize getImportSourceChecksum env s c w first = r at h hself
    obtain ⟨res, w1⟩ := r
    cases res with
    | error err => simp at h
    | ok cs =>
      dsimp only at h ⊢
      intro elm helm
      rcases List.mem_cons.1 helm with hfirst | hrest
      · subst hfirst
        exact getDependenciesLoop_preserves env s c hnr rest _ _ w1 _ _ (hself cs hryw rfl)
      · exact ih _ _ w1 h elm hrest

theorem prepareImageLoop_no_panic {σ : Type} (imagePkg : ImageConstants) (env : ImportsEnv)
    (s : ImportsStage) (c : Conveyor σ) (storage : σ) (imports : List Import)
    (image : LegacyImage)
    (h : ∀ elm ∈ imports, MetadataPresent c storage s.projectName
      (getImportSourceID env.Sha256Hash c elm)) (msg : String) :
    (prepareImageLoop imagePkg env s c storage imports image).2 ≠ some (.panic msg) := by
  induction imports generalizing image with
  | nil => simp [prepareImageLoop]
  | cons elm rest ih =>
    obtain ⟨md, hmd⟩ := h elm (by simp)
    unfold prepareImageLoop
    dsimp only
    split
    · simp
    · simp only [hmd]
      exact ih _ (fun e he => h e (by simp [he]))

end ImportsStage

/-- C18. Write-before-read makes the panic unreachable: over a storage with read-your-writes
for the import metadata in which `PutImportMetadata` removes no entry, if
`ImportsStage.GetDependencies` has succeeded for a stage, then on every storage state that
keeps the entries of the resulting state, with the same conveyor, the metadata of every import
of the stage is found and `ImportsStage.PrepareImage` for the same stage does not end with
the panic `import metadata ... not found`, nor with any other panic. -/
theorem ImportsStage.PrepareImage_no_panic_after_GetDependencies {σ : Type}
    (imagePkg : ImageConstants) (env : ImportsEnv) (s : ImportsStage) (c : Conveyor σ)
    (w : ImportsState σ) (deps : String) (storage : σ) (image : LegacyImage)
    (hryw : ReadYourWrites c) (hnr : NoEntryRemoved c)
    (hdeps : (ImportsStage.GetDependencies env s c w).1 = .ok deps)
    (hkeep : ∀ p id, MetadataPresent c (ImportsStage.GetDependencies env s c w).2.storage p id →
      MetadataPresent c storage p id) :
    (∀ elm ∈ s.imports, MetadataPresent c storage s.projectName
        (getImportSourceID env.Sha256Hash c elm)) ∧
      ∀ msg, (ImportsStage.PrepareImage imagePkg env s c storage image).2 ≠
        some (.panic msg) := by
  have hpresent : ∀ elm ∈ s.imports, MetadataPresent c storage s.projectName
      (getImportSourceID env.Sha256Hash c elm) := by
    intro elm helm
    apply hkeep
    exact ImportsStage.getDependenciesLoop_present env s c hryw hnr s.imports 0 [] w deps
      hdeps elm helm
  exact ⟨hpresent, fun msg =>
    ImportsStage.prepareImageLoop_no_panic imagePkg env s c storage s.imports image hpresent
      msg⟩

theorem exampleConveyor_readYourWrites : ReadYourWrites exampleConveyor := by
  intro storage projectName md _
  simp [exampleConveyor, List.lookup]

theorem exampleConveyor_noEntryRemoved : NoEntryRemoved exampleConveyor := by
  intro storage projectName md p id h
  obtain ⟨found, hfound⟩ := h
  simp only [exampleConveyor, Except.ok.injEq] at hfound
  simp only [MetadataPresent, exampleConveyor, Except.ok.injEq, List.lookup]
  split
  · exact ⟨md, rfl⟩
  · exact ⟨found, hfound⟩

theorem ImportsStage.PrepareImage_no_panic_after_GetDependencies_witness :
    (ImportsStage.GetDependencies exampleImportsEnv exampleImportsStageBoth exampleConveyor
        emptyImportsState).1 =
      .ok "0cc175b9:::/app:::app:::app:::0cc175b9:::/opt:::root:::root" ∧
    ((∀ elm ∈ exampleImportsStageBoth.imports,
        MetadataPresent exampleConveyor
          (ImportsStage.GetDependencies exampleImportsEnv exampleImportsStageBoth
            exampleConveyor emptyImportsState).2.storage exampleImportsStageBoth.projectName
          (getImportSourceID exampleImportsEnv.Sha256Hash exampleConveyor elm)) ∧
      ∀ msg, (ImportsStage.PrepareImage exampleConstants exampleImportsEnv
        exampleImportsStageBoth exampleConveyor
        (ImportsStage.GetDependencies exampleImportsEnv exampleImportsStageBoth
          exampleConveyor emptyImportsState).2.storage emptyImage).2 ≠ some (.panic msg)) :=
  ⟨by decide,
    ImportsStage.PrepareImage_no_panic_after_GetDependencies exampleConstants
      exampleImportsEnv exampleImportsStageBoth exampleConveyor emptyImportsState
      "0cc175b9:::/app:::app:::app:::0cc175b9:::/opt:::root:::root" _ emptyImage
      exampleConveyor_readYourWrites exampleConveyor_noEntryRemoved (by decide)
      (fun _ _ h => h)⟩

theorem String.append_left_cancel (a b c : String) (h : a ++ b = a ++ c) : b = c := by
  apply String.ext
  have hd := congrArg String.data h
  rw [String.data_append, String.data_append] at hd
  exact List.append_cancel_left hd

namespace ImportsStage

/-- A label whose key is the key of no import of the loop is not changed. -/
theorem prepareImageLoop_untouched {σ : Type} (imagePkg : ImageConstants) (env : ImportsEnv)
    (s : ImportsStage) (c : Conveyor σ) (storage : σ) (imports : List Import)
    (image : LegacyImage) (k : String)
    (h : ∀ elm ∈ imports,
      imagePkg.WerfImportChecksumLabelPrefix ++ getImportID env.Sha256Hash elm ≠ k) :
    (prepareImageLoop imagePkg env s c storage imports image).1.Labels.lookup k =
      image.Labels.lookup k := by
  induction imports generalizing image with
  | nil => rfl
  | cons elm rest ih =>
    have hk := h elm (by simp)
    unfold prepareImageLoop
    dsimp only
    split
    · rfl
    · split
      · rfl
      · rfl
      · rw [ih _ (fun e he => h e (by simp [he]))]
        exact AList.lookup_insert_ne (fun heq => hk heq.symm)

theorem prepareImageLoop_labels {σ : Type} (imagePkg : ImageConstants) (env : ImportsEnv)
    (s : ImportsStage) (c : Conveyor σ) (storage : σ) (imports : List Import)
    (image : LegacyImage)
    (hkey : ∀ e1 ∈ imports, ∀ e2 ∈ imports,
      getImportID env.Sha256Hash e1 = getImportID env.Sha256Hash e2 →
      getImportSourceID env.Sha256Hash c e1 = getImportSourceID env.Sha256Hash c e2)
    (h : (prepareImageLoop imagePkg env s c storage imports image).2 = none) :
    ∀ elm ∈ imports, ∃ md,
      c.GetImportMetadata storage s.projectName (getImportSourceID env.Sha256Hash c elm) =
        .ok (some md) ∧
      (prepareImageLoop imagePkg env s c storage imports image).1.Labels.lookup
        (imagePkg.WerfImportChecksumLabelPrefix ++ getImportID env.Sha256Hash elm) =
        some md.Checksum := by
  induction imports generalizing image with
  | nil =>
    intro elm helm
    exact absurd helm (by simp)
  | cons first rest ih =>
    have hkeyrest : ∀ e1 ∈ rest, ∀ e2 ∈ rest,
        getImportID env.Sha256Hash e1 = getImportID env.Sha256Hash e2 →
        getImportSourceID env.Sha256Hash c e1 = getImportSourceID env.Sha256Hash c e2 :=
      fun e1 h1 e2 h2 => hkey e1 (by simp [h1]) e2 (by simp [h2])
    unfold prepareImageLoop at h ⊢
    dsimp only at h ⊢
    cases hsrv : c.GetImportServer (getSourceImageName first) first.Stage with
    | error err => simp [hsrv] at h
    | ok srv =>
      simp only [hsrv] at h ⊢
      cases hget : c.GetImportMetadata storage s.projectName
          (getImportSourceID env.Sha256Hash c first) with
      | error err => simp [hget] at h
      | ok found =>
        cases found with
        | none => simp [hget] at h
        | some md =>
          simp only [hget] at h ⊢
          have ih2 := ih _ hkeyrest h
          intro elm helm
          rcases List.mem_cons.1 helm with hfirst | hrest
          · subst hfirst
            refine ⟨md, hget, ?_⟩
            by_cases hlater : ∃ e ∈ rest,
                getImportID env.Sha256Hash e = getImportID env.Sha256Hash elm
            · obtain ⟨e, he, heq⟩ := hlater
              obtain ⟨md2, hget2, hlabel2⟩ := ih2 e he
              have hid := hkey e (by simp [he]) elm (by simp) heq
              rw [hid, hget] at hget2
              simp only [Except.ok.injEq, Option.some.injEq] at hget2
              rw [heq, ← hget2] at hlabel2
              exact hlabel2
            · rw [prepareImageLoop_untouched imagePkg env s c storage rest _ _
                (fun e he heq => hlater ⟨e, he, String.append_left_cancel _ _ _ heq⟩)]
              exact AList.lookup_insert _
          · exact ih2 elm hrest

theorem prepareImageLoop_commands {σ : Type} (imagePkg : ImageConstants) (env : ImportsEnv)
    (s : ImportsStage) (c : Conveyor σ) (storage : σ) (imports : List Import)
    (image : LegacyImage)
    (h : (prepareImageLoop imagePkg env s c storage imports image).2 = none) :
    ∃ commands,
      (prepareImageLoop imagePkg env s c storage imports image).1.ServiceRunCommands =
        image.ServiceRunCommands ++ commands ∧
      List.Forall₂ (fun elm command => ∃ srv,
        c.GetImportServer (getSourceImageName elm) elm.Stage = .ok srv ∧
        command = srv.GetCopyCommand elm) imports commands := by
  induction imports generalizing image with
  | nil => exact ⟨[], by simp [prepareImageLoop], List.Forall₂.nil⟩
  | cons first rest ih =>
    unfold prepareImageLoop at h ⊢
    dsimp only at h ⊢
    cases hsrv : c.GetImportServer (getSourceImageName first) first.Stage with
    | error err => simp [hsrv] at h
    | ok srv =>
      simp only [hsrv] at h ⊢
      cases hget : c.GetImportMetadata storage s.projectName
          (getImportSourceID env.Sha256Hash c first) with
      | error err => simp [hget] at h
      | ok found =>
        cases found with
        | none => simp [hget] at h
        | some md =>
          simp only [hget] at h ⊢
          obtain ⟨commands, hcmds, hall⟩ := ih _ h
          refine ⟨srv.GetCopyCommand first :: commands, ?_,
            List.Forall₂.cons ⟨srv, hsrv, rfl⟩ hall⟩
          rw [hcmds]
          simp [LegacyImage.AddLabel, LegacyImage.AddServiceRunCommands]

end ImportsStage

/-- A hash function without collisions gives equal import source IDs to imports with
equal import IDs. -/
theorem getImportSourceID_of_getImportID {σ : Type} (Sha256Hash : List String → String)
    (hinj : ∀ a b, Sha256Hash a = Sha256Hash b → a = b) (c : Conveyor σ) (e1 e2 : Import)
    (h : getImportID Sha256Hash e1 = getImportID Sha256Hash e2) :
    getImportSourceID Sha256Hash c e1 = getImportSourceID Sha256Hash c e2 := by
  have hargs := hinj _ _ h
  simp only [importIDArgs, List.cons.injEq, true_and, and_true] at hargs
  obtain ⟨h1, h2, h3, _, _, h6, _, _, _, h10, h11⟩ := hargs
  unfold getImportSourceID importSourceIDArgs getSourceImageContentDigest getSourceImageName
  rw [h1, h2, h3, h6, h10, h11]

/-- C19. The import checksum labels: let imports of the stage with the same import ID have
the same import source ID (which holds when the hash function has no collision among them).
When `ImportsStage.PrepareImage` succeeds, for every import of the stage the commit labels of
the new image map the key `WerfImportChecksumLabelPrefix` followed by `getImportID` of
the import to the checksum of the metadata stored under `getImportSourceID` of the import, and
the service run commands are the former ones followed by exactly one copy command per import,
given by the import server of the import, in import order. -/
theorem ImportsStage.PrepareImage_labels_and_commands {σ : Type} (imagePkg : ImageConstants)
    (env : ImportsEnv) (s : ImportsStage) (c : Conveyor σ) (storage : σ) (image : LegacyImage)
    (hkey : ∀ e1 ∈ s.imports, ∀ e2 ∈ s.imports,
      getImportID env.Sha256Hash e1 = getImportID env.Sha256Hash e2 →
      getImportSourceID env.Sha256Hash c e1 = getImportSourceID env.Sha256Hash c e2)
    (h : (ImportsStage.PrepareImage imagePkg env s c storage image).2 = none) :
    (∀ elm ∈ s.imports, ∃ md,
      c.GetImportMetadata storage s.projectName (getImportSourceID env.Sha256Hash c elm) =
        .ok (some md) ∧
      (ImportsStage.PrepareImage imagePkg env s c storage image).1.Labels.lookup
        (imagePkg.WerfImportChecksumLabelPrefix ++ getImportID env.Sha256Hash elm) =
        some md.Checksum) ∧
    ∃ commands,
      (ImportsStage.PrepareImage imagePkg env s c storage image).1.ServiceRunCommands =
        image.ServiceRunCommands ++ commands ∧
      List.Forall₂ (fun elm command => ∃ srv,
        c.GetImportServer (getSourceImageName elm) elm.Stage = .ok srv ∧
        command = srv.GetCopyCommand elm) s.imports commands :=
  ⟨ImportsStage.prepareImageLoop_labels imagePkg env s c storage s.imports image hkey h,
    ImportsStage.prepareImageLoop_commands imagePkg env s c storage s.imports image h⟩

set_option maxRecDepth 100000 in
theorem ImportsStage.PrepareImage_labels_and_commands_witness :
    (ImportsStage.PrepareImage exampleConstants exampleImportsEnv exampleImportsStageBoth
        exampleConveyor
        (ImportsStage.GetDependencies exampleImportsEnv exampleImportsStageBoth
          exampleConveyor emptyImportsState).2.storage emptyImage).1.ServiceRunCommands =
      ["copy /src /app", "copy /src /opt"] ∧
    ((∀ elm ∈ exampleImportsStageBoth.imports, ∃ md,
      exampleConveyor.GetImportMetadata
          (ImportsStage.GetDependencies exampleImportsEnv exampleImportsStageBoth
            exampleConveyor emptyImportsState).2.storage exampleImportsStageBoth.projectName
          (getImportSourceID exampleImportsEnv.Sha256Hash exampleConveyor elm) =
        .ok (some md) ∧
      (ImportsStage.PrepareImage exampleConstants exampleImportsEnv exampleImportsStageBoth
        exampleConveyor
        (ImportsStage.GetDependencies exampleImportsEnv exampleImportsStageBoth
          exampleConveyor emptyImportsState).2.storage emptyImage).1.Labels.lookup
        (exampleConstants.WerfImportChecksumLabelPrefix ++
          getImportID exampleImportsEnv.Sha256Hash elm) = some md.Checksum) ∧
    ∃ commands,
      (ImportsStage.PrepareImage exampleConstants exampleImportsEnv exampleImportsStageBoth
        exampleConveyor
        (ImportsStage.GetDependencies exampleImportsEnv exampleImportsStageBoth
          exampleConveyor emptyImportsState).2.storage emptyImage).1.ServiceRunCommands =
        emptyImage.ServiceRunCommands ++ commands ∧
      List.Forall₂ (fun elm command => ∃ srv,
        exampleConveyor.GetImportServer (getSourceImageName elm) elm.Stage = .ok srv ∧
        command = srv.GetCopyCommand elm) exampleImportsStageBoth.imports commands) :=
  ⟨by decide,
    ImportsStage.PrepareImage_labels_and_commands exampleConstants exampleImportsEnv
      exampleImportsStageBoth exampleConveyor _ emptyImage (by decide) (by decide)⟩

/-! ## Theorems: the dependencies of the latest patch stage -/

namespace GitLatestPatchStage

theorem patchArgs_ok (prev : StageDescription) (ms : List GitMapping) (patches args : List String)
    (h : List.Forall₂ (fun m p => m.GetPatchContent (some prev) = .ok p) ms patches) :
    patchArgs prev ms args = .ok (args ++ patches) := by
  induction h generalizing args with
  | nil => simp [patchArgs]
  | @cons m p ms patches hp _ ih =>
    unfold patchArgs
    simp only [hp]
    rw [ih]
    simp

theorem patchArgs_error (prev : StageDescription) (front back : List GitMapping) (m : GitMapping)
    (patches args : List String) (e : String)
    (hfront : List.Forall₂ (fun m p => m.GetPatchContent (some prev) = .ok p) front patches)
    (hm : m.GetPatchContent (some prev) = .error e) :
    patchArgs prev (front ++ m :: back) args =
      .error ("error getting patch between previous built image " ++ prev.Info.Name ++
        " and current commit for git mapping " ++ m.Name ++ ": " ++ e) := by
  induction hfront generalizing args with
  | nil =>
    simp only [List.nil_append]
    unfold patchArgs
    simp only [hm]
  | @cons m2 p ms patches hp _ ih =>
    simp only [List.cons_append]
    unfold patchArgs
    simp only [hp]
    exact ih _

theorem patches_of_forall₂ (prev : StageDescription) (ms : List GitMapping)
    (patches : List String)
    (h : List.Forall₂ (fun m p => m.GetPatchContent (some prev) = .ok p) ms patches) :
    ∀ m ∈ ms, ∃ patch, m.GetPatchContent (some prev) = .ok patch := by
  induction h with
  | nil => simp
  | @cons m p ms patches hp _ ih =>
    intro x hx
    rcases List.mem_cons.1 hx with rfl | hx
    · exact ⟨p, hp⟩
    · exact ih x hx

theorem patchArgs_first_failure (prev : StageDescription) (ms : List GitMapping)
    (h : ∃ m ∈ ms, ∃ e, m.GetPatchContent (some prev) = .error e) :
    ∃ front m back patches e, ms = front ++ m :: back ∧
      List.Forall₂ (fun m p => m.GetPatchContent (some prev) = .ok p) front patches ∧
      m.GetPatchContent (some prev) = .error e := by
  induction ms with
  | nil =>
    obtain ⟨m, hm, _⟩ := h
    exact absurd hm (by simp)
  | cons a ms ih =>
    cases ha : a.GetPatchContent (some prev) with
    | error e => exact ⟨[], a, ms, [], e, rfl, List.Forall₂.nil, ha⟩
    | ok p =>
      have hrest : ∃ m ∈ ms, ∃ e, m.GetPatchContent (some prev) = .error e := by
        obtain ⟨m, hm, e, he⟩ := h
        rcases List.mem_cons.1 hm with rfl | hm
        · rw [ha] at he
          exact absurd he (by simp)
        · exact ⟨m, hm, e, he⟩
      obtain ⟨front, m, back, patches, e, hsplit, hfront, hm⟩ := ih hrest
      exact ⟨a :: front, m, back, p :: patches, e, by simp [hsplit],
        List.Forall₂.cons ha hfront, hm⟩

end GitLatestPatchStage

/-- C21. GitLatestPatch dependencies are the hash of the patch texts: when `GetPatchContent`
of the git mappings `m_1..m_n` gives the patches `p_1..p_n`,
`GitLatestPatchStage.GetDependencies` returns `Sha256Hash [p_1, ..., p_n]`, in mapping order;
two calls with the same patch texts return the same value, whatever the git mappings and the
previous built images are; and when `GetPatchContent` fails for some git mapping the call
returns an error, which names the first failing git mapping and the previous built image. -/
theorem GitLatestPatchStage.GetDependencies_hash_of_patches
    (Sha256Hash : List String → String) (gitMappings : List GitMapping)
    (prevBuiltImage : StageDescription) :
    (∀ patches,
      List.Forall₂ (fun m p => m.GetPatchContent (some prevBuiltImage) = .ok p) gitMappings
        patches →
      GitLatestPatchStage.GetDependencies Sha256Hash gitMappings prevBuiltImage =
        .ok (Sha256Hash patches)) ∧
    (∀ gitMappings2 prevBuiltImage2 patches,
      List.Forall₂ (fun m p => m.GetPatchContent (some prevBuiltImage) = .ok p) gitMappings
        patches →
      List.Forall₂ (fun m p => m.GetPatchContent (some prevBuiltImage2) = .ok p) gitMappings2
        patches →
      GitLatestPatchStage.GetDependencies Sha256Hash gitMappings prevBuiltImage =
        GitLatestPatchStage.GetDependencies Sha256Hash gitMappings2 prevBuiltImage2) ∧
    ((∃ m ∈ gitMappings, ∃ e, m.GetPatchContent (some prevBuiltImage) = .error e) →
      ∃ front m back e, gitMappings = front ++ m :: back ∧
        (∀ p ∈ front, ∃ patch, p.GetPatchContent (some prevBuiltImage) = .ok patch) ∧
        m.GetPatchContent (some prevBuiltImage) = .error e ∧
        GitLatestPatchStage.GetDependencies Sha256Hash gitMappings prevBuiltImage =
          .error ("error getting patch between previous built image " ++
            prevBuiltImage.Info.Name ++ " and current commit for git mapping " ++ m.Name ++
            ": " ++ e)) := by
  have hok : ∀ (ms : List GitMapping) (prev : StageDescription) (patches : List String),
      List.Forall₂ (fun m p => m.GetPatchContent (some prev) = .ok p) ms patches →
      GitLatestPatchStage.GetDependencies Sha256Hash ms prev = .ok (Sha256Hash patches) := by
    intro ms prev patches h
    unfold GitLatestPatchStage.GetDependencies
    rw [GitLatestPatchStage.patchArgs_ok prev ms patches [] h]
    simp
  refine ⟨hok gitMappings prevBuiltImage, ?_, ?_⟩
  · intro ms2 prev2 patches h1 h2
    rw [hok _ _ _ h1, hok _ _ _ h2]
  · intro hfail
    obtain ⟨front, m, back, patches, e, hsplit, hfront, hm⟩ :=
      GitLatestPatchStage.patchArgs_first_failure prevBuiltImage gitMappings hfail
    refine ⟨front, m, back, e, hsplit, ?_, hm, ?_⟩
    · intro p hp
      exact GitLatestPatchStage.patches_of_forall₂ prevBuiltImage front patches hfront p hp
    · unfold GitLatestPatchStage.GetDependencies
      rw [hsplit, GitLatestPatchStage.patchArgs_error prevBuiltImage front back m patches [] e
        hfront hm]

theorem GitLatestPatchStage.GetDependencies_hash_of_patches_witness :
    GitLatestPatchStage.GetDependencies exampleHash [exampleMapping, exampleMappingAtC1]
        candidateC1 = .ok "diff --git a/main.go b/main.go:::" ∧
      (∃ m ∈ [exampleMappingNoPatch], ∃ e, m.GetPatchContent (some candidateC1) = .error e) ∧
      ∃ front m back e, [exampleMappingNoPatch] = front ++ m :: back ∧
        (∀ p ∈ front, ∃ patch, p.GetPatchContent (some candidateC1) = .ok patch) ∧
        m.GetPatchContent (some candidateC1) = .error e ∧
        GitLatestPatchStage.GetDependencies exampleHash [exampleMappingNoPatch] candidateC1 =
          .error ("error getting patch between previous built image " ++
            candidateC1.Info.Name ++ " and current commit for git mapping " ++ m.Name ++
            ": " ++ e) :=
  ⟨(GitLatestPatchStage.GetDependencies_hash_of_patches exampleHash
      [exampleMapping, exampleMappingAtC1] candidateC1).1 _
      (List.Forall₂.cons rfl (List.Forall₂.cons rfl List.Forall₂.nil)),
    ⟨exampleMappingNoPatch, by simp, "git failure", rfl⟩,
    (GitLatestPatchStage.GetDependencies_hash_of_patches exampleHash
      [exampleMappingNoPatch] candidateC1).2.2
      ⟨exampleMappingNoPatch, by simp, "git failure", rfl⟩⟩

/-! ## Theorems: the errors of the selection by ancestry -/

namespace BaseStage

theorem latest_of_forall₂ (ms : List GitMapping) (tail : List String)
    (h : List.Forall₂ IsCurrentCommit ms tail) :
    ∀ m ∈ ms, ∃ cur, m.GetLatestCommitInfo = .ok cur := by
  induction h with
  | nil => simp
  | @cons m c ms tail hc _ ih =>
    intro x hx
    rcases List.mem_cons.1 hx with rfl | hx
    · obtain ⟨cur, hcur, _⟩ := hc
      exact ⟨cur, hcur⟩
    · exact ih x hx

theorem currentCommitsByIndex_error_iff (ms : List GitMapping) :
    (∃ err, currentCommitsByIndex ms [] = .error err) ↔
      ∃ m ∈ ms, ∃ e, m.GetLatestCommitInfo = .error e := by
  constructor
  · rintro ⟨err, herr⟩
    by_contra hnone
    have hall : ∀ m ∈ ms, ∃ cur, m.GetLatestCommitInfo = .ok cur := by
      intro m hm
      cases hl : m.GetLatestCommitInfo with
      | error e => exact absurd ⟨m, hm, e, hl⟩ hnone
      | ok cur => exact ⟨cur, rfl⟩
    obtain ⟨cs, hcs⟩ := currentCommitsByIndex_total ms [] hall
    rw [hcs] at herr
    exact absurd herr (by simp)
  · rintro ⟨m, hm, e, he⟩
    cases hc : currentCommitsByIndex ms [] with
    | error err => exact ⟨err, rfl⟩
    | ok cs =>
      obtain ⟨tail, _, hall⟩ := currentCommitsByIndex_ok ms [] cs hc
      obtain ⟨cur, hcur⟩ := latest_of_forall₂ ms tail hall m hm
      rw [hcur] at he
      exact absurd he (by simp)

theorem ancestryCheckFails_cons (m : GitMapping) (ms : List GitMapping) (d : StageDescription) :
    AncestryCheckFails (m :: ms) d ↔
      (∃ cur built e, m.GetLatestCommitInfo = .ok cur ∧
        m.GetBuiltImageCommitInfo d.Info.Labels = .ok built ∧
        m.GitRepo.IsAncestor built.ancestryCommit cur.ancestryCommit = .error e) ∨
      (RecordedIsAncestor m d ∧ AncestryCheckFails ms d) := by
  constructor
  · rintro ⟨front, m2, back, cur, built, e, hsplit, hfront, h1, h2, h3⟩
    cases front with
    | nil =>
      simp only [List.nil_append, List.cons.injEq] at hsplit
      obtain ⟨rfl, _⟩ := hsplit
      exact Or.inl ⟨cur, built, e, h1, h2, h3⟩
    | cons p front =>
      simp only [List.cons_append, List.cons.injEq] at hsplit
      obtain ⟨rfl, rfl⟩ := hsplit
      exact Or.inr ⟨hfront _ (by simp),
        front, m2, back, cur, built, e, rfl, fun p hp => hfront p (by simp [hp]), h1, h2, h3⟩
  · rintro (⟨cur, built, e, h1, h2, h3⟩ | ⟨hpass, front, m2, back, cur, built, e, hsplit, hfront,
      h1, h2, h3⟩)
    · exact ⟨[], m, ms, cur, built, e, rfl, by simp, h1, h2, h3⟩
    · refine ⟨m :: front, m2, back, cur, built, e, by simp [hsplit], ?_, h1, h2, h3⟩
      intro p hp
      rcases List.mem_cons.1 hp with rfl | hp
      · exact hpass
      · exact hfront p hp

theorem ancestryCheckFails_nil (d : StageDescription) : ¬ AncestryCheckFails [] d := by
  rintro ⟨front, m, back, _, _, _, hsplit, _⟩
  exact absurd hsplit (by simp)

theorem scanGitMappings_failed_iff (d : StageDescription) (ms : List GitMapping)
    (front tail : List String) (h : List.Forall₂ IsCurrentCommit ms tail) :
    (∃ e, scanGitMappings d.Info.Labels (front ++ tail) ms front.length = .failed e) ↔
      AncestryCheckFails ms d := by
  induction h generalizing front with
  | nil =>
    simp only [scanGitMappings]
    constructor
    · rintro ⟨e, he⟩
      exact absurd he (by simp)
    · intro hf
      exact absurd hf (ancestryCheckFails_nil d)
  | @cons m c ms tail hc _ ih =>
    obtain ⟨cur, hcur, hceq⟩ := hc
    have hget : (front ++ c :: tail).getD front.length "" = c := by
      rw [List.getD_eq_getElem?_getD, List.getElem?_append_right (Nat.le_refl _)]
      simp
    have ih2 := ih (front ++ [c])
    simp only [List.append_assoc, List.singleton_append, List.length_append,
      List.length_singleton] at ih2
    rw [ancestryCheckFails_cons]
    unfold scanGitMappings
    simp only [hget]
    cases hb : m.GetBuiltImageCommitInfo d.Info.Labels with
    | error e0 =>
      constructor
      · rintro ⟨e, he⟩
        exact absurd he (by simp)
      · rintro (⟨_, built, _, _, h2, _⟩ | ⟨⟨_, built, _, h2, _⟩, _⟩)
        · exact absurd h2 (by simp)
        · rw [hb] at h2
          exact absurd h2 (by simp)
    | ok built =>
      have hanc : (if built.VirtualMerge then built.VirtualMergeFromCommit else built.Commit) =
          built.ancestryCommit := rfl
      simp only [hanc]
      cases ha : m.GitRepo.IsAncestor built.ancestryCommit c with
      | error e1 =>
        constructor
        · intro _
          exact Or.inl ⟨cur, built, e1, hcur, rfl, by rw [← hceq, ha]⟩
        · intro _
          exact ⟨_, rfl⟩
      | ok r =>
        cases r with
        | false =>
          constructor
          · rintro ⟨e, he⟩
            exact absurd he (by simp)
          · rintro (⟨cur2, built2, e, h1, h2, h3⟩ | ⟨⟨cur2, built2, h1, h2, h3⟩, _⟩)
            · rw [hcur] at h1
              simp only [Except.ok.injEq] at h1 h2
              subst h1 h2
              rw [← hceq, ha] at h3
              exact absurd h3 (by simp)
            · rw [hcur] at h1
              rw [hb] at h2
              simp only [Except.ok.injEq] at h1 h2
              subst h1 h2
              rw [← hceq, ha] at h3
              exact absurd h3 (by simp)
        | true =>
          simp only [ih2]
          constructor
          · intro hrest
            exact Or.inr ⟨⟨cur, built, hcur, hb, by rw [← hceq, ha]⟩, hrest⟩
          · rintro (⟨cur2, built2, e, h1, h2, h3⟩ | ⟨_, hrest⟩)
            · rw [hcur] at h1
              simp only [Except.ok.injEq] at h1 h2
              subst h1 h2
              rw [← hceq, ha] at h3
              exact absurd h3 (by simp)
            · exact hrest

theorem scanImages_error_iff (ms : List GitMapping) (cs : List String)
    (stages acc : List StageDescription) :
    (∃ err, scanImages ms cs stages acc = .error err) ↔
      ∃ d ∈ stages, ∃ e, scanGitMappings d.Info.Labels cs ms 0 = .failed e := by
  induction stages generalizing acc with
  | nil => simp [scanImages]
  | cons d rest ih =>
    unfold scanImages
    cases hs : scanGitMappings d.Info.Labels cs ms 0 with
    | failed e => simp [hs]
    | ignored => simp [hs, ih]
    | suitable => simp [hs, ih]

theorem scanImages_skip_ignored (ms : List GitMapping) (cs : List String)
    (pre post acc : List StageDescription) (d : StageDescription)
    (h : scanGitMappings d.Info.Labels cs ms 0 = .ignored) :
    scanImages ms cs (pre ++ d :: post) acc = scanImages ms cs (pre ++ post) acc := by
  induction pre generalizing acc with
  | nil =>
    simp only [List.nil_append]
    conv_lhs => unfold scanImages
    simp only [h]
  | cons a pre ih =>
    simp only [List.cons_append]
    unfold scanImages
    cases scanGitMappings a.Info.Labels cs ms 0 with
    | failed e => rfl
    | ignored => exact ih _
    | suitable => exact ih _

end BaseStage

namespace BaseStage

theorem selectStagesAncestorsByGitMappings_error_iff (ms : List GitMapping)
    (stages : List StageDescription) :
    (∃ err, selectStagesAncestorsByGitMappings ms stages = .error err) ↔
      (∃ m ∈ ms, ∃ e, m.GetLatestCommitInfo = .error e) ∨
        ∃ d ∈ stages, AncestryCheckFails ms d := by
  unfold selectStagesAncestorsByGitMappings
  cases hc : currentCommitsByIndex ms [] with
  | error err =>
    have hlatest := (currentCommitsByIndex_error_iff ms).1 ⟨err, hc⟩
    constructor
    · intro _
      exact Or.inl hlatest
    · intro _
      exact ⟨err, rfl⟩
  | ok cs =>
    obtain ⟨tail, htail, hall⟩ := currentCommitsByIndex_ok ms [] cs hc
    rw [List.nil_append] at htail
    rw [← htail] at hall
    have hno : ¬ ∃ m ∈ ms, ∃ e, m.GetLatestCommitInfo = .error e := by
      intro h
      obtain ⟨err, herr⟩ := (currentCommitsByIndex_error_iff ms).2 h
      rw [hc] at herr
      exact absurd herr (by simp)
    have hiff : ∀ d : StageDescription,
        (∃ e, scanGitMappings d.Info.Labels cs ms 0 = .failed e) ↔ AncestryCheckFails ms d :=
      fun d => by simpa using scanGitMappings_failed_iff d ms [] cs hall
    dsimp only
    rw [scanImages_error_iff]
    constructor
    · rintro ⟨d, hd, he⟩
      exact Or.inr ⟨d, hd, (hiff d).1 he⟩
    · rintro (h | ⟨d, hd, hf⟩)
      · exact absurd h hno
      · exact ⟨d, hd, (hiff d).2 hf⟩

theorem selectStagesAncestorsByGitMappings_skip (ms : List GitMapping)
    (pre post : List StageDescription) (d : StageDescription)
    (hunp : UnparseableLabels ms d) (hnot : ¬ AncestryCheckFails ms d) :
    selectStagesAncestorsByGitMappings ms (pre ++ d :: post) =
      selectStagesAncestorsByGitMappings ms (pre ++ post) := by
  unfold selectStagesAncestorsByGitMappings
  cases hc : currentCommitsByIndex ms [] with
  | error err => rfl
  | ok cs =>
    obtain ⟨tail, htail, hall⟩ := currentCommitsByIndex_ok ms [] cs hc
    rw [List.nil_append] at htail
    rw [← htail] at hall
    dsimp only
    apply scanImages_skip_ignored
    cases hs : scanGitMappings d.Info.Labels cs ms 0 with
    | failed e =>
      have hf := (scanGitMappings_failed_iff d ms [] cs hall).1 ⟨e, by simpa using hs⟩
      exact absurd hf hnot
    | ignored => rfl
    | suitable =>
      have hall2 := (scanGitMappings_suitable_iff d.Info.Labels ms [] cs hall).1
        (by simpa using hs)
      obtain ⟨m, hm, e, he⟩ := hunp
      obtain ⟨_, built, _, h2, _⟩ := hall2 m hm
      rw [he] at h2
      exact absurd h2 (by simp)

theorem not_ancestryCheckFails_of_scan (ms : List GitMapping) (cs : List String)
    (d : StageDescription) (hc : currentCommitsByIndex ms [] = .ok cs)
    (hs : ∀ e, scanGitMappings d.Info.Labels cs ms 0 ≠ .failed e) :
    ¬ AncestryCheckFails ms d := by
  obtain ⟨tail, htail, hall⟩ := currentCommitsByIndex_ok ms [] cs hc
  rw [List.nil_append] at htail
  rw [← htail] at hall
  intro hf
  obtain ⟨e, he⟩ := (scanGitMappings_failed_iff d ms [] cs hall).2 hf
  exact hs e (by simpa using he)

end BaseStage

/-- C22, counterexample. The labels of the candidate `candidateVendorGone` cannot be parsed by
the second git mapping, yet the ancestry check of the first git mapping on it fails and
`selectStagesAncestorsByGitMappings` returns that error; without the candidate the other
candidate is kept. -/
theorem BaseStage.selectStagesAncestorsByGitMappings_unparseable_error :
    UnparseableLabels [exampleMappingVendor, exampleMapping] candidateVendorGone ∧
      BaseStage.selectStagesAncestorsByGitMappings [exampleMappingVendor, exampleMapping]
        [candidateVendorGone, candidateBoth] =
        .error "error checking commits ancestry gone<-V: bad object gone" ∧
      BaseStage.selectStagesAncestorsByGitMappings [exampleMappingVendor, exampleMapping]
        [candidateBoth] = .ok [candidateBoth] :=
  ⟨⟨exampleMapping, by simp, "no commit label", rfl⟩, rfl, rfl⟩

/-- C22, amended. Only unparseable labels are swallowed during selection:
`selectStagesAncestorsByGitMappings` returns an error if and only if `GetLatestCommitInfo`
fails for some git mapping or `IsAncestor` fails on a check that is performed on some
candidate; a candidate whose labels cannot be parsed by `GetBuiltImageCommitInfo` for some
git mapping, and on which no performed ancestry check fails, changes nothing: the result,
error or list, is the one without the candidate, and the candidate is not in the list. -/
theorem BaseStage.selectStagesAncestorsByGitMappings_swallows_unparseable
    (gitMappings : List GitMapping) (stages : List StageDescription) :
    ((∃ err, BaseStage.selectStagesAncestorsByGitMappings gitMappings stages = .error err) ↔
      (∃ m ∈ gitMappings, ∃ e, m.GetLatestCommitInfo = .error e) ∨
        ∃ d ∈ stages, AncestryCheckFails gitMappings d) ∧
    ∀ pre d post, stages = pre ++ d :: post → UnparseableLabels gitMappings d →
      ¬ AncestryCheckFails gitMappings d →
      BaseStage.selectStagesAncestorsByGitMappings gitMappings stages =
        BaseStage.selectStagesAncestorsByGitMappings gitMappings (pre ++ post) ∧
      ∀ res, BaseStage.selectStagesAncestorsByGitMappings gitMappings stages = .ok res →
        d ∉ res := by
  refine ⟨BaseStage.selectStagesAncestorsByGitMappings_error_iff gitMappings stages, ?_⟩
  intro pre d post hsplit hunp hnot
  refine ⟨?_, ?_⟩
  · rw [hsplit]
    exact BaseStage.selectStagesAncestorsByGitMappings_skip gitMappings pre post d hunp hnot
  · intro res hres hin
    have hpass :=
      ((BaseStage.selectStagesAncestorsByGitMappings_mem gitMappings stages res hres d).1 hin).2
    obtain ⟨m, hm, e, he⟩ := hunp
    obtain ⟨_, built, _, h2, _⟩ := hpass m hm
    rw [he] at h2
    exact absurd h2 (by simp)

theorem BaseStage.selectStagesAncestorsByGitMappings_swallows_unparseable_witness :
    UnparseableLabels [exampleMappingVendor, exampleMapping] candidateVendorOnly ∧
      ¬ AncestryCheckFails [exampleMappingVendor, exampleMapping] candidateVendorOnly ∧
      BaseStage.selectStagesAncestorsByGitMappings [exampleMappingVendor, exampleMapping]
          [candidateVendorOnly, candidateBoth] =
        BaseStage.selectStagesAncestorsByGitMappings [exampleMappingVendor, exampleMapping]
          ([] ++ [candidateBoth]) ∧
      ∀ res, BaseStage.selectStagesAncestorsByGitMappings [exampleMappingVendor, exampleMapping]
          [candidateVendorOnly, candidateBoth] = .ok res → candidateVendorOnly ∉ res :=
  have hunp : UnparseableLabels [exampleMappingVendor, exampleMapping] candidateVendorOnly :=
    ⟨exampleMapping, by simp, "no commit label", rfl⟩
  have hnot : ¬ AncestryCheckFails [exampleMappingVendor, exampleMapping] candidateVendorOnly :=
    BaseStage.not_ancestryCheckFails_of_scan [exampleMappingVendor, exampleMapping] ["V", "H"]
      candidateVendorOnly rfl
      (fun e h =>
        ScanOutcome.noConfusion (show BaseStage.ScanOutcome.ignored = .failed e from h))
  ⟨hunp, hnot,
    (BaseStage.selectStagesAncestorsByGitMappings_swallows_unparseable
      [exampleMappingVendor, exampleMapping] [candidateVendorOnly, candidateBoth]).2
      [] candidateVendorOnly [candidateBoth] rfl hunp hnot⟩

/-! ## Theorems: isolation and storage driver of the container runtime -/

/-- C23. Isolation selection fails exactly on bad configuration: with `v` the value of
`WERF_CONTAINER_RUNTIME_BUILDAH_ISOLATION`, `GetContainerRuntimeBuildahIsolation` returns an
error if and only if `v` is none of `rootless`, `oci-rootless`, `chroot`, `default` and the
empty string, or `v` is `rootless` or `oci-rootless` and the process runs in a container, or
`v` is one of `rootless`, `oci-rootless`, `default` and the empty string and the in-container
detection fails; otherwise it returns `oci-rootless` for `rootless` and `oci-rootless`,
`chroot` for `chroot`, and the default isolation for `default` and the empty string. -/
theorem common.GetContainerRuntimeBuildahIsolation_error_iff (env : ProcessEnv) :
    ((∃ err, common.GetContainerRuntimeBuildahIsolation env = .error err) ↔
      (env.Getenv "WERF_CONTAINER_RUNTIME_BUILDAH_ISOLATION" ∉
          ["rootless", "oci-rootless", "chroot", "default", ""]) ∨
        (env.Getenv "WERF_CONTAINER_RUNTIME_BUILDAH_ISOLATION" ∈ ["rootless", "oci-rootless"] ∧
          env.IsInContainer = .ok true) ∨
        (env.Getenv "WERF_CONTAINER_RUNTIME_BUILDAH_ISOLATION" ∈
            ["rootless", "oci-rootless", "default", ""] ∧
          ∃ e, env.IsInContainer = .error e)) ∧
    (env.Getenv "WERF_CONTAINER_RUNTIME_BUILDAH_ISOLATION" ∈ ["rootless", "oci-rootless"] →
      env.IsInContainer = .ok false →
      common.GetContainerRuntimeBuildahIsolation env = .ok types.IsolationOCIRootless) ∧
    (env.Getenv "WERF_CONTAINER_RUNTIME_BUILDAH_ISOLATION" = "chroot" →
      common.GetContainerRuntimeBuildahIsolation env = .ok types.IsolationChroot) ∧
    (env.Getenv "WERF_CONTAINER_RUNTIME_BUILDAH_ISOLATION" ∈ ["default", ""] →
      ∀ inContainer, env.IsInContainer = .ok inContainer →
        common.GetContainerRuntimeBuildahIsolation env = buildah.GetDefaultIsolation env ∧
        buildah.GetDefaultIsolation env =
          .ok (if inContainer then types.IsolationChroot else types.IsolationOCIRootless)) := by
  unfold common.GetContainerRuntimeBuildahIsolation buildah.GetDefaultIsolation
  generalize env.Getenv "WERF_CONTAINER_RUNTIME_BUILDAH_ISOLATION" = v
  by_cases h1 : v = "rootless"
  · subst h1
    cases hin : env.IsInContainer with
    | error e => simp
    | ok b => cases b <;> simp
  by_cases h2 : v = "oci-rootless"
  · subst h2
    cases hin : env.IsInContainer with
    | error e => simp
    | ok b => cases b <;> simp
  by_cases h3 : v = "chroot"
  · subst h3
    cases hin : env.IsInContainer with
    | error e => simp
    | ok b => cases b <;> simp
  by_cases h4 : v = "default"
  · subst h4
    cases hin : env.IsInContainer with
    | error e => simp
    | ok b => cases b <;> simp
  by_cases h5 : v = ""
  · subst h5
    cases hin : env.IsInContainer with
    | error e => simp
    | ok b => cases b <;> simp
  simp [h1, h2, h3, h4, h5]

theorem common.GetContainerRuntimeBuildahIsolation_error_iff_witness :
    common.GetContainerRuntimeBuildahIsolation
        (exampleProcessEnv "rootless" "" (.ok false)) = .ok types.IsolationOCIRootless ∧
      common.GetContainerRuntimeBuildahIsolation
        (exampleProcessEnv "chroot" "" (.error "no cgroup")) = .ok types.IsolationChroot ∧
      (common.GetContainerRuntimeBuildahIsolation (exampleProcessEnv "" "" (.ok true)) =
          buildah.GetDefaultIsolation (exampleProcessEnv "" "" (.ok true)) ∧
        buildah.GetDefaultIsolation (exampleProcessEnv "" "" (.ok true)) =
          .ok (if true then types.IsolationChroot else types.IsolationOCIRootless)) ∧
      ∃ err, common.GetContainerRuntimeBuildahIsolation
        (exampleProcessEnv "Rootless" "" (.ok false)) = .error err :=
  ⟨(common.GetContainerRuntimeBuildahIsolation_error_iff
      (exampleProcessEnv "rootless" "" (.ok false))).2.1 (by decide) rfl,
    (common.GetContainerRuntimeBuildahIsolation_error_iff
      (exampleProcessEnv "chroot" "" (.error "no cgroup"))).2.2.1 rfl,
    (common.GetContainerRuntimeBuildahIsolation_error_iff
      (exampleProcessEnv "" "" (.ok true))).2.2.2 (by decide) true rfl,
    (common.GetContainerRuntimeBuildahIsolation_error_iff
      (exampleProcessEnv "Rootless" "" (.ok false))).1.2 (Or.inl (by decide))⟩

/-- C24. Rootless isolation is never selected inside a container: when the process runs in a
container, an isolation returned by `GetContainerRuntimeBuildahIsolation`, for any value of
`WERF_CONTAINER_RUNTIME_BUILDAH_ISOLATION`, or by `GetDefaultIsolation` is `chroot`. -/
theorem common.GetContainerRuntimeBuildahIsolation_in_container (env : ProcessEnv)
    (hin : env.IsInContainer = .ok true) :
    (∀ isolation, common.GetContainerRuntimeBuildahIsolation env = .ok isolation →
      isolation = types.IsolationChroot ∧ isolation ≠ types.IsolationOCIRootless) ∧
    (∀ isolation, buildah.GetDefaultIsolation env = .ok isolation →
      isolation = types.IsolationChroot ∧ isolation ≠ types.IsolationOCIRootless) := by
  have hne : types.IsolationChroot ≠ types.IsolationOCIRootless := by decide
  unfold common.GetContainerRuntimeBuildahIsolation buildah.GetDefaultIsolation
  simp only [hin]
  refine ⟨?_, ?_⟩
  · intro isolation h
    split_ifs at h <;> cases h <;> exact ⟨rfl, hne⟩
  · intro isolation h
    simp only [Except.ok.injEq] at h
    subst h
    exact ⟨rfl, hne⟩

theorem common.GetContainerRuntimeBuildahIsolation_in_container_witness :
    common.GetContainerRuntimeBuildahIsolation (exampleProcessEnv "default" "" (.ok true)) =
        .ok types.IsolationChroot ∧
      (∀ isolation,
        common.GetContainerRuntimeBuildahIsolation (exampleProcessEnv "default" "" (.ok true)) =
          .ok isolation →
        isolation = types.IsolationChroot ∧ isolation ≠ types.IsolationOCIRootless) ∧
      (∀ isolation, buildah.GetDefaultIsolation (exampleProcessEnv "default" "" (.ok true)) =
          .ok isolation →
        isolation = types.IsolationChroot ∧ isolation ≠ types.IsolationOCIRootless) :=
  ⟨rfl, common.GetContainerRuntimeBuildahIsolation_in_container
    (exampleProcessEnv "default" "" (.ok true)) rfl⟩

/-- C25. Storage driver selection: with `v` the value of
`WERF_CONTAINER_RUNTIME_BUILDAH_STORAGE_DRIVER`, `GetContainerRuntimeBuildahStorageDriver`
returns `overlay` when `v` is `overlay`, `default` or the empty string, returns `vfs` when `v`
is `vfs`, and returns the error `unexpected driver specified` with `v` for every other value;
the match is exact, so `Overlay` and `VFS` are errors. -/
theorem common.GetContainerRuntimeBuildahStorageDriver_cases (env : ProcessEnv) :
    (env.Getenv "WERF_CONTAINER_RUNTIME_BUILDAH_STORAGE_DRIVER" ∈ ["overlay", "default", ""] →
      common.GetContainerRuntimeBuildahStorageDriver env = .ok buildah.StorageDriverOverlay) ∧
    (env.Getenv "WERF_CONTAINER_RUNTIME_BUILDAH_STORAGE_DRIVER" = "vfs" →
      common.GetContainerRuntimeBuildahStorageDriver env = .ok buildah.StorageDriverVFS) ∧
    (env.Getenv "WERF_CONTAINER_RUNTIME_BUILDAH_STORAGE_DRIVER" ∉
        ["overlay", "vfs", "default", ""] →
      common.GetContainerRuntimeBuildahStorageDriver env =
        .error ("unexpected driver specified: " ++
          env.Getenv "WERF_CONTAINER_RUNTIME_BUILDAH_STORAGE_DRIVER")) ∧
    (∀ inContainer,
      common.GetContainerRuntimeBuildahStorageDriver
          (exampleProcessEnv "" "Overlay" inContainer) =
        .error "unexpected driver specified: Overlay" ∧
      common.GetContainerRuntimeBuildahStorageDriver (exampleProcessEnv "" "VFS" inContainer) =
        .error "unexpected driver specified: VFS") := by
  unfold common.GetContainerRuntimeBuildahStorageDriver buildah.DefaultStorageDriver
    buildah.StorageDriverOverlay buildah.StorageDriverVFS
  refine ⟨?_, ?_, ?_, ?_⟩
  · generalize env.Getenv "WERF_CONTAINER_RUNTIME_BUILDAH_STORAGE_DRIVER" = v
    intro hv
    simp only [List.mem_cons, List.mem_singleton, List.not_mem_nil, or_false] at hv
    rcases hv with rfl | rfl | rfl <;> simp
  · generalize env.Getenv "WERF_CONTAINER_RUNTIME_BUILDAH_STORAGE_DRIVER" = v
    rintro rfl
    simp
  · generalize env.Getenv "WERF_CONTAINER_RUNTIME_BUILDAH_STORAGE_DRIVER" = v
    intro hv
    simp only [List.mem_cons, List.mem_singleton, List.not_mem_nil, or_false, not_or] at hv
    simp [hv.1, hv.2.1, hv.2.2.1, hv.2.2.2]
  · intro inContainer
    exact ⟨rfl, rfl⟩

theorem common.GetContainerRuntimeBuildahStorageDriver_cases_witness :
    common.GetContainerRuntimeBuildahStorageDriver (exampleProcessEnv "" "default" (.ok false)) =
        .ok buildah.StorageDriverOverlay ∧
      common.GetContainerRuntimeBuildahStorageDriver (exampleProcessEnv "" "vfs" (.ok false)) =
        .ok buildah.StorageDriverVFS ∧
      common.GetContainerRuntimeBuildahStorageDriver (exampleProcessEnv "" "zfs" (.ok false)) =
        .error ("unexpected driver specified: " ++
          (exampleProcessEnv "" "zfs" (.ok false)).Getenv
            "WERF_CONTAINER_RUNTIME_BUILDAH_STORAGE_DRIVER") :=
  ⟨(common.GetContainerRuntimeBuildahStorageDriver_cases
      (exampleProcessEnv "" "default" (.ok false))).1 (by decide),
    (common.GetContainerRuntimeBuildahStorageDriver_cases
      (exampleProcessEnv "" "vfs" (.ok false))).2.1 rfl,
    (common.GetContainerRuntimeBuildahStorageDriver_cases
      (exampleProcessEnv "" "zfs" (.ok false))).2.2.1 (by decide)⟩

/-! ## Theorems: the tie-break of the oldest stage -/

namespace BaseStage

theorem foldl_oldestStep_keep (l : List StageDescription) (d : StageDescription)
    (h : ∀ x ∈ l, ¬ x.StageID.UniqueIDAsTime < d.StageID.UniqueIDAsTime) :
    l.foldl oldestStep (some d) = some d := by
  induction l with
  | nil => rfl
  | cons a l ih =>
    have ha := h a (by simp)
    simp only [List.foldl, oldestStep, ha, if_false]
    exact ih (fun x hx => h x (by simp [hx]))

theorem foldl_oldestStep_later (pre : List StageDescription) (o : Option StageDescription)
    (d : StageDescription)
    (hpre : ∀ x ∈ pre, d.StageID.UniqueIDAsTime < x.StageID.UniqueIDAsTime)
    (ho : ∀ x, o = some x → d.StageID.UniqueIDAsTime < x.StageID.UniqueIDAsTime) :
    ∀ x, pre.foldl oldestStep o = some x →
      d.StageID.UniqueIDAsTime < x.StageID.UniqueIDAsTime := by
  induction pre generalizing o with
  | nil => simpa using ho
  | cons a pre ih =>
    simp only [List.foldl]
    apply ih _ (fun x hx => hpre x (by simp [hx]))
    intro x hx
    have ha := hpre a (by simp)
    cases o with
    | none =>
      simp only [oldestStep, Option.some.injEq] at hx
      subst hx
      exact ha
    | some y =>
      simp only [oldestStep] at hx
      split_ifs at hx
      · simp only [Option.some.injEq] at hx
        subst hx
        exact ha
      · exact ho x hx

end BaseStage

/-- C26. Tie-break is iteration order: in a candidate list where the candidate `d` is followed
by candidates that are not before it by `UniqueIDAsTime` (some may share its time) and is
preceded by candidates that are strictly after it only, so that `d` is the first in the list
of the candidates with the earliest time, `selectStageByOldestCreationTimestamp` returns `d`.
-/
theorem BaseStage.selectStageByOldestCreationTimestamp_first_of_ties
    (pre post : List StageDescription) (d : StageDescription)
    (hpre : ∀ x ∈ pre, d.StageID.UniqueIDAsTime < x.StageID.UniqueIDAsTime)
    (hpost : ∀ x ∈ post, d.StageID.UniqueIDAsTime ≤ x.StageID.UniqueIDAsTime) :
    BaseStage.selectStageByOldestCreationTimestamp (pre ++ d :: post) = .ok (some d) := by
  unfold BaseStage.selectStageByOldestCreationTimestamp
  rw [List.foldl_append, List.foldl_cons]
  have hlater := BaseStage.foldl_oldestStep_later pre none d hpre (by simp)
  have hstep : BaseStage.oldestStep (pre.foldl BaseStage.oldestStep none) d = some d := by
    cases hp : pre.foldl BaseStage.oldestStep none with
    | none => rfl
    | some y => simp [BaseStage.oldestStep, hlater y hp]
  rw [hstep, BaseStage.foldl_oldestStep_keep post d (fun x hx => by
    have := hpost x hx
    omega)]

theorem BaseStage.selectStageByOldestCreationTimestamp_first_of_ties_witness :
    candidateC2.StageID.UniqueIDAsTime = candidateC2Twin.StageID.UniqueIDAsTime ∧
      BaseStage.selectStageByOldestCreationTimestamp
        ([candidateC1] ++ candidateC2 :: [candidateC3, candidateC2Twin]) =
        .ok (some candidateC2) ∧
      BaseStage.selectStageByOldestCreationTimestamp
        ([candidateC1] ++ candidateC2Twin :: [candidateC3, candidateC2]) =
        .ok (some candidateC2Twin) :=
  ⟨rfl,
    BaseStage.selectStageByOldestCreationTimestamp_first_of_ties [candidateC1]
      [candidateC3, candidateC2Twin] candidateC2 (by decide) (by decide),
    BaseStage.selectStageByOldestCreationTimestamp_first_of_ties [candidateC1]
      [candidateC3, candidateC2] candidateC2Twin (by decide) (by decide)⟩

/-! ## Theorems: the merged mounts are duplicate-free -/

theorem duplicateFree_empty : DuplicateFree ∅ := by
  intro k l h
  simp at h

theorem duplicateFree_insert (m : Mounts) (k : String) (l : List String)
    (hm : DuplicateFree m) (hl : l.Nodup) : DuplicateFree (m.insert k l) := by
  intro k2 l2 h
  by_cases hk : k2 = k
  · subst hk
    rw [AList.lookup_insert] at h
    simp only [Option.some.injEq] at h
    subst h
    exact hl
  · rw [AList.lookup_insert_ne hk] at h
    exact hm k2 l2 h

theorem duplicateFree_foldl {α : Type} (f : Mounts → α → Mounts)
    (hf : ∀ m x, DuplicateFree m → DuplicateFree (f m x)) (l : List α) (init : Mounts)
    (h : DuplicateFree init) : DuplicateFree (l.foldl f init) := by
  induction l generalizing init with
  | nil => exact h
  | cons a l ih => exact ih _ (hf init a h)

theorem nodup_mountpoints_of_label (v : String) :
    (util.RejectEmptyStrings (util.UniqStrings (strings.Split v ";"))).Nodup :=
  (util.nodup_UniqStrings _).filter _

theorem duplicateFree_mergeMounts (a b : Mounts) (ha : DuplicateFree a) :
    DuplicateFree (mergeMounts a b) := by
  intro k l h
  rw [mergeMounts_lookup] at h
  cases hb : b.lookup k with
  | none =>
    rw [hb] at h
    exact ha k l h
  | some bv =>
    rw [hb] at h
    simp only [Option.some.injEq] at h
    subst h
    exact util.nodup_UniqStrings _

namespace BaseStage

theorem duplicateFree_getServiceMountsFromLabels (imagePkg : ImageConstants)
    (prevBuiltImage : Option StageDescription) :
    DuplicateFree (getServiceMountsFromLabels imagePkg prevBuiltImage) := by
  unfold getServiceMountsFromLabels
  apply duplicateFree_foldl _ _ _ _ duplicateFree_empty
  intro m x hm
  dsimp only
  cases (prevLabels prevBuiltImage).lookup x.1 with
  | none => exact hm
  | some v => exact duplicateFree_insert m _ _ hm (nodup_mountpoints_of_label v)

theorem duplicateFree_getCustomMountsFromLabels (imagePkg : ImageConstants)
    (prevBuiltImage : Option StageDescription) :
    DuplicateFree (getCustomMountsFromLabels imagePkg prevBuiltImage) := by
  unfold getCustomMountsFromLabels
  apply duplicateFree_foldl _ _ _ _ duplicateFree_empty
  intro m kv hm
  dsimp only
  split_ifs
  · exact hm
  · exact duplicateFree_insert m _ _ hm (nodup_mountpoints_of_label kv.2)

end BaseStage

/-- C27. Merged mounts handed to `PrepareImage` are duplicate-free: for every previous built
image, or none, with any labels and every list of configured mounts, no mountpoint list of
the result of `getServiceMounts` or of `getCustomMounts` contains a mountpoint twice, whether
its key comes from the labels, from the configuration or from both. -/
theorem BaseStage.getMounts_duplicateFree (imagePkg : ImageConstants) (s : BaseStage)
    (prevBuiltImage : Option StageDescription) :
    (∀ k l, (BaseStage.getServiceMounts imagePkg s prevBuiltImage).lookup k = some l →
      l.Nodup) ∧
    (∀ k l, (BaseStage.getCustomMounts imagePkg s prevBuiltImage).lookup k = some l →
      l.Nodup) :=
  ⟨duplicateFree_mergeMounts _ _
      (BaseStage.duplicateFree_getServiceMountsFromLabels imagePkg prevBuiltImage),
    duplicateFree_mergeMounts _ _
      (BaseStage.duplicateFree_getCustomMountsFromLabels imagePkg prevBuiltImage)⟩

theorem BaseStage.getMounts_duplicateFree_witness :
    (BaseStage.getServiceMountsFromConfig exampleStageRepeatedMounts).lookup "tmp_dir" =
        some ["/tmp/foo", "/tmp/foo"] ∧
      (BaseStage.getServiceMounts exampleConstants exampleStageRepeatedMounts
        (some examplePrevImage)).lookup "tmp_dir" = some ["/tmp/bar", "/tmp/foo"] ∧
      ["/tmp/bar", "/tmp/foo"].Nodup ∧
      (BaseStage.getCustomMounts exampleConstants exampleStageRepeatedMounts
        (some examplePrevImage)).lookup "/home/user/cache" = some ["/cache"] ∧
      ["/cache"].Nodup :=
  ⟨by decide, by decide,
    (BaseStage.getMounts_duplicateFree exampleConstants exampleStageRepeatedMounts
      (some examplePrevImage)).1 "tmp_dir" _ (by decide),
    by decide,
    (BaseStage.getMounts_duplicateFree exampleConstants exampleStageRepeatedMounts
      (some examplePrevImage)).2 "/home/user/cache" _ (by decide)⟩

/-! ## Theorems: the first occurrence of a separator -/

namespace strings

theorem any_tails_cons (sep : List Char) (c : Char) (l : List Char) :
    (c :: l).tails.any (fun t => sep.isPrefixOf t) =
      (sep.isPrefixOf (c :: l) || l.tails.any (fun t => sep.isPrefixOf t)) := by
  simp [List.tails]

theorem cut_isSome (sep l : List Char) :
    (cut sep l).isSome = l.tails.any (fun t => sep.isPrefixOf t) := by
  induction l with
  | nil =>
    cases sep with
    | nil => simp [cut]
    | cons a s => simp [cut, List.isPrefixOf]
  | cons c l ih =>
    rw [any_tails_cons, ← ih]
    by_cases hp : sep.isPrefixOf (c :: l) = true
    · simp [cut, hp]
    · simp [cut, hp]

theorem cut_eq_some_append (sep l a b : List Char) (h : cut sep l = some (a, b)) :
    l = a ++ sep ++ b := by
  induction l generalizing a with
  | nil =>
    simp only [cut] at h
    split_ifs at h with hs
    simp only [Option.some.injEq, Prod.mk.injEq] at h
    simp [← h.1, ← h.2, hs]
  | cons c l ih =>
    simp only [cut] at h
    split_ifs at h with hp
    · simp only [Option.some.injEq, Prod.mk.injEq] at h
      obtain ⟨t, ht⟩ := List.isPrefixOf_iff_prefix.1 hp
      rw [← h.1, ← h.2, ← ht]
      simp
    · simp only [Option.map_eq_some', Prod.mk.injEq] at h
      obtain ⟨⟨a0, b0⟩, hcut, ha, hb⟩ := h
      simp only at ha hb
      subst ha hb
      simp [ih a0 hcut]

theorem cut_first (sep l a b : List Char) (h : cut sep l = some (a, b)) (a2 b2 : List Char)
    (h2 : l = a2 ++ sep ++ b2) : a.length ≤ a2.length := by
  induction l generalizing a a2 with
  | nil =>
    simp only [cut] at h
    split_ifs at h
    simp only [Option.some.injEq, Prod.mk.injEq] at h
    simp [← h.1]
  | cons c l ih =>
    simp only [cut] at h
    split_ifs at h with hp
    · simp only [Option.some.injEq, Prod.mk.injEq] at h
      simp [← h.1]
    · simp only [Option.map_eq_some', Prod.mk.injEq] at h
      obtain ⟨⟨a0, b0⟩, hcut, ha, hb⟩ := h
      simp only at ha hb
      subst ha hb
      cases a2 with
      | nil =>
        exfalso
        apply hp
        rw [List.isPrefixOf_iff_prefix, h2]
        simp
      | cons c2 a3 =>
        simp only [List.cons_append, List.cons.injEq] at h2
        have := ih a0 hcut a3 (by simpa using h2.2)
        simp only [List.length_cons]
        omega

theorem cut_isSome_of_append (sep a b : List Char) : (cut sep (a ++ sep ++ b)).isSome = true := by
  rw [cut_isSome, List.any_eq_true]
  refine ⟨sep ++ b, ?_, ?_⟩
  · rw [List.mem_tails, List.append_assoc]
    exact List.suffix_append _ _
  · rw [List.isPrefixOf_iff_prefix]
    exact List.prefix_append _ _

theorem splitAux_ne_nil (sep : List Char) (n : Nat) (s : List Char) (hn : 0 < n) :
    splitAux sep n s ≠ [] := by
  match n, hn with
  | 1, _ => simp [splitAux]
  | m + 2, _ =>
    simp only [splitAux]
    cases cut sep s with
    | none => simp
    | some r => simp

theorem joinAux_cons_of_ne_nil (sep a : List Char) (rest : List (List Char)) (h : rest ≠ []) :
    joinAux sep (a :: rest) = a ++ sep ++ joinAux sep rest := by
  cases rest with
  | nil => exact absurd rfl h
  | cons b rest => rfl

theorem joinAux_splitAux (sep : List Char) (n : Nat) (s : List Char) (hn : 0 < n) :
    joinAux sep (splitAux sep n s) = s := by
  induction n generalizing s with
  | zero => exact absurd hn (by simp)
  | succ n ih =>
    cases n with
    | zero => rfl
    | succ m =>
      simp only [splitAux]
      cases hc : cut sep s with
      | none => rfl
      | some r =>
        obtain ⟨a, b⟩ := r
        simp only
        rw [joinAux_cons_of_ne_nil _ _ _ (splitAux_ne_nil sep (m + 1) b (by omega)),
          ih b (by omega)]
        exact (cut_eq_some_append sep s a b hc).symm

end strings

/-! ## Theorems: the documentation backend -/

namespace strings

theorem Contains_eq_cut_isSome (s sep : String) :
    Contains s sep = (cut sep.data s.data).isSome := by
  unfold Contains
  rw [cut_isSome]

theorem Split_of_cut (s sep : String) (a b : List Char) (hsep : sep.data ≠ [])
    (h : cut sep.data s.data = some (a, b)) :
    Split s sep = String.mk a :: (splitAux sep.data s.data.length b).map String.mk ∧
      0 < s.data.length := by
  have hs := cut_eq_some_append _ _ _ _ h
  have hlen : 0 < s.data.length := by
    have hpos := List.length_pos.2 hsep
    rw [hs]
    simp only [List.length_append]
    omega
  refine ⟨?_, hlen⟩
  obtain ⟨k, hk⟩ : ∃ k, s.data.length = k + 1 := ⟨s.data.length - 1, by omega⟩
  unfold Split SplitN
  simp only [hsep, if_false, hk, splitAux, h, List.map_cons]

theorem Join_map_mk (l : List (List Char)) (sep : String) :
    Join (l.map String.mk) sep = String.mk (joinAux sep.data l) := by
  unfold Join
  rw [List.map_map]
  have : (String.data ∘ String.mk) = id := by
    funext x
    rfl
  rw [this, List.map_id]

theorem TrimPrefix_slash_append (v : String) : TrimPrefix ("/" ++ v) "/" = v := by
  have hd : ("/" ++ v).data = '/' :: v.data := by
    rw [String.data_append]
    rfl
  unfold TrimPrefix HasPrefix
  rw [hd]
  simp [List.isPrefixOf]

theorem TrimPrefix_of_not_HasPrefix (s pre : String) (h : HasPrefix s pre = false) :
    TrimPrefix s pre = s := by
  unfold TrimPrefix
  simp [h]

end strings

/-- C29. The documentation backend splits the original URI at the first `/documentation/`:
when the value `u` of the header `x-original-uri` contains `/documentation/`, `u` is `a`,
`/documentation/`, `b` with no occurrence of `/documentation/` that starts before the end of
`a`, `getVersionURL` returns `a` without one leading slash, and `getCurrentPageURL` returns
`/documentation/` followed by `b`; otherwise `getVersionURL` returns the empty string and
`getCurrentPageURL` returns `/documentation/`. -/
theorem backend.getVersionURL_getCurrentPageURL_first_split (r : http.Request) :
    ((∃ a b : String, r.HeaderGet "x-original-uri" = a ++ "/documentation/" ++ b) →
      ∃ a b : String, r.HeaderGet "x-original-uri" = a ++ "/documentation/" ++ b ∧
        (∀ a2 b2 : String, r.HeaderGet "x-original-uri" = a2 ++ "/documentation/" ++ b2 →
          a.data.length ≤ a2.data.length) ∧
        (∀ v : String, a = "/" ++ v → backend.getVersionURL r = v) ∧
        (strings.HasPrefix a "/" = false → backend.getVersionURL r = a) ∧
        backend.getCurrentPageURL r = "/documentation/" ++ b) ∧
    ((¬ ∃ a b : String, r.HeaderGet "x-original-uri" = a ++ "/documentation/" ++ b) →
      backend.getVersionURL r = "" ∧ backend.getCurrentPageURL r = "/documentation/") := by
  have hsepd : ("/documentation/" : String).data ≠ [] := by decide
  unfold backend.getVersionURL backend.getCurrentPageURL
  generalize r.HeaderGet "x-original-uri" = u
  constructor
  · rintro ⟨a2, b2, h2⟩
    have hsome : (strings.cut ("/documentation/" : String).data u.data).isSome = true := by
      rw [h2, String.data_append, String.data_append]
      exact strings.cut_isSome_of_append _ _ _
    obtain ⟨⟨a, b⟩, hcut⟩ := Option.isSome_iff_exists.1 hsome
    have hcont : strings.Contains u "/documentation/" = true := by
      rw [strings.Contains_eq_cut_isSome, hcut]
      rfl
    obtain ⟨hsplit, hlen⟩ := strings.Split_of_cut u "/documentation/" a b hsepd hcut
    have hrest := strings.splitAux_ne_nil ("/documentation/" : String).data u.data.length b hlen
    refine ⟨String.mk a, String.mk b, ?_, ?_, ?_, ?_, ?_⟩
    · apply String.ext
      rw [String.data_append, String.data_append]
      exact strings.cut_eq_some_append _ _ _ _ hcut
    · intro a3 b3 h3
      exact strings.cut_first _ _ _ _ hcut a3.data b3.data
        (by rw [h3, String.data_append, String.data_append])
    · intro v hv
      simp only [hcont, if_true, hsplit, List.headD_cons]
      rw [hv]
      exact strings.TrimPrefix_slash_append v
    · intro hpre
      simp only [hcont, if_true, hsplit, List.headD_cons]
      exact strings.TrimPrefix_of_not_HasPrefix _ _ hpre
    · have hlen2 : (String.mk a ::
          (strings.splitAux ("/documentation/" : String).data u.data.length b).map
            String.mk).length > 1 := by
        have := List.length_pos.2 hrest
        rw [List.length_cons, List.length_map]
        omega
      simp only [hcont, if_true, hsplit, hlen2, List.drop_succ_cons, List.drop_zero]
      rw [strings.Join_map_mk, strings.joinAux_splitAux _ _ _ hlen]
  · intro hnone
    have hcont : strings.Contains u "/documentation/" = false := by
      rw [strings.Contains_eq_cut_isSome]
      cases hcut : strings.cut ("/documentation/" : String).data u.data with
      | none => rfl
      | some p =>
        exfalso
        apply hnone
        refine ⟨String.mk p.1, String.mk p.2, ?_⟩
        apply String.ext
        rw [String.data_append, String.data_append]
        exact strings.cut_eq_some_append _ _ _ _ hcut
    simp only [hcont, Bool.false_eq_true, if_false]
    exact ⟨by decide, trivial⟩

set_option maxRecDepth 100000 in
theorem backend.getVersionURL_getCurrentPageURL_first_split_witness :
    backend.getVersionURL
        (exampleRequest "/v1.2.3-plus-fix5/documentation/reference/build_process.html") =
        "v1.2.3-plus-fix5" ∧
      backend.getCurrentPageURL
        (exampleRequest "/v1.2.3-plus-fix5/documentation/reference/build_process.html") =
        "/documentation/reference/build_process.html" ∧
      (∃ a b : String,
        (exampleRequest "/v1.2.3-plus-fix5/documentation/reference/build_process.html").HeaderGet
            "x-original-uri" = a ++ "/documentation/" ++ b ∧
          (∀ a2 b2 : String,
            (exampleRequest
              "/v1.2.3-plus-fix5/documentation/reference/build_process.html").HeaderGet
              "x-original-uri" = a2 ++ "/documentation/" ++ b2 →
            a.data.length ≤ a2.data.length) ∧
          (∀ v : String, a = "/" ++ v →
            backend.getVersionURL
              (exampleRequest "/v1.2.3-plus-fix5/documentation/reference/build_process.html") =
              v) ∧
          (strings.HasPrefix a "/" = false →
            backend.getVersionURL
              (exampleRequest "/v1.2.3-plus-fix5/documentation/reference/build_process.html") =
              a) ∧
          backend.getCurrentPageURL
            (exampleRequest "/v1.2.3-plus-fix5/documentation/reference/build_process.html") =
            "/documentation/" ++ b) ∧
      backend.getVersionURL (exampleRequest "/index.html") = "" ∧
      backend.getCurrentPageURL (exampleRequest "/index.html") = "/documentation/" :=
  ⟨by decide, by decide,
    (backend.getVersionURL_getCurrentPageURL_first_split
      (exampleRequest "/v1.2.3-plus-fix5/documentation/reference/build_process.html")).1
      ⟨"/v1.2.3-plus-fix5", "reference/build_process.html", by decide⟩,
    by decide, by decide⟩

/-! ## Theorems: the memoisation key of an import source and its path filters -/

namespace strings

theorem cut_eq_none_of_not_occurs (sep l : List Char)
    (h : l.tails.any (fun t => sep.isPrefixOf t) = false) : cut sep l = none := by
  have hs := cut_isSome sep l
  rw [h] at hs
  cases hc : cut sep l with
  | none => rfl
  | some r =>
    rw [hc] at hs
    exact absurd hs (by simp)

theorem cut_slashes_append (p r : List Char)
    (hocc : p.tails.any (fun t => ['/', '/', '/'].isPrefixOf t) = false)
    (hlast : p.getLast? ≠ some '/') :
    cut ['/', '/', '/'] (p ++ ['/', '/', '/'] ++ r) = some (p, r) := by
  induction p with
  | nil => exact cut_self_append _ _ (by simp)
  | cons c p ih =>
    rw [any_tails_cons, Bool.or_eq_false_iff] at hocc
    have hlast2 : p.getLast? ≠ some '/' := by
      cases p with
      | nil => simp
      | cons x p2 => simpa using hlast
    have hnp : ['/', '/', '/'].isPrefixOf (c :: p ++ ['/', '/', '/'] ++ r) = false := by
      cases p with
      | nil =>
        have hc : c ≠ '/' := by simpa using hlast
        simp [List.isPrefixOf, Ne.symm hc]
      | cons x p2 =>
        cases p2 with
        | nil =>
          have hx : x ≠ '/' := by simpa using hlast
          simp [List.isPrefixOf, Ne.symm hx]
        | cons y p3 =>
          have h3 := hocc.1
          simp only [List.isPrefixOf, Bool.and_true] at h3
          simpa [List.isPrefixOf] using h3
    have hstep : cut ['/', '/', '/'] (c :: p ++ ['/', '/', '/'] ++ r) =
        (cut ['/', '/', '/'] (p ++ ['/', '/', '/'] ++ r)).map (fun q => (c :: q.1, q.2)) := by
      simp only [List.cons_append] at hnp ⊢
      simp only [cut, hnp, Bool.false_eq_true, if_false]
    rw [hstep, ih hocc.2 hlast2]
    rfl

theorem joinAux_slashes_inj (l1 l2 : List (List Char))
    (h1 : ∀ p ∈ l1, p ≠ [] ∧ p.tails.any (fun t => ['/', '/', '/'].isPrefixOf t) = false ∧
      p.getLast? ≠ some '/')
    (h2 : ∀ p ∈ l2, p ≠ [] ∧ p.tails.any (fun t => ['/', '/', '/'].isPrefixOf t) = false ∧
      p.getLast? ≠ some '/')
    (h : joinAux ['/', '/', '/'] l1 = joinAux ['/', '/', '/'] l2) : l1 = l2 := by
  induction l1 generalizing l2 with
  | nil =>
    cases l2 with
    | nil => rfl
    | cons q r2 =>
      cases r2 with
      | nil =>
        simp only [joinAux] at h
        exact absurd h.symm (h2 q (by simp)).1
      | cons q2 r3 =>
        have hl := congrArg List.length h
        simp only [joinAux, List.length_nil, List.length_append, List.length_cons] at hl
        omega
  | cons p r1 ih =>
    obtain ⟨hpne, hpocc, hplast⟩ := h1 p (by simp)
    cases r1 with
    | nil =>
      cases l2 with
      | nil =>
        simp only [joinAux] at h
        exact absurd h hpne
      | cons q r2 =>
        cases r2 with
        | nil =>
          simp only [joinAux] at h
          rw [h]
        | cons q2 r3 =>
          obtain ⟨_, hqocc, hqlast⟩ := h2 q (by simp)
          have hc1 := cut_eq_none_of_not_occurs _ _ hpocc
          have hc2 := cut_slashes_append q (joinAux ['/', '/', '/'] (q2 :: r3)) hqocc hqlast
          simp only [joinAux] at h
          rw [h, hc2] at hc1
          exact absurd hc1 (by simp)
    | cons p2 r1 =>
      have hc1 := cut_slashes_append p (joinAux ['/', '/', '/'] (p2 :: r1)) hpocc hplast
      cases l2 with
      | nil =>
        have hl := congrArg List.length h
        simp only [joinAux, List.length_nil, List.length_append, List.length_cons] at hl
        omega
      | cons q r2 =>
        obtain ⟨_, hqocc, hqlast⟩ := h2 q (by simp)
        cases r2 with
        | nil =>
          have hc2 := cut_eq_none_of_not_occurs _ _ hqocc
          simp only [joinAux] at h
          rw [← h, hc1] at hc2
          exact absurd hc2 (by simp)
        | cons q2 r3 =>
          have hc2 := cut_slashes_append q (joinAux ['/', '/', '/'] (q2 :: r3)) hqocc hqlast
          have h' : p ++ ['/', '/', '/'] ++ joinAux ['/', '/', '/'] (p2 :: r1) =
              q ++ ['/', '/', '/'] ++ joinAux ['/', '/', '/'] (q2 :: r3) := h
          rw [h', hc2] at hc1
          simp only [Option.some.injEq, Prod.mk.injEq] at hc1
          have hrest := ih (q2 :: r3) (fun x hx => h1 x (by simp [hx]))
            (fun x hx => h2 x (by simp [hx])) hc1.2.symm
          rw [hc1.1, hrest]

theorem getLast?_ne_of_not_HasSuffix (p : String) (h : HasSuffix p "/" = false) :
    p.data.getLast? ≠ some '/' := by
  intro hl
  obtain ⟨ys, hys⟩ := List.getLast?_eq_some_iff.1 hl
  have hsuf : HasSuffix p "/" = true := by
    unfold HasSuffix
    rw [List.isSuffixOf_iff_suffix, hys]
    exact List.suffix_append _ _
  rw [h] at hsuf
  exact absurd hsuf (by simp)

end strings

theorem Join_slashes_inj (l1 l2 : List String) (h1 : SeparablePaths l1)
    (h2 : SeparablePaths l2) (h : strings.Join l1 "///" = strings.Join l2 "///") : l1 = l2 := by
  have hconv : ∀ l : List String, SeparablePaths l → ∀ p ∈ l.map String.data,
      p ≠ [] ∧ p.tails.any (fun t => ['/', '/', '/'].isPrefixOf t) = false ∧
        p.getLast? ≠ some '/' := by
    intro l hl p hp
    obtain ⟨s, hs, rfl⟩ := List.mem_map.1 hp
    obtain ⟨hne, hsuf, hcon⟩ := hl s hs
    refine ⟨?_, hcon, strings.getLast?_ne_of_not_HasSuffix s hsuf⟩
    intro hnil
    exact hne (String.ext hnil)
  have hdata := congrArg String.data h
  have hmaps := strings.joinAux_slashes_inj _ _ (hconv l1 h1) (hconv l2 h2) hdata
  exact List.map_injective_iff.2 (fun a b hab => String.ext hab) hmaps

/-- C28, counterexample. The imports with the include paths `[]` and `[""]`, and the two
with the include paths `["a///b"]` and `["a", "b"]`, have the same source and different
include paths, and `getImportSourceID` feeds the same argument list to the hash function for
both. -/
theorem importSourceIDArgs_same_for_different_paths :
    getSourceImageContentDigest exampleConveyor (exampleImportWithPaths []) =
        getSourceImageContentDigest exampleConveyor (exampleImportWithPaths [""]) ∧
      (exampleImportWithPaths []).IncludePaths ≠ (exampleImportWithPaths [""]).IncludePaths ∧
      importSourceIDArgs exampleConveyor (exampleImportWithPaths []) =
        importSourceIDArgs exampleConveyor (exampleImportWithPaths [""]) ∧
      getSourceImageContentDigest exampleConveyor (exampleImportWithPaths ["a///b"]) =
        getSourceImageContentDigest exampleConveyor (exampleImportWithPaths ["a", "b"]) ∧
      (exampleImportWithPaths ["a///b"]).IncludePaths ≠
        (exampleImportWithPaths ["a", "b"]).IncludePaths ∧
      importSourceIDArgs exampleConveyor (exampleImportWithPaths ["a///b"]) =
        importSourceIDArgs exampleConveyor (exampleImportWithPaths ["a", "b"]) := by
  refine ⟨rfl, by decide, by decide, rfl, by decide, by decide⟩

/-- C28, amended. The memoisation key separates path filters up to their join with `///`:
for imports with the same source content digest, the argument lists that `getImportSourceID`
feeds to the hash function differ if and only if the `Add` paths differ or the joins with
`///` of the include paths or of the exclude paths differ; they differ whenever the include
paths, or the exclude paths, differ and no path in them is empty, ends with a slash or
contains `///`. -/
theorem importSourceIDArgs_separates_joined_paths {σ : Type} (c : Conveyor σ) (e1 e2 : Import)
    (hdigest : getSourceImageContentDigest c e1 = getSourceImageContentDigest c e2) :
    (importSourceIDArgs c e1 ≠ importSourceIDArgs c e2 ↔
      e1.Add ≠ e2.Add ∨
        strings.Join e1.IncludePaths "///" ≠ strings.Join e2.IncludePaths "///" ∨
        strings.Join e1.ExcludePaths "///" ≠ strings.Join e2.ExcludePaths "///") ∧
    (SeparablePaths e1.IncludePaths → SeparablePaths e2.IncludePaths →
      e1.IncludePaths ≠ e2.IncludePaths →
      importSourceIDArgs c e1 ≠ importSourceIDArgs c e2) ∧
    (SeparablePaths e1.ExcludePaths → SeparablePaths e2.ExcludePaths →
      e1.ExcludePaths ≠ e2.ExcludePaths →
      importSourceIDArgs c e1 ≠ importSourceIDArgs c e2) := by
  have hiff : importSourceIDArgs c e1 = importSourceIDArgs c e2 ↔
      e1.Add = e2.Add ∧
        strings.Join e1.IncludePaths "///" = strings.Join e2.IncludePaths "///" ∧
        strings.Join e1.ExcludePaths "///" = strings.Join e2.ExcludePaths "///" := by
    unfold importSourceIDArgs
    simp [hdigest]
  refine ⟨?_, ?_, ?_⟩
  · rw [Ne, hiff]
    tauto
  · intro h1 h2 hne heq
    exact hne (Join_slashes_inj _ _ h1 h2 (hiff.1 heq).2.1)
  · intro h1 h2 hne heq
    exact hne (Join_slashes_inj _ _ h1 h2 (hiff.1 heq).2.2)

theorem importSourceIDArgs_separates_joined_paths_witness :
    importSourceIDArgs exampleConveyor (exampleImportWithPaths ["*.go"]) ≠
      importSourceIDArgs exampleConveyor (exampleImportWithPaths ["cmd/werf", "pkg"]) :=
  (importSourceIDArgs_separates_joined_paths exampleConveyor (exampleImportWithPaths ["*.go"])
    (exampleImportWithPaths ["cmd/werf", "pkg"]) rfl).2.1
    (by
      intro p hp
      simp only [exampleImportWithPaths, exampleImport, List.mem_singleton] at hp
      subst hp
      decide)
    (by
      intro p hp
      simp only [exampleImportWithPaths, exampleImport, List.mem_cons, List.mem_singleton,
        List.not_mem_nil, or_false] at hp
      rcases hp with rfl | rfl <;> decide)
    (by decide)

/-! ## Theorems: the mapping between versions and URLs -/

namespace strings

theorem replaceAllAux_zero_cons (old new : List Char) (c : Char) (cs : List Char) :
    replaceAllAux old new 0 (c :: cs) =
      if old.isPrefixOf (c :: cs) then new ++ replaceAllAux old new (old.length - 1) cs
      else c :: replaceAllAux old new 0 cs := by
  simp only [replaceAllAux]

theorem replaceAllAux_skip_append (old new pre rest : List Char) :
    replaceAllAux old new pre.length (pre ++ rest) = replaceAllAux old new 0 rest := by
  induction pre with
  | nil => rfl
  | cons c pre ih => simpa [replaceAllAux] using ih

theorem replaceAllAux_single (o : Char) (new s : List Char) :
    replaceAllAux [o] new 0 s = s.flatMap (fun c => if c = o then new else [c]) := by
  induction s with
  | nil => rfl
  | cons c cs ih =>
    rw [replaceAllAux_zero_cons, List.flatMap_cons]
    by_cases h : c = o
    · subst h
      simp [List.isPrefixOf, ih]
    · have h2 : ¬ o = c := fun e => h e.symm
      simp [List.isPrefixOf, h, h2, ih]

theorem head_of_isPrefixOf_flatMap (f : Char → List Char)
    (hf : ∀ a, f a = [a] ∨ ∃ t, f a = '-' :: t) (x : Char) (xs v : List Char) (hx : x ≠ '-')
    (h : (x :: xs).isPrefixOf (v.flatMap f) = true) :
    ∃ rest, v = x :: rest ∧ xs.isPrefixOf (rest.flatMap f) = true := by
  cases v with
  | nil => simp [List.isPrefixOf] at h
  | cons a r =>
    rw [List.flatMap_cons] at h
    rcases hf a with ha | ⟨t, ha⟩
    · rw [ha] at h
      simp only [List.singleton_append, List.isPrefixOf_cons₂, Bool.and_eq_true,
        beq_iff_eq] at h
      exact ⟨r, by rw [h.1], h.2⟩
    · rw [ha] at h
      simp only [List.cons_append, List.isPrefixOf_cons₂, Bool.and_eq_true, beq_iff_eq] at h
      exact absurd h.1 hx

theorem dash_of_isPrefixOf_flatMap (f : Char → List Char) (xs v : List Char)
    (h : ('-' :: xs).isPrefixOf (v.flatMap f) = true) :
    ∃ y rest, v = y :: rest ∧ (y = '-' ∨ f y ≠ [y]) := by
  cases v with
  | nil => simp [List.isPrefixOf] at h
  | cons a r =>
    refine ⟨a, r, rfl, ?_⟩
    by_cases ha : f a = [a]
    · rw [List.flatMap_cons, ha] at h
      simp only [List.singleton_append, List.isPrefixOf_cons₂, Bool.and_eq_true,
        beq_iff_eq] at h
      exact Or.inl h.1.symm
    · exact Or.inr ha

end strings

namespace backend

theorem versionCharToURL_cases (a : Char) :
    versionCharToURL a = [a] ∨ ∃ t, versionCharToURL a = '-' :: t := by
  unfold versionCharToURL
  split_ifs
  · exact Or.inr ⟨_, rfl⟩
  · exact Or.inr ⟨_, rfl⟩
  · exact Or.inl rfl

theorem underscoreToURL_cases (a : Char) :
    underscoreToURL a = [a] ∨ ∃ t, underscoreToURL a = '-' :: t := by
  unfold underscoreToURL
  split_ifs
  · exact Or.inr ⟨_, rfl⟩
  · exact Or.inl rfl

theorem versionCharToURL_ne (y : Char) (h : versionCharToURL y ≠ [y]) : y = '+' ∨ y = '_' := by
  unfold versionCharToURL at h
  split_ifs at h with h1 h2
  · exact Or.inl h1
  · exact Or.inr h2
  · exact absurd rfl h

theorem underscoreToURL_ne (y : Char) (h : underscoreToURL y ≠ [y]) : y = '_' := by
  unfold underscoreToURL at h
  split_ifs at h with h1
  · exact h1
  · exact absurd rfl h

/-- When the text of a version in a URL continues with `plus-`, the version continues with
`plus` and a dash, a plus sign or an underscore. -/
theorem plus_of_isPrefixOf (v : List Char)
    (h : ['p', 'l', 'u', 's', '-'].isPrefixOf (v.flatMap versionCharToURL) = true) :
    ∃ y rest, v = 'p' :: 'l' :: 'u' :: 's' :: y :: rest ∧ (y = '-' ∨ y = '+' ∨ y = '_') := by
  obtain ⟨r1, rfl, h1⟩ := strings.head_of_isPrefixOf_flatMap _ versionCharToURL_cases
    'p' _ v (by decide) h
  obtain ⟨r2, rfl, h2⟩ := strings.head_of_isPrefixOf_flatMap _ versionCharToURL_cases
    'l' _ r1 (by decide) h1
  obtain ⟨r3, rfl, h3⟩ := strings.head_of_isPrefixOf_flatMap _ versionCharToURL_cases
    'u' _ r2 (by decide) h2
  obtain ⟨r4, rfl, h4⟩ := strings.head_of_isPrefixOf_flatMap _ versionCharToURL_cases
    's' _ r3 (by decide) h3
  obtain ⟨y, rest, rfl, hy⟩ := strings.dash_of_isPrefixOf_flatMap _ _ r4 h4
  refine ⟨y, rest, rfl, ?_⟩
  rcases hy with hy | hy
  · exact Or.inl hy
  · exact Or.inr (versionCharToURL_ne y hy)

/-- When the text of a version, with `-plus-` read back, continues with `u-`, the version
continues with `u` and a dash or an underscore. -/
theorem u_of_isPrefixOf (v : List Char)
    (h : ['u', '-'].isPrefixOf (v.flatMap underscoreToURL) = true) :
    ∃ y rest, v = 'u' :: y :: rest ∧ (y = '-' ∨ y = '_') := by
  obtain ⟨r1, rfl, h1⟩ := strings.head_of_isPrefixOf_flatMap _ underscoreToURL_cases
    'u' _ v (by decide) h
  obtain ⟨y, rest, rfl, hy⟩ := strings.dash_of_isPrefixOf_flatMap _ _ r1 h1
  refine ⟨y, rest, rfl, ?_⟩
  rcases hy with hy | hy
  · exact Or.inl hy
  · exact Or.inr (underscoreToURL_ne y hy)

end backend

namespace backend

theorem decode_plus (v : List Char)
    (h : ∀ x ∈ ['-', '_'], ∀ y ∈ ['-', '+', '_'],
      v.tails.any (fun t => [x, 'p', 'l', 'u', 's', y].isPrefixOf t) = false) :
    strings.replaceAllAux ['-', 'p', 'l', 'u', 's', '-'] ['+'] 0 (v.flatMap versionCharToURL) =
      v.flatMap underscoreToURL := by
  induction v with
  | nil => rfl
  | cons c v ih =>
    have hsplit : ∀ x ∈ ['-', '_'], ∀ y ∈ ['-', '+', '_'],
        [x, 'p', 'l', 'u', 's', y].isPrefixOf (c :: v) = false ∧
          v.tails.any (fun t => [x, 'p', 'l', 'u', 's', y].isPrefixOf t) = false := by
      intro x hx y hy
      have hxy := h x hx y hy
      rw [strings.any_tails_cons, Bool.or_eq_false_iff] at hxy
      exact hxy
    have ih2 := ih (fun x hx y hy => (hsplit x hx y hy).2)
    have hno : (c = '-' ∨ c = '_') →
        ['p', 'l', 'u', 's', '-'].isPrefixOf (v.flatMap versionCharToURL) = false := by
      intro hc
      by_contra hcon
      rw [Bool.not_eq_false] at hcon
      obtain ⟨y, rest, hv2, hy⟩ := plus_of_isPrefixOf v hcon
      have hy2 : y ∈ ['-', '+', '_'] := by
        rcases hy with rfl | rfl | rfl <;> simp
      have hc2 : c ∈ ['-', '_'] := by
        rcases hc with rfl | rfl <;> simp
      have hhead := (hsplit c hc2 y hy2).1
      rw [hv2] at hhead
      simp [List.isPrefixOf] at hhead
    rw [List.flatMap_cons, List.flatMap_cons]
    by_cases h1 : c = '+'
    · subst h1
      have e1 : versionCharToURL '+' = ['-', 'p', 'l', 'u', 's', '-'] := by decide
      have e2 : underscoreToURL '+' = ['+'] := by decide
      rw [e1, e2, List.cons_append, strings.replaceAllAux_zero_cons]
      have hp : ['-', 'p', 'l', 'u', 's', '-'].isPrefixOf
          ('-' :: (['p', 'l', 'u', 's', '-'] ++ v.flatMap versionCharToURL)) = true := by
        simp [List.isPrefixOf]
      rw [if_pos hp]
      have hskip := strings.replaceAllAux_skip_append ['-', 'p', 'l', 'u', 's', '-'] ['+']
        ['p', 'l', 'u', 's', '-'] (v.flatMap versionCharToURL)
      have hlen : ['-', 'p', 'l', 'u', 's', '-'].length - 1 =
          ['p', 'l', 'u', 's', '-'].length := rfl
      rw [hlen, hskip, ih2]
    by_cases h2 : c = '_'
    · subst h2
      have e1 : versionCharToURL '_' = ['-', 'u', '-'] := by decide
      have e2 : underscoreToURL '_' = ['-', 'u', '-'] := by decide
      have hn := hno (Or.inr rfl)
      rw [e1, e2]
      simp only [List.cons_append, List.nil_append]
      rw [strings.replaceAllAux_zero_cons, if_neg (by simp [List.isPrefixOf]),
        strings.replaceAllAux_zero_cons, if_neg (by simp [List.isPrefixOf]),
        strings.replaceAllAux_zero_cons, if_neg (by rw [List.isPrefixOf_cons₂, hn]; simp), ih2]
    by_cases h3 : c = '-'
    · subst h3
      have e1 : versionCharToURL '-' = ['-'] := by decide
      have e2 : underscoreToURL '-' = ['-'] := by decide
      have hn := hno (Or.inl rfl)
      rw [e1, e2]
      simp only [List.cons_append, List.nil_append]
      rw [strings.replaceAllAux_zero_cons, if_neg (by rw [List.isPrefixOf_cons₂, hn]; simp), ih2]
    · have e1 : versionCharToURL c = [c] := by simp [versionCharToURL, h1, h2]
      have e2 : underscoreToURL c = [c] := by simp [underscoreToURL, h2]
      have h4 : ¬ '-' = c := fun e => h3 e.symm
      rw [e1, e2]
      simp only [List.cons_append, List.nil_append]
      rw [strings.replaceAllAux_zero_cons, if_neg (by simp [List.isPrefixOf, h4]), ih2]

theorem decode_u (v : List Char)
    (h : ∀ y ∈ ['-', '_'], v.tails.any (fun t => ['-', 'u', y].isPrefixOf t) = false) :
    strings.replaceAllAux ['-', 'u', '-'] ['_'] 0 (v.flatMap underscoreToURL) = v := by
  induction v with
  | nil => rfl
  | cons c v ih =>
    have hsplit : ∀ y ∈ ['-', '_'], ['-', 'u', y].isPrefixOf (c :: v) = false ∧
        v.tails.any (fun t => ['-', 'u', y].isPrefixOf t) = false := by
      intro y hy
      have hxy := h y hy
      rw [strings.any_tails_cons, Bool.or_eq_false_iff] at hxy
      exact hxy
    have ih2 := ih (fun y hy => (hsplit y hy).2)
    have hno : c = '-' → ['u', '-'].isPrefixOf (v.flatMap underscoreToURL) = false := by
      intro hc
      by_contra hcon
      rw [Bool.not_eq_false] at hcon
      obtain ⟨y, rest, hv2, hy⟩ := u_of_isPrefixOf v hcon
      have hy2 : y ∈ ['-', '_'] := by
        rcases hy with rfl | rfl <;> simp
      have hhead := (hsplit y hy2).1
      rw [hv2, hc] at hhead
      simp [List.isPrefixOf] at hhead
    rw [List.flatMap_cons]
    by_cases h2 : c = '_'
    · subst h2
      have e2 : underscoreToURL '_' = ['-', 'u', '-'] := by decide
      rw [e2, List.cons_append, strings.replaceAllAux_zero_cons]
      have hp : ['-', 'u', '-'].isPrefixOf
          ('-' :: (['u', '-'] ++ v.flatMap underscoreToURL)) = true := by
        simp [List.isPrefixOf]
      rw [if_pos hp]
      have hskip := strings.replaceAllAux_skip_append ['-', 'u', '-'] ['_'] ['u', '-']
        (v.flatMap underscoreToURL)
      have hlen : ['-', 'u', '-'].length - 1 = ['u', '-'].length := rfl
      rw [hlen, hskip, ih2]
      rfl
    by_cases h3 : c = '-'
    · subst h3
      have e2 : underscoreToURL '-' = ['-'] := by decide
      have hn := hno rfl
      rw [e2]
      simp only [List.cons_append, List.nil_append]
      rw [strings.replaceAllAux_zero_cons, if_neg (by rw [List.isPrefixOf_cons₂, hn]; simp), ih2]
    · have e2 : underscoreToURL c = [c] := by simp [underscoreToURL, h2]
      have h4 : ¬ '-' = c := fun e => h3 e.symm
      rw [e2]
      simp only [List.cons_append, List.nil_append]
      rw [strings.replaceAllAux_zero_cons, if_neg (by simp [List.isPrefixOf, h4]), ih2]

theorem VersionToURL_data (v : String) :
    (VersionToURL v).data = v.data.flatMap versionCharToURL := by
  have h1 : ("+" : String).data = ['+'] := rfl
  have h2 : ("_" : String).data = ['_'] := rfl
  have h3 : ("-plus-" : String).data = ['-', 'p', 'l', 'u', 's', '-'] := rfl
  have h4 : ("-u-" : String).data = ['-', 'u', '-'] := rfl
  unfold VersionToURL strings.ReplaceAll
  simp only [h1, h2, h3, h4, List.cons_ne_nil, if_false]
  rw [strings.replaceAllAux_single, strings.replaceAllAux_single, List.flatMap_assoc]
  congr 1
  funext c
  unfold versionCharToURL
  by_cases hc : c = '+'
  · subst hc
    decide
  · simp [hc]

theorem URLToVersion_data (u : String) :
    (URLToVersion u).data =
      strings.replaceAllAux ['-', 'u', '-'] ['_'] 0
        (strings.replaceAllAux ['-', 'p', 'l', 'u', 's', '-'] ['+'] 0 u.data) := by
  have h1 : ("+" : String).data = ['+'] := rfl
  have h2 : ("_" : String).data = ['_'] := rfl
  have h3 : ("-plus-" : String).data = ['-', 'p', 'l', 'u', 's', '-'] := rfl
  have h4 : ("-u-" : String).data = ['-', 'u', '-'] := rfl
  unfold URLToVersion strings.ReplaceAll
  simp only [h1, h2, h3, h4, List.cons_ne_nil, if_false]

end backend

/-- C30, counterexample. The version `v1.2.3_plus_fix5` contains neither `-plus-` nor `-u-`,
its URL form is `v1.2.3-u-plus-u-fix5`, and `URLToVersion` reads `-plus-` in it first, which
gives `v1.2.3-u+u-fix5`. The same happens for the shortest versions of this kind: none of them
contains `-plus-` or `-u-`, and none is given back. -/
theorem backend.URLToVersion_VersionToURL_not_restored :
    strings.Contains "v1.2.3_plus_fix5" "-plus-" = false ∧
      strings.Contains "v1.2.3_plus_fix5" "-u-" = false ∧
      backend.VersionToURL "v1.2.3_plus_fix5" = "v1.2.3-u-plus-u-fix5" ∧
      backend.URLToVersion (backend.VersionToURL "v1.2.3_plus_fix5") = "v1.2.3-u+u-fix5" ∧
      backend.URLToVersion (backend.VersionToURL "v1.2.3_plus_fix5") ≠ "v1.2.3_plus_fix5" ∧
      ∀ v ∈ ["-plus+", "-plus_", "_plus-", "_plus+", "_plus_", "-u_"],
        strings.Contains v "-plus-" = false ∧ strings.Contains v "-u-" = false ∧
          backend.URLToVersion (backend.VersionToURL v) ≠ v := by
  decide

/-- C30, amended. The mapping between versions and URLs round-trips: for every version `v`
that contains none of `-plus-`, `-plus+`, `-plus_`, `_plus-`, `_plus+`, `_plus_`, `-u-` and
`-u_`, `URLToVersion (VersionToURL v)` is `v`. -/
theorem backend.URLToVersion_VersionToURL_restored (v : String)
    (h : ∀ p ∈ ["-plus-", "-plus+", "-plus_", "_plus-", "_plus+", "_plus_", "-u-", "-u_"],
      strings.Contains v p = false) :
    backend.URLToVersion (backend.VersionToURL v) = v := by
  apply String.ext
  rw [backend.URLToVersion_data, backend.VersionToURL_data]
  have hplus : ∀ x ∈ ['-', '_'], ∀ y ∈ ['-', '+', '_'],
      v.data.tails.any (fun t => [x, 'p', 'l', 'u', 's', y].isPrefixOf t) = false := by
    intro x hx y hy
    simp only [List.mem_cons, List.mem_singleton, List.not_mem_nil, or_false] at hx hy
    rcases hx with rfl | rfl <;> rcases hy with rfl | rfl | rfl
    · exact h "-plus-" (by simp)
    · exact h "-plus+" (by simp)
    · exact h "-plus_" (by simp)
    · exact h "_plus-" (by simp)
    · exact h "_plus+" (by simp)
    · exact h "_plus_" (by simp)
  have hu : ∀ y ∈ ['-', '_'],
      v.data.tails.any (fun t => ['-', 'u', y].isPrefixOf t) = false := by
    intro y hy
    simp only [List.mem_cons, List.mem_singleton, List.not_mem_nil, or_false] at hy
    rcases hy with rfl | rfl
    · exact h "-u-" (by simp)
    · exact h "-u_" (by simp)
  rw [backend.decode_plus v.data hplus, backend.decode_u v.data hu]

theorem backend.URLToVersion_VersionToURL_restored_witness :
    backend.VersionToURL "v1.2.3+fix5" = "v1.2.3-plus-fix5" ∧
      backend.URLToVersion "v1.2.3-plus-fix5" = "v1.2.3+fix5" ∧
      backend.URLToVersion (backend.VersionToURL "v1.2.3+fix5") = "v1.2.3+fix5" ∧
      backend.URLToVersion (backend.VersionToURL "v1.2.3-rc.1+fix_5") = "v1.2.3-rc.1+fix_5" :=
  ⟨by decide, by decide,
    backend.URLToVersion_VersionToURL_restored "v1.2.3+fix5" (by decide),
    backend.URLToVersion_VersionToURL_restored "v1.2.3-rc.1+fix_5" (by decide)⟩
